import Mathlib

/-!
Shallow embedding of the core of the mm0 elaborator:

* the hash-consing deduplicator and DAG lowering of
  `src/mm0-rs/src/elab/proof.rs` (`Dedup`, `ExprHash`, `ProofHash`,
  `Val`, `to_builder`), and
* the lisp evaluator of `src/mm0-rs/src/elab/lisp/eval.rs`
  (the explicit-stack machine, the builtin table, `tail`, pattern
  matching and match continuations).

Theorems at the end of the file check the specification claims
against these definitions.
-/

/-! ## Part 1: values seen by the deduplicator -/

mutual

/-- Lisp values as consumed by the deduplicator.  Modelled from the spec:
the `LispKind` data type itself lives outside the provided sources; the
variants follow the spec data model (section 3).  Each node carries an
allocation identity `pid` standing for the Rust pointer
(`*const LispKind`), which is the key of the `prev` table.  `Ref` cells
are modelled as immutable snapshots and `Annot` spans, procedure
payloads, map payloads and metavariable targets are elided, because the
deduplicator never inspects them. -/
inductive PVal where
  | mk (pid : Nat) (k : PKind)

/-- The tagged union of value shapes, deduplicator view.  See `PVal`. -/
inductive PKind where
  | atom (a : Nat)
  | num (n : Int)
  | str (s : String)
  | bool (b : Bool)
  | undef
  | list (es : List PVal)
  | dotted (es : List PVal) (r : PVal)
  | proc
  | ref (v : PVal)
  | atomMap
  | annot (v : PVal)
  | mvar
  | goal
  | formula (s : String)

end

/-- The allocation identity of a value (the Rust pointer). -/
def PVal.pid : PVal → Nat
  | .mk p _ => p

/-- The shape of a value. -/
def PVal.k : PVal → PKind
  | .mk _ k => k

/-- Models `LispKind::unwrapped_arc`: strip `Annot` wrappers and follow
`Ref` cells to the stored value (the unwrapping rule of the spec). -/
def unwrapP : PVal → PVal
  | .mk _ (.annot v) => unwrapP v
  | .mk _ (.ref v) => unwrapP v
  | v => v

/-- Models iterating an `Uncons` cursor to exhaustion (modelled from the
spec: `Uncons` lives outside the provided sources).  Returns the list of
elements the cursor yields and whether the cursor ends exactly at a
proper end (`u.exactly(0)` after consuming every element). -/
def unconsFlat : PVal → List PVal × Bool
  | .mk _ (.list es) => (es, true)
  | .mk _ (.dotted es r) => ((unconsFlat r).1, (unconsFlat r).2) |> fun p => (es ++ p.1, p.2)
  | .mk _ (.annot v) => unconsFlat v
  | .mk _ (.ref v) => unconsFlat v
  | _ => ([], false)

/-- Models `LispKind::as_atom` (unwraps, then matches an atom). -/
def asAtomP (v : PVal) : Option Nat :=
  match (unwrapP v).k with
  | .atom a => some a
  | _ => none

/-! ## Part 2: hash node variants and the `Dedup` table -/

/-- `ExprHash` of proof.rs. -/
inductive ExprHash where
  | Var (i : Nat)
  | Dummy (a : Nat) (s : Nat)
  | App (t : Nat) (ns : List Nat)
deriving DecidableEq, Repr

/-- `ProofHash` of proof.rs. -/
inductive ProofHash where
  | Var (i : Nat)
  | Dummy (a : Nat) (s : Nat)
  | Term (t : Nat) (ns : List Nat)
  | Hyp (i : Nat) (e : Nat)
  | Thm (t : Nat) (ns : List Nat) (r : Nat)
  | Conv (tgt : Nat) (c : Nat) (p : Nat)
  | Refl (i : Nat)
  | Sym (i : Nat)
  | Cong (t : Nat) (ns : List Nat)
  | Unfold (t : Nat) (ns : List Nat) (l : Nat) (r : Nat) (c : Nat)
deriving DecidableEq, Repr

/-- Error outcomes of the deduplicator.  The source reports
`ElabError` values with formatted messages; only the distinction between
the different failure points matters here, so each error site gets a
tag.  `noFuel` models nontermination of the Rust recursion (which can
loop on cyclic values), `idxErr` models an out-of-bounds indexing panic. -/
inductive DErr where
  | varNotFound
  | mvarFound
  | goalFound
  | badExpr
  | expectedAtom
  | notDeclared
  | convFmt
  | symFmt
  | unfoldFmt
  | expectedTerm
  | expectedDef
  | idxErr
  | dummySubst
  | noFuel
deriving DecidableEq, Repr

/-- Association-list lookup used to model the `HashMap`s of `Dedup`
(first entry whose key satisfies `p` wins; insertion prepends). -/
def assoc {α β : Type} (p : α → Bool) : List (α × β) → Option β
  | [] => none
  | (a, b) :: l => if p a then some b else assoc p l

/-- The `Dedup<H>` table: `map` is the canonical slot per node hash,
`prev` memoizes by pointer identity of the unwrapped value, and `vec`
stores each node hash with its shared-bit. -/
structure DedupT (H : Type) where
  map : List (H × Nat)
  prev : List (Nat × Nat)
  vec : List (H × Bool)
deriving DecidableEq, Repr

/-- Set the shared-bit of slot `n` (out of range: no slot is changed;
the Rust code `self.vec[n].1 = true` would panic there). -/
def setSharedVec {H : Type} : List (H × Bool) → Nat → List (H × Bool)
  | [], _ => []
  | e :: l, 0 => (e.1, true) :: l
  | e :: l, n + 1 => e :: setSharedVec l n

/-- Set the shared-bit of slot `n` of the table. -/
def DedupT.setShared {H : Type} (d : DedupT H) (n : Nat) : DedupT H :=
  { d with vec := setSharedVec d.vec n }

/-- `Dedup::add_direct`: look the hash up in `map`; on a hit mark the
slot shared and return it, otherwise append a fresh unshared slot. -/
def DedupT.addDirect {H : Type} [DecidableEq H] (d : DedupT H) (v : H) :
    Nat × DedupT H :=
  match assoc (fun h => decide (h = v)) d.map with
  | some n => (n, d.setShared n)
  | none =>
    (d.vec.length,
      { map := (v, d.vec.length) :: d.map,
        prev := d.prev,
        vec := d.vec ++ [(v, false)] })

/-- Record a pointer-identity memo entry (`self.prev.insert(p, n)`). -/
def DedupT.insPrev {H : Type} (d : DedupT H) (p n : Nat) : DedupT H :=
  { d with prev := (p, n) :: d.prev }

/-- `Dedup::new(nargs)`: seed the first `nargs` slots with `VAR(i)`,
pre-marked shared, and enter them in `map`. -/
def DedupT.new {H : Type} (VAR : Nat → H) (nargs : Nat) : DedupT H :=
  { map := (List.range nargs).map fun i => (VAR i, i),
    prev := [],
    vec := (List.range nargs).map fun i => (VAR i, true) }

/-! ## Part 3: the node hasher context -/

/-- `DeclKey` of the environment. -/
inductive DeclKey where
  | term (t : Nat)
  | thm (t : Nat)
deriving DecidableEq, Repr

/-- Nodes of a stored expression (`ExprNode` of the environment,
modelled from the spec and from its uses in proof.rs: `Ref(i)` into the
heap, `Dummy(a, s)`, `App(t, es)`). -/
inductive ExprNode where
  | Ref (n : Nat)
  | Dummy (a : Nat) (s : Nat)
  | App (t : Nat) (es : List ExprNode)

/-- Theorem data consumed by the proof hasher: formal argument count,
expression heap, and conclusion (`thms[tid].{args, heap, ret}`). -/
structure ThmData where
  args : Nat
  heap : List ExprNode
  ret : ExprNode

/-- Term data consumed by the proof hasher: formal argument count and
optional definition body (`terms[tid].{args, val}`). -/
structure TermData where
  args : Nat
  val : Option (Option (List ExprNode × ExprNode))

/-- The slice of the environment the hashers read (modelled from the
spec, section 6: these tables live outside the provided sources). -/
structure EnvM where
  decls : List (Nat × DeclKey)
  thms : List ThmData
  terms : List TermData

/-- `InferSort` as far as the hashers look at it. -/
inductive InferSortM where
  | bound (sort : Nat)
  | other
deriving DecidableEq, Repr

/-- The `NodeHasher`: variable map of the enclosing signature, the local
context entries the hashers consult, and the environment. -/
structure NodeHasherM where
  varMap : List (Nat × Nat)
  lcVars : List (Nat × (Bool × InferSortM))
  lcProofs : List (Nat × PVal)
  env : EnvM

/-- `lc.vars.get(&a)` filtered to `Some((true, InferSort::Bound{sort}))`. -/
def NodeHasherM.boundSort (nh : NodeHasherM) (a : Nat) : Option Nat :=
  match assoc (fun x => decide (x = a)) nh.lcVars with
  | some (true, .bound s) => some s
  | _ => none

/-- `lc.get_proof(a)`, yielding the stored proof value. -/
def NodeHasherM.getProof (nh : NodeHasherM) (a : Nat) : Option PVal :=
  assoc (fun x => decide (x = a)) nh.lcProofs

/-- `nh.fe.data[a].decl`. -/
def NodeHasherM.declOf (nh : NodeHasherM) (a : Nat) : Option DeclKey :=
  assoc (fun x => decide (x = a)) nh.env.decls

/-- `nh.fe.term(a)`: the atom resolved as a term identifier. -/
def NodeHasherM.termOf (nh : NodeHasherM) (a : Nat) : Option Nat :=
  match nh.declOf a with
  | some (.term t) => some t
  | _ => none

/-- The distinguished atom `AtomID::CONV` (`:conv`); the concrete
numbering of the interned special atoms is fixed arbitrarily. -/
def aCONV : Nat := 0

/-- The distinguished atom `AtomID::SYM` (`:sym`). -/
def aSYM : Nat := 1

/-- The distinguished atom `AtomID::UNFOLD` (`:unfold`). -/
def aUNFOLD : Nat := 2

/-! ## Part 4: the expression hasher (`ExprHash::from` and `Dedup::dedup`) -/

/-- Sequentially dedup a list of values, threading the table (the
`for e in u` loops of the hashers); `rec` is the recursive entry
`de.dedup(nh, e)`. -/
def dedupSeq {H : Type} (rec : DedupT H → PVal → Except DErr (Nat × DedupT H)) :
    DedupT H → List PVal → Except DErr (List Nat × DedupT H)
  | d, [] => .ok ([], d)
  | d, e :: es =>
    match rec d e with
    | .error er => .error er
    | .ok (n, d₁) =>
      match dedupSeq rec d₁ es with
      | .error er => .error er
      | .ok (ns, d₂) => .ok (n :: ns, d₂)

/-- `ExprHash::from`: decode an (unwrapped) value into either a new hash
to add or an existing index to reuse.  `rec` is the recursive
`de.dedup(nh, e)` call used on child values. -/
def exprHashOf (rec : DedupT ExprHash → PVal → Except DErr (Nat × DedupT ExprHash))
    (nh : NodeHasherM) (r : PVal) (d : DedupT ExprHash) :
    Except DErr ((ExprHash ⊕ Nat) × DedupT ExprHash) :=
  match r.k with
  | .atom a =>
    match assoc (fun x => decide (x = a)) nh.varMap with
    | some i => .ok (.inl (.Var i), d)
    | none =>
      match nh.boundSort a with
      | some s => .ok (.inl (.Dummy a s), d)
      | none => .error .varNotFound
  | .mvar => .error .mvarFound
  | _ =>
    match unconsFlat r with
    | ([], _) => .error .badExpr
    | (head :: elems, proper) =>
      match asAtomP head with
      | none => .error .expectedAtom
      | some a =>
        match nh.termOf a with
        | none => .error .notDeclared
        | some tid =>
          match dedupSeq rec d elems with
          | .error er => .error er
          | .ok (ns, d₁) =>
            if proper then .ok (.inl (.App tid ns), d₁) else .error .badExpr

/-- `Dedup::dedup` in `ExprHash` mode.  The first argument is fuel for
the recursion (the Rust recursion is unbounded and can loop on cyclic
values); every recursive call into `ExprHash::from` spends one unit. -/
def dedupE : Nat → NodeHasherM → DedupT ExprHash → PVal →
    Except DErr (Nat × DedupT ExprHash)
  | 0, _, _, _ => .error .noFuel
  | fuel + 1, nh, d, e =>
    match assoc (fun x => decide (x = (unwrapP e).pid)) d.prev with
    | some n => .ok (n, d.setShared n)
    | none =>
      match exprHashOf (dedupE fuel nh) nh (unwrapP e) d with
      | .error er => .error er
      | .ok (.inl h, d₁) =>
        match d₁.addDirect h with
        | (n, d₂) => .ok (n, d₂.insPrev (unwrapP e).pid n)
      | .ok (.inr n, d₁) => .ok (n, d₁.insPrev (unwrapP e).pid n)

/-! ## Part 5: the proof hasher (`ProofHash::from` and friends) -/

/-- Worker for `convP`, structurally recursive on an explicit bound
`b`; the bound is irrelevant as long as `i < b`, because the `Var`
case only recurses on `j < i`.  See `convP_eq` for the unfolding that
matches the source. -/
def convPB (de : DedupT ProofHash) : Nat → Nat → Bool
  | 0, _ => false
  | b + 1, i =>
    match de.vec[i]? with
    | some (.Var j, _) => decide (j < i) && convPB de b j
    | some (.Dummy _ _, _) => false
    | some (.Term _ _, _) => false
    | some (.Hyp _ _, _) => false
    | some (.Thm _ _ _, _) => false
    | some (.Conv _ _ _, _) => false
    | some (.Refl _, _) => true
    | some (.Sym _, _) => true
    | some (.Cong _ _, _) => true
    | some (.Unfold _ _ _ _ _, _) => true
    | none => false

/-- `ProofHash::conv`: whether slot `i` holds a conversion-typed node.
A `Var(j)` is conversion-typed when `j < i` and slot `j` is; the
proof-typed shapes are not; `Refl`, `Sym`, `Cong` and `Unfold` are.
A missing slot (the Rust code would panic indexing `de.vec[i]`) counts
as not conversion-typed. -/
def convP (de : DedupT ProofHash) (i : Nat) : Bool :=
  convPB de (i + 1) i

/-- `ProofHash::to_conv`: keep a conversion-typed index, otherwise add
a `Refl` of it and return the new index. -/
def toConv (d : DedupT ProofHash) (i : Nat) : Nat × DedupT ProofHash :=
  if convP d i then (i, d) else d.addDirect (.Refl i)

/-- The in-place update loop `for i in ns: i = to_conv(i, de)`. -/
def mapToConv : DedupT ProofHash → List Nat → List Nat × DedupT ProofHash
  | d, [] => ([], d)
  | d, n :: ns =>
    let (n₂, d₂) := toConv d n
    let (ns₂, d₃) := mapToConv d₂ ns
    (n₂ :: ns₂, d₃)

/-- Sequentially substitute a list of child expression nodes, threading
the memo array and the table (`es.iter().map(|e| Self::subst(..))`). -/
def substSeq
    (rec : List (Option Nat) → DedupT ProofHash → ExprNode →
      Except DErr (Nat × List (Option Nat) × DedupT ProofHash)) :
    List (Option Nat) → DedupT ProofHash → List ExprNode →
      Except DErr (List Nat × List (Option Nat) × DedupT ProofHash)
  | nheap, d, [] => .ok ([], nheap, d)
  | nheap, d, e :: es =>
    match rec nheap d e with
    | .error er => .error er
    | .ok (n, nheap₁, d₁) =>
      match substSeq rec nheap₁ d₁ es with
      | .error er => .error er
      | .ok (ns, nheap₂, d₂) => .ok (n :: ns, nheap₂, d₂)

/-- `ProofHash::subst`: substitute into a stored expression heap with a
per-slot memo array `nheap`, adding `Term` nodes for applications.  The
`env` parameter of the source is unused by the body and dropped.  Fuel
bounds the `Ref`-chasing recursion; out-of-range indices (a panic in the
source) and the `unreachable!` on `Dummy` become errors. -/
def substPH : Nat → List ExprNode → List (Option Nat) → DedupT ProofHash → ExprNode →
    Except DErr (Nat × List (Option Nat) × DedupT ProofHash)
  | 0, _, _, _, _ => .error .noFuel
  | fuel + 1, heap, nheap, d, e =>
    match e with
    | .Ref i =>
      match nheap[i]? with
      | none => .error .idxErr
      | some (some n) => .ok (n, nheap, d)
      | some none =>
        match heap[i]? with
        | none => .error .idxErr
        | some hi =>
          match substPH fuel heap nheap d hi with
          | .error er => .error er
          | .ok (n, nheap₁, d₁) => .ok (n, nheap₁.set i (some n), d₁)
    | .Dummy _ _ => .error .dummySubst
    | .App t es =>
      match substSeq (substPH fuel heap) nheap d es with
      | .error er => .error er
      | .ok (ns, nheap₁, d₁) =>
        match d₁.addDirect (.Term t ns) with
        | (n, d₂) => .ok (n, nheap₁, d₂)

/-- Seed the memo array for a theorem or definition substitution:
`vec![None; hlen]` with the first `nargs` slots filled from `ns`
(`for i in 0..args.len(): heap[i] = Some(ns[i])`); `none` when the Rust
loop would index out of bounds. -/
def seedHeap (ns : List Nat) (nargs hlen : Nat) : Option (List (Option Nat)) :=
  if nargs ≤ hlen && nargs ≤ ns.length then
    some ((ns.take nargs).map some ++ List.replicate (hlen - nargs) none)
  else none

/-- `ProofHash::from`: decode an (unwrapped) value into either a new
proof hash to add or an existing index to reuse.  `rec` is the
recursive `de.dedup(nh, e)` call; `fuel` feeds `ProofHash::subst`. -/
def proofHashOf (fuel : Nat)
    (rec : DedupT ProofHash → PVal → Except DErr (Nat × DedupT ProofHash))
    (nh : NodeHasherM) (r : PVal) (d : DedupT ProofHash) :
    Except DErr ((ProofHash ⊕ Nat) × DedupT ProofHash) :=
  match r.k with
  | .atom a =>
    match assoc (fun x => decide (x = a)) nh.varMap with
    | some i => .ok (.inl (.Var i), d)
    | none =>
      match nh.getProof a with
      | some p =>
        match rec d p with
        | .error er => .error er
        | .ok (n, d₁) => .ok (.inr n, d₁)
      | none =>
        match nh.boundSort a with
        | some s => .ok (.inl (.Dummy a s), d)
        | none => .error .varNotFound
  | .mvar => .error .mvarFound
  | .goal => .error .goalFound
  | _ =>
    match unconsFlat r with
    | ([], _) => .error .badExpr
    | (head :: elems, proper) =>
      match asAtomP head with
      | none => .error .expectedAtom
      | some a =>
        match nh.declOf a with
        | some (.term tid) =>
          match dedupSeq rec d elems with
          | .error er => .error er
          | .ok (ns, d₁) =>
            if ns.any fun i => convP d₁ i then
              match mapToConv d₁ ns with
              | (ns₂, d₂) => .ok (.inl (.Cong tid ns₂), d₂)
            else
              .ok (.inl (.Term tid ns), d₁)
        | some (.thm tid) =>
          match dedupSeq rec d elems with
          | .error er => .error er
          | .ok (ns, d₁) =>
            match nh.env.thms[tid]? with
            | none => .error .idxErr
            | some td =>
              match seedHeap ns td.args td.heap.length with
              | none => .error .idxErr
              | some nheap =>
                match substPH fuel td.heap nheap d₁ td.ret with
                | .error er => .error er
                | .ok (rhs, _, d₂) => .ok (.inl (.Thm tid ns rhs), d₂)
        | none =>
          if a = aCONV then
            match elems, proper with
            | [tgt, c, p], true =>
              match rec d tgt with
              | .error er => .error er
              | .ok (nt, d₁) =>
                match rec d₁ c with
                | .error er => .error er
                | .ok (nc, d₂) =>
                  match toConv d₂ nc with
                  | (nc₂, d₃) =>
                    match rec d₃ p with
                    | .error er => .error er
                    | .ok (np, d₄) => .ok (.inl (.Conv nt nc₂ np), d₄)
            | _, _ => .error .convFmt
          else if a = aSYM then
            match elems, proper with
            | [p], true =>
              match rec d p with
              | .error er => .error er
              | .ok (np, d₁) =>
                match toConv d₁ np with
                | (nc, d₂) => .ok (.inl (.Sym nc), d₂)
            | _, _ => .error .symFmt
          else if a = aUNFOLD then
            match (match elems, proper with
              | [t, es, p], true => some (t, es, p)
              | [t, es, _, p], true => some (t, es, p)
              | _, _ => none) with
            | none => .error .unfoldFmt
            | some (t, es, p) =>
              match asAtomP t >>= nh.termOf with
              | none => .error .expectedTerm
              | some tid =>
                match dedupSeq rec d (unconsFlat es).1 with
                | .error er => .error er
                | .ok (ns, d₁) =>
                  match d₁.addDirect (.Term tid ns) with
                  | (lhs, d₂) =>
                    match nh.env.terms[tid]? with
                    | none => .error .idxErr
                    | some td =>
                      match td.val with
                      | some (some (heapT, headT)) =>
                        match seedHeap ns td.args heapT.length with
                        | none => .error .idxErr
                        | some nheap =>
                          match substPH fuel heapT nheap d₂ headT with
                          | .error er => .error er
                          | .ok (rhs, _, d₃) =>
                            match rec d₃ p with
                            | .error er => .error er
                            | .ok (np, d₄) =>
                              match toConv d₄ np with
                              | (nc, d₅) => .ok (.inl (.Unfold tid ns lhs rhs nc), d₅)
                      | _ => .error .expectedDef
          else .error .notDeclared

/-- `Dedup::dedup` in `ProofHash` mode; see `dedupE`. -/
def dedupP : Nat → NodeHasherM → DedupT ProofHash → PVal →
    Except DErr (Nat × DedupT ProofHash)
  | 0, _, _, _ => .error .noFuel
  | fuel + 1, nh, d, e =>
    match assoc (fun x => decide (x = (unwrapP e).pid)) d.prev with
    | some n => .ok (n, d.setShared n)
    | none =>
      match proofHashOf fuel (dedupP fuel nh) nh (unwrapP e) d with
      | .error er => .error er
      | .ok (.inl h, d₁) =>
        match d₁.addDirect h with
        | (n, d₂) => .ok (n, d₂.insPrev (unwrapP e).pid n)
      | .ok (.inr n, d₁) => .ok (n, d₁.insPrev (unwrapP e).pid n)


/-! ## Part 6: well-formedness of dedup tables

`InvB` is the invariant every table reachable through the public API
satisfies: every memoized index (in `prev` and in `map`) denotes an
existing slot, and `map` entries point at slots holding exactly the
mapped hash.  The Rust code relies on this silently: it indexes
`self.vec[n]` with memoized indices. -/

/-- Table well-formedness (decidable, for concrete witnesses). -/
def InvB {H : Type} [DecidableEq H] (d : DedupT H) : Bool :=
  d.prev.all (fun pn => decide (pn.2 < d.vec.length)) &&
  d.map.all (fun hn =>
    match d.vec[hn.2]? with
    | some (h, _) => decide (h = hn.1)
    | none => false)

theorem assoc_mem {α β : Type} {p : α → Bool} {l : List (α × β)} {b : β}
    (h : assoc p l = some b) : ∃ a, (a, b) ∈ l ∧ p a = true := by
  induction l with
  | nil => simp [assoc] at h
  | cons x l ih =>
    obtain ⟨a, c⟩ := x
    simp only [assoc] at h
    by_cases hp : p a
    · refine ⟨a, ?_, hp⟩
      simp [hp] at h
      simp [h]
    · simp [hp] at h
      obtain ⟨a', hm, hp'⟩ := ih h
      exact ⟨a', List.mem_cons_of_mem _ hm, hp'⟩

theorem assoc_eq_key {α β : Type} [DecidableEq α] {l : List (α × β)} {k : α} {b : β}
    (h : assoc (fun x => decide (x = k)) l = some b) : ∃ a, (a, b) ∈ l ∧ a = k := by
  obtain ⟨a, hm, hp⟩ := assoc_mem h
  exact ⟨a, hm, by simpa using hp⟩

theorem invB_iff {H : Type} [DecidableEq H] (d : DedupT H) :
    InvB d = true ↔
      (∀ pn ∈ d.prev, pn.2 < d.vec.length) ∧
      (∀ hn ∈ d.map, ∃ b, d.vec[hn.2]? = some (hn.1, b)) := by
  simp only [InvB, Bool.and_eq_true, List.all_eq_true, decide_eq_true_eq]
  constructor
  · rintro ⟨h1, h2⟩
    refine ⟨h1, fun hn hm => ?_⟩
    have h3 := h2 hn hm
    revert h3
    cases hget : d.vec[hn.2]? with
    | none => simp
    | some hb =>
      obtain ⟨h, b⟩ := hb
      simp only [decide_eq_true_eq]
      rintro rfl
      exact ⟨b, rfl⟩
  · rintro ⟨h1, h2⟩
    refine ⟨h1, fun hn hm => ?_⟩
    obtain ⟨b, hget⟩ := h2 hn hm
    rw [hget]
    simp

theorem invB_prev_lt {H : Type} [DecidableEq H] {d : DedupT H} {p : Nat → Bool} {n : Nat}
    (hi : InvB d = true) (h : assoc p d.prev = some n) : n < d.vec.length := by
  obtain ⟨a, hm, _⟩ := assoc_mem h
  exact ((invB_iff d).1 hi).1 (a, n) hm

theorem invB_map_get {H : Type} [DecidableEq H] {d : DedupT H} {v : H} {n : Nat}
    (hi : InvB d = true) (h : assoc (fun x => decide (x = v)) d.map = some n) :
    ∃ b, d.vec[n]? = some (v, b) := by
  obtain ⟨a, hm, rfl⟩ := assoc_eq_key h
  exact ((invB_iff d).1 hi).2 (a, n) hm

theorem setSharedVec_length {H : Type} (l : List (H × Bool)) (n : Nat) :
    (setSharedVec l n).length = l.length := by
  induction l generalizing n with
  | nil => rfl
  | cons x l ih => cases n with
    | zero => rfl
    | succ n => simpa [setSharedVec] using ih n

theorem setSharedVec_getElem? {H : Type} (l : List (H × Bool)) (n m : Nat) :
    (setSharedVec l n)[m]? =
      if m = n then l[n]?.map (fun hb => (hb.1, true)) else l[m]? := by
  induction l generalizing n m with
  | nil => simp [setSharedVec]
  | cons x l ih =>
    cases n with
    | zero => cases m with
      | zero => simp [setSharedVec]
      | succ m => simp [setSharedVec]
    | succ n => cases m with
      | zero => simp [setSharedVec]
      | succ m => simpa [setSharedVec] using ih n m

theorem setShared_prev {H : Type} (d : DedupT H) (n : Nat) :
    (d.setShared n).prev = d.prev := rfl

theorem setShared_map {H : Type} (d : DedupT H) (n : Nat) :
    (d.setShared n).map = d.map := rfl

theorem setShared_length {H : Type} (d : DedupT H) (n : Nat) :
    (d.setShared n).vec.length = d.vec.length := setSharedVec_length _ _

theorem setShared_getElem?_same {H : Type} {d : DedupT H} {n : Nat} {h : H} {b : Bool}
    (hget : d.vec[n]? = some (h, b)) :
    (d.setShared n).vec[n]? = some (h, true) := by
  show (setSharedVec d.vec n)[n]? = _
  rw [setSharedVec_getElem?]
  simp [hget]

theorem invB_setShared {H : Type} [DecidableEq H] {d : DedupT H} (n : Nat)
    (hi : InvB d = true) : InvB (d.setShared n) = true := by
  rw [invB_iff]
  obtain ⟨h1, h2⟩ := (invB_iff d).1 hi
  constructor
  · intro pn hm
    rw [setShared_length]
    exact h1 pn (by simpa [setShared_prev] using hm)
  · intro hn hm
    obtain ⟨b, hget⟩ := h2 hn (by simpa [setShared_map] using hm)
    show ∃ b', (setSharedVec d.vec n)[hn.2]? = some (hn.1, b')
    rw [setSharedVec_getElem?]
    by_cases he : hn.2 = n
    · subst he
      rw [if_pos rfl, hget]
      exact ⟨true, rfl⟩
    · rw [if_neg he, hget]
      exact ⟨b, rfl⟩

/-- Hash-preserving extension of tables: lengths may grow and shared
bits may change, but existing slot hashes never do.  `convP` and the
children of each entry only depend on slot hashes, so they are stable
under this relation. -/
def hashAgree {H : Type} (d d' : DedupT H) : Prop :=
  ∀ (i : Nat) (h : H) (b : Bool),
    d.vec[i]? = some (h, b) → ∃ b', d'.vec[i]? = some (h, b')

theorem hashAgree_refl {H : Type} (d : DedupT H) : hashAgree d d :=
  fun _ _ b hb => ⟨b, hb⟩

theorem hashAgree_trans {H : Type} {d₁ d₂ d₃ : DedupT H}
    (h12 : hashAgree d₁ d₂) (h23 : hashAgree d₂ d₃) : hashAgree d₁ d₃ := by
  intro i h b hb
  obtain ⟨b', hb'⟩ := h12 i h b hb
  exact h23 i h b' hb'

theorem hashAgree_setShared {H : Type} (d : DedupT H) (n : Nat) :
    hashAgree d (d.setShared n) := by
  intro i h b hb
  show ∃ b', (setSharedVec d.vec n)[i]? = some (h, b')
  rw [setSharedVec_getElem?]
  by_cases he : i = n
  · subst he
    rw [if_pos rfl, hb]
    exact ⟨true, rfl⟩
  · rw [if_neg he, hb]
    exact ⟨b, rfl⟩

/-- `add_direct` preserves the invariant, returns a slot of the
extended table holding exactly the added hash, does not shrink the
table, keeps `prev`, and is hash-preserving. -/
theorem addDirect_spec {H : Type} [DecidableEq H] {d : DedupT H} {v : H}
    (hi : InvB d = true) :
    InvB (d.addDirect v).2 = true ∧
    (d.addDirect v).1 < (d.addDirect v).2.vec.length ∧
    d.vec.length ≤ (d.addDirect v).2.vec.length ∧
    hashAgree d (d.addDirect v).2 ∧
    (d.addDirect v).2.prev = d.prev ∧
    ∃ b, (d.addDirect v).2.vec[(d.addDirect v).1]? = some (v, b) := by
  unfold DedupT.addDirect
  cases hfind : assoc (fun h => decide (h = v)) d.map with
  | some n =>
    obtain ⟨b, hget⟩ := invB_map_get hi hfind
    have hlt : n < d.vec.length := (List.getElem?_eq_some.1 hget).1
    refine ⟨invB_setShared n hi, ?_, ?_, hashAgree_setShared d n, rfl, ?_⟩
    · simpa [setShared_length] using hlt
    · simp [setShared_length]
    · exact ⟨true, setShared_getElem?_same hget⟩
  | none =>
    refine ⟨?_, ?_, ?_, ?_, rfl, ?_⟩
    · rw [invB_iff]
      obtain ⟨h1, h2⟩ := (invB_iff d).1 hi
      constructor
      · intro pn hm
        simp only [List.length_append, List.length_cons, List.length_nil]
        exact Nat.lt_of_lt_of_le (h1 pn hm) (by omega)
      · intro hn hm
        rcases List.mem_cons.1 hm with he | hm'
        · subst he
          refine ⟨false, ?_⟩
          simp
        · obtain ⟨b, hget⟩ := h2 hn hm'
          have hlt : hn.2 < d.vec.length := (List.getElem?_eq_some.1 hget).1
          exact ⟨b, by rw [List.getElem?_append_left hlt]; exact hget⟩
    · simp
    · simp
    · intro i h b hb
      have hlt : i < d.vec.length := (List.getElem?_eq_some.1 hb).1
      exact ⟨b, by rw [List.getElem?_append_left hlt]; exact hb⟩
    · refine ⟨false, ?_⟩
      simp

theorem invB_insPrev {H : Type} [DecidableEq H] {d : DedupT H} {p n : Nat}
    (hi : InvB d = true) (hn : n < d.vec.length) : InvB (d.insPrev p n) = true := by
  rw [invB_iff]
  obtain ⟨h1, h2⟩ := (invB_iff d).1 hi
  constructor
  · intro pn hm
    rcases List.mem_cons.1 hm with he | hm'
    · subst he; exact hn
    · exact h1 pn hm'
  · exact h2

/-! ## Part 7: preservation lemmas for the hashers -/

theorem exbind_ok {ε α β : Type} (x : Except ε α) (f : α → Except ε β) (b : β) :
    (x >>= f) = .ok b ↔ ∃ a, x = .ok a ∧ f a = .ok b := by
  cases x <;> simp [Bind.bind, Except.bind]

/-- What one `dedup` step guarantees: the invariant is kept, the
returned index denotes a slot, the table does not shrink, and existing
slot hashes are unchanged. -/
def DStep {H : Type} [DecidableEq H] (d d' : DedupT H) (n : Nat) : Prop :=
  InvB d' = true ∧ n < d'.vec.length ∧ d.vec.length ≤ d'.vec.length ∧ hashAgree d d'

theorem dedupSeq_spec {H : Type} [DecidableEq H]
    {rec : DedupT H → PVal → Except DErr (Nat × DedupT H)}
    (hrec : ∀ d e n d', InvB d = true → rec d e = .ok (n, d') → DStep d d' n) :
    ∀ es d ns d', InvB d = true → dedupSeq rec d es = .ok (ns, d') →
      InvB d' = true ∧ d.vec.length ≤ d'.vec.length ∧ hashAgree d d' ∧
      ∀ m ∈ ns, m < d'.vec.length := by
  intro es
  induction es with
  | nil =>
    intro d ns d' hi h
    simp only [dedupSeq, Except.ok.injEq, Prod.mk.injEq] at h
    obtain ⟨rfl, rfl⟩ := h
    exact ⟨hi, Nat.le_refl _, hashAgree_refl d, by simp⟩
  | cons e es ih =>
    intro d ns d' hi h
    rw [dedupSeq] at h
    split at h
    · exact absurd h (by simp)
    · rename_i n d₁ h1
      split at h
      · exact absurd h (by simp)
      · rename_i ns₂ d₂ h2
        simp only [Except.ok.injEq, Prod.mk.injEq] at h
        obtain ⟨rfl, rfl⟩ := h
        obtain ⟨hi₁, hn₁, hle₁, hag₁⟩ := hrec d e n d₁ hi h1
        obtain ⟨hi₂, hle₂, hag₂, hall⟩ := ih d₁ ns₂ d₂ hi₁ h2
        refine ⟨hi₂, Nat.le_trans hle₁ hle₂, hashAgree_trans hag₁ hag₂, ?_⟩
        intro m hm
        rcases List.mem_cons.1 hm with rfl | hm'
        · exact Nat.lt_of_lt_of_le hn₁ hle₂
        · exact hall m hm'

theorem exprHashOf_spec {rec : DedupT ExprHash → PVal → Except DErr (Nat × DedupT ExprHash)}
    (hrec : ∀ d e n d', InvB d = true → rec d e = .ok (n, d') → DStep d d' n)
    {nh : NodeHasherM} {r : PVal} {d : DedupT ExprHash}
    {res : ExprHash ⊕ Nat} {d' : DedupT ExprHash}
    (hi : InvB d = true) (h : exprHashOf rec nh r d = .ok (res, d')) :
    InvB d' = true ∧ d.vec.length ≤ d'.vec.length ∧ hashAgree d d' ∧
      ∀ m, res = .inr m → m < d'.vec.length := by
  unfold exprHashOf at h
  split at h
  · -- atom
    split at h
    · simp only [Except.ok.injEq, Prod.mk.injEq] at h
      obtain ⟨rfl, rfl⟩ := h
      exact ⟨hi, Nat.le_refl _, hashAgree_refl d, by simp⟩
    · split at h
      · simp only [Except.ok.injEq, Prod.mk.injEq] at h
        obtain ⟨rfl, rfl⟩ := h
        exact ⟨hi, Nat.le_refl _, hashAgree_refl d, by simp⟩
      · exact absurd h (by simp)
  · exact absurd h (by simp)
  · -- compound: uncons, then dedup the children
    split at h
    · exact absurd h (by simp)
    · split at h
      · exact absurd h (by simp)
      · split at h
        · exact absurd h (by simp)
        · split at h
          · exact absurd h (by simp)
          · rename_i ns d₁ h1
            obtain ⟨hi₁, hle₁, hag₁, _⟩ := dedupSeq_spec hrec _ d ns d₁ hi h1
            split at h
            · simp only [Except.ok.injEq, Prod.mk.injEq] at h
              obtain ⟨rfl, rfl⟩ := h
              exact ⟨hi₁, hle₁, hag₁, by simp⟩
            · exact absurd h (by simp)

theorem dedupE_spec : ∀ (fuel : Nat) {nh : NodeHasherM} {d : DedupT ExprHash}
    {e : PVal} {n : Nat} {d' : DedupT ExprHash},
    InvB d = true → dedupE fuel nh d e = .ok (n, d') → DStep d d' n := by
  intro fuel
  induction fuel with
  | zero => intro nh d e n d' _ h; exact absurd h (by simp [dedupE])
  | succ fuel ih =>
    intro nh d e n d' hi h
    rw [dedupE] at h
    split at h
    · -- prev hit
      rename_i m hfind
      simp only [Except.ok.injEq, Prod.mk.injEq] at h
      obtain ⟨rfl, rfl⟩ := h
      have hlt := invB_prev_lt hi hfind
      refine ⟨invB_setShared m hi, ?_, ?_, hashAgree_setShared d m⟩
      · simpa [setShared_length] using hlt
      · simp [setShared_length]
    · -- miss: decode then add or reuse
      split at h
      · exact absurd h (by simp)
      · -- a new hash to add
        rename_i hh d₁ h1
        obtain ⟨hi₁, hle₁, hag₁, _⟩ :=
          exprHashOf_spec (fun d e n d' hi h => ih hi h) hi h1
        split at h
        rename_i m d₂ hadd
        simp only [Except.ok.injEq, Prod.mk.injEq] at h
        obtain ⟨rfl, rfl⟩ := h
        have hspec := addDirect_spec (v := hh) hi₁
        rw [hadd] at hspec
        obtain ⟨hi₂, hn₂, hle₂, hag₂, _, _⟩ := hspec
        exact ⟨invB_insPrev hi₂ hn₂, hn₂, Nat.le_trans hle₁ hle₂,
          hashAgree_trans hag₁ hag₂⟩
      · -- an existing index to reuse
        rename_i m d₁ h1
        obtain ⟨hi₁, hle₁, hag₁, hinr⟩ :=
          exprHashOf_spec (fun d e n d' hi h => ih hi h) hi h1
        simp only [Except.ok.injEq, Prod.mk.injEq] at h
        obtain ⟨rfl, rfl⟩ := h
        have hm := hinr m rfl
        exact ⟨invB_insPrev hi₁ hm, hm, hle₁, hag₁⟩

theorem convPB_mono {d d' : DedupT ProofHash} (hag : hashAgree d d') :
    ∀ (b i : Nat), convPB d b i = true → convPB d' b i = true := by
  intro b
  induction b with
  | zero => intro i h; exact absurd h (by simp [convPB])
  | succ b ih =>
    intro i h
    rw [convPB] at h ⊢
    cases hget : d.vec[i]? with
    | none => rw [hget] at h; exact absurd h (by simp)
    | some hb =>
      obtain ⟨hh, bb⟩ := hb
      rw [hget] at h
      obtain ⟨b', hget'⟩ := hag i hh bb hget
      rw [hget']
      cases hh with
      | Var j =>
        simp only [Bool.and_eq_true] at h ⊢
        exact ⟨h.1, ih j h.2⟩
      | Dummy a s => exact h
      | Term t ns => exact h
      | Hyp a s => exact h
      | Thm t ns r => exact h
      | Conv t c p => exact h
      | Refl i => rfl
      | Sym i => rfl
      | Cong t ns => rfl
      | Unfold t ns l r c => rfl

theorem convP_mono {d d' : DedupT ProofHash} (hag : hashAgree d d') {i : Nat}
    (h : convP d i = true) : convP d' i = true :=
  convPB_mono hag _ i h

theorem convP_of_refl {d : DedupT ProofHash} {i m : Nat} {b : Bool}
    (hget : d.vec[i]? = some (.Refl m, b)) : convP d i = true := by
  rw [convP, convPB, hget]

theorem toConv_spec {d : DedupT ProofHash} {i : Nat}
    (hi : InvB d = true) (hlt : i < d.vec.length) :
    InvB (toConv d i).2 = true ∧ (toConv d i).1 < (toConv d i).2.vec.length ∧
    d.vec.length ≤ (toConv d i).2.vec.length ∧ hashAgree d (toConv d i).2 ∧
    convP (toConv d i).2 (toConv d i).1 = true := by
  unfold toConv
  split
  · rename_i hc
    exact ⟨hi, hlt, Nat.le_refl _, hashAgree_refl d, hc⟩
  · obtain ⟨h1, h2, h3, h4, _, bb, hget⟩ := addDirect_spec (v := ProofHash.Refl i) hi
    exact ⟨h1, h2, h3, h4, convP_of_refl hget⟩

theorem mapToConv_spec : ∀ {ns : List Nat} {d : DedupT ProofHash},
    InvB d = true → (∀ m ∈ ns, m < d.vec.length) →
    InvB (mapToConv d ns).2 = true ∧
    d.vec.length ≤ (mapToConv d ns).2.vec.length ∧
    hashAgree d (mapToConv d ns).2 ∧
    (∀ m ∈ (mapToConv d ns).1, m < (mapToConv d ns).2.vec.length) ∧
    (∀ m ∈ (mapToConv d ns).1, convP (mapToConv d ns).2 m = true) := by
  intro ns
  induction ns with
  | nil =>
    intro d hi _
    exact ⟨hi, Nat.le_refl _, hashAgree_refl d, by simp [mapToConv], by simp [mapToConv]⟩
  | cons n ns ih =>
    intro d hi hb
    have hn := hb n (by simp)
    obtain ⟨hi₂, hlt₂, hle₂, hag₂, hc₂⟩ := toConv_spec hi hn
    rcases htc : toConv d n with ⟨n₂, d₂⟩
    rw [htc] at hi₂ hlt₂ hle₂ hag₂ hc₂
    have hb₂ : ∀ m ∈ ns, m < d₂.vec.length := fun m hm =>
      Nat.lt_of_lt_of_le (hb m (List.mem_cons_of_mem _ hm)) hle₂
    obtain ⟨hi₃, hle₃, hag₃, hall₃, hconv₃⟩ := ih hi₂ hb₂
    rcases hmc : mapToConv d₂ ns with ⟨ns₃, d₃⟩
    rw [hmc] at hi₃ hle₃ hag₃ hall₃ hconv₃
    have hred : mapToConv d (n :: ns) = (n₂ :: ns₃, d₃) := by
      rw [mapToConv, htc]
      dsimp only
      rw [hmc]
    rw [hred]
    refine ⟨hi₃, Nat.le_trans hle₂ hle₃, hashAgree_trans hag₂ hag₃, ?_, ?_⟩
    · intro m hm
      rcases List.mem_cons.1 hm with rfl | hm'
      · exact Nat.lt_of_lt_of_le hlt₂ hle₃
      · exact hall₃ m hm'
    · intro m hm
      rcases List.mem_cons.1 hm with rfl | hm'
      · exact convP_mono hag₃ hc₂
      · exact hconv₃ m hm'

/-- Boundedness of the substitution memo array with respect to a table
size: every filled entry denotes an existing slot. -/
def nhBound (nheap : List (Option Nat)) (len : Nat) : Prop :=
  ∀ o ∈ nheap, ∀ m, o = some m → m < len

theorem nhBound_mono {nheap : List (Option Nat)} {len len' : Nat}
    (h : nhBound nheap len) (hle : len ≤ len') : nhBound nheap len' :=
  fun o ho m hm => Nat.lt_of_lt_of_le (h o ho m hm) hle

theorem nhBound_set {nheap : List (Option Nat)} {len i m0 : Nat}
    (h : nhBound nheap len) (hm0 : m0 < len) :
    nhBound (nheap.set i (some m0)) len := by
  intro o ho m hm
  rcases List.mem_or_eq_of_mem_set ho with ho' | rfl
  · exact h o ho' m hm
  · cases hm; exact hm0

theorem seedHeap_bound {ns : List Nat} {nargs hlen : Nat} {nheap : List (Option Nat)}
    {len : Nat} (hs : seedHeap ns nargs hlen = some nheap)
    (hb : ∀ m ∈ ns, m < len) : nhBound nheap len := by
  unfold seedHeap at hs
  split at hs
  · simp only [Option.some.injEq] at hs
    subst hs
    intro o ho m hm
    rcases List.mem_append.1 ho with hl | hr
    · obtain ⟨m', hm', he⟩ := List.mem_map.1 hl
      rw [← he] at hm
      cases hm
      exact hb m (List.take_subset _ _ hm')
    · rw [List.eq_of_mem_replicate hr] at hm
      cases hm
  · cases hs

theorem substSeq_spec
    {rec : List (Option Nat) → DedupT ProofHash → ExprNode →
      Except DErr (Nat × List (Option Nat) × DedupT ProofHash)}
    (hrec : ∀ nheap d e n nheap' d', InvB d = true → nhBound nheap d.vec.length →
      rec nheap d e = .ok (n, nheap', d') →
      InvB d' = true ∧ n < d'.vec.length ∧ d.vec.length ≤ d'.vec.length ∧
        hashAgree d d' ∧ nhBound nheap' d'.vec.length) :
    ∀ es nheap d ns nheap' d', InvB d = true → nhBound nheap d.vec.length →
      substSeq rec nheap d es = .ok (ns, nheap', d') →
      InvB d' = true ∧ d.vec.length ≤ d'.vec.length ∧ hashAgree d d' ∧
        nhBound nheap' d'.vec.length ∧ ∀ m ∈ ns, m < d'.vec.length := by
  intro es
  induction es with
  | nil =>
    intro nheap d ns nheap' d' hi hb h
    simp only [substSeq, Except.ok.injEq, Prod.mk.injEq] at h
    obtain ⟨rfl, rfl, rfl⟩ := h
    exact ⟨hi, Nat.le_refl _, hashAgree_refl d, hb, by simp⟩
  | cons e es ih =>
    intro nheap d ns nheap' d' hi hb h
    rw [substSeq] at h
    split at h
    · exact absurd h (by simp)
    · rename_i n nheap₁ d₁ h1
      split at h
      · exact absurd h (by simp)
      · rename_i ns₂ nheap₂ d₂ h2
        simp only [Except.ok.injEq, Prod.mk.injEq] at h
        obtain ⟨rfl, rfl, rfl⟩ := h
        obtain ⟨hi₁, hn₁, hle₁, hag₁, hb₁⟩ := hrec nheap d e n nheap₁ d₁ hi hb h1
        obtain ⟨hi₂, hle₂, hag₂, hb₂, hall⟩ := ih nheap₁ d₁ ns₂ nheap₂ d₂ hi₁ hb₁ h2
        refine ⟨hi₂, Nat.le_trans hle₁ hle₂, hashAgree_trans hag₁ hag₂, hb₂, ?_⟩
        intro m hm
        rcases List.mem_cons.1 hm with rfl | hm'
        · exact Nat.lt_of_lt_of_le hn₁ hle₂
        · exact hall m hm'

theorem substPH_spec : ∀ (fuel : Nat) {heap : List ExprNode}
    {nheap : List (Option Nat)} {d : DedupT ProofHash} {e : ExprNode}
    {n : Nat} {nheap' : List (Option Nat)} {d' : DedupT ProofHash},
    InvB d = true → nhBound nheap d.vec.length →
    substPH fuel heap nheap d e = .ok (n, nheap', d') →
    InvB d' = true ∧ n < d'.vec.length ∧ d.vec.length ≤ d'.vec.length ∧
      hashAgree d d' ∧ nhBound nheap' d'.vec.length := by
  intro fuel
  induction fuel with
  | zero =>
    intro heap nheap d e n nheap' d' _ _ h
    exact absurd h (by simp [substPH])
  | succ fuel ih =>
    intro heap nheap d e n nheap' d' hi hb h
    rw [substPH.eq_def] at h
    dsimp only at h
    split at h
    · -- Ref i
      rename_i i
      split at h
      · exact absurd h (by simp)
      · -- memo hit
        rename_i m hm
        simp only [Except.ok.injEq, Prod.mk.injEq] at h
        obtain ⟨rfl, rfl, rfl⟩ := h
        have hmem := List.getElem?_mem hm
        exact ⟨hi, hb _ hmem m rfl, Nat.le_refl _, hashAgree_refl d, hb⟩
      · -- compute and memoize
        split at h
        · exact absurd h (by simp)
        · rename_i hi2 hheap
          split at h
          · exact absurd h (by simp)
          · rename_i m nheap₁ d₁ h1
            simp only [Except.ok.injEq, Prod.mk.injEq] at h
            obtain ⟨rfl, rfl, rfl⟩ := h
            obtain ⟨hi₁, hn₁, hle₁, hag₁, hb₁⟩ := ih hi hb h1
            exact ⟨hi₁, hn₁, hle₁, hag₁, nhBound_set hb₁ hn₁⟩
    · exact absurd h (by simp)
    · -- App
      split at h
      · exact absurd h (by simp)
      · rename_i ns nheap₁ d₁ h1
        simp only [Except.ok.injEq, Prod.mk.injEq] at h
        obtain ⟨rfl, rfl, rfl⟩ := h
        obtain ⟨hi₁, hle₁, hag₁, hb₁, _⟩ :=
          substSeq_spec (fun nheap d e n nheap' d' hi hb h => ih hi hb h)
            _ nheap d ns nheap₁ d₁ hi hb h1
        obtain ⟨hi₂, hn₂, hle₂, hag₂, _, _⟩ :=
          addDirect_spec (v := ProofHash.Term _ ns) hi₁
        exact ⟨hi₂, hn₂, Nat.le_trans hle₁ hle₂, hashAgree_trans hag₁ hag₂,
          nhBound_mono hb₁ hle₂⟩

theorem proofHashOf_spec {fuel : Nat}
    {rec : DedupT ProofHash → PVal → Except DErr (Nat × DedupT ProofHash)}
    (hrec : ∀ d e n d', InvB d = true → rec d e = .ok (n, d') → DStep d d' n)
    {nh : NodeHasherM} {r : PVal} {d : DedupT ProofHash}
    {res : ProofHash ⊕ Nat} {d' : DedupT ProofHash}
    (hi : InvB d = true) (h : proofHashOf fuel rec nh r d = .ok (res, d')) :
    InvB d' = true ∧ d.vec.length ≤ d'.vec.length ∧ hashAgree d d' ∧
      ∀ m, res = .inr m → m < d'.vec.length := by
  unfold proofHashOf at h
  dsimp only at h
  split at h
  · -- atom
    split at h
    · simp only [Except.ok.injEq, Prod.mk.injEq] at h
      obtain ⟨rfl, rfl⟩ := h
      exact ⟨hi, Nat.le_refl _, hashAgree_refl d, by simp⟩
    · split at h
      · -- hypothesis reuse through rec
        split at h
        · exact absurd h (by simp)
        · rename_i n d₁ h1
          simp only [Except.ok.injEq, Prod.mk.injEq] at h
          obtain ⟨rfl, rfl⟩ := h
          obtain ⟨hi₁, hn₁, hle₁, hag₁⟩ := hrec _ _ _ _ hi h1
          refine ⟨hi₁, hle₁, hag₁, ?_⟩
          rintro m hm
          cases hm
          exact hn₁
      · split at h
        · simp only [Except.ok.injEq, Prod.mk.injEq] at h
          obtain ⟨rfl, rfl⟩ := h
          exact ⟨hi, Nat.le_refl _, hashAgree_refl d, by simp⟩
        · exact absurd h (by simp)
  · exact absurd h (by simp)
  · exact absurd h (by simp)
  · -- compound
    split at h
    · exact absurd h (by simp)
    · split at h
      · exact absurd h (by simp)
      · split at h
        · -- head names a term
          split at h
          · exact absurd h (by simp)
          · rename_i ns d₁ h1
            obtain ⟨hi₁, hle₁, hag₁, hall₁⟩ := dedupSeq_spec hrec _ d ns d₁ hi h1
            split at h
            · -- promote to Cong
              simp only [Except.ok.injEq, Prod.mk.injEq] at h
              obtain ⟨rfl, rfl⟩ := h
              obtain ⟨hi₂, hle₂, hag₂, _, _⟩ := mapToConv_spec hi₁ hall₁
              exact ⟨hi₂, Nat.le_trans hle₁ hle₂, hashAgree_trans hag₁ hag₂, by simp⟩
            · simp only [Except.ok.injEq, Prod.mk.injEq] at h
              obtain ⟨rfl, rfl⟩ := h
              exact ⟨hi₁, hle₁, hag₁, by simp⟩
        · -- head names a theorem
          split at h
          · exact absurd h (by simp)
          · rename_i ns d₁ h1
            obtain ⟨hi₁, hle₁, hag₁, hall₁⟩ := dedupSeq_spec hrec _ d ns d₁ hi h1
            split at h
            · exact absurd h (by simp)
            · split at h
              · exact absurd h (by simp)
              · rename_i td nheap hseed
                split at h
                · exact absurd h (by simp)
                · rename_i rhs nheap₂ d₂ h2
                  simp only [Except.ok.injEq, Prod.mk.injEq] at h
                  obtain ⟨rfl, rfl⟩ := h
                  obtain ⟨hi₂, hn₂, hle₂, hag₂, _⟩ :=
                    substPH_spec _ hi₁ (seedHeap_bound hseed hall₁) h2
                  exact ⟨hi₂, Nat.le_trans hle₁ hle₂,
                    hashAgree_trans hag₁ hag₂, by simp⟩
        · -- special heads: the if chain on the distinguished atoms
          split at h
          · -- :conv
            split at h
            · rename_i tgt c p
              split at h
              · exact absurd h (by simp)
              · rename_i nt d₁ h1
                split at h
                · exact absurd h (by simp)
                · rename_i nc d₂ h2
                  split at h
                  · exact absurd h (by simp)
                  · rename_i np d₄ h3
                    simp only [Except.ok.injEq, Prod.mk.injEq] at h
                    obtain ⟨rfl, rfl⟩ := h
                    obtain ⟨hi₁, hn₁, hle₁, hag₁⟩ := hrec _ _ _ _ hi h1
                    obtain ⟨hi₂, hn₂, hle₂, hag₂⟩ := hrec _ _ _ _ hi₁ h2
                    obtain ⟨hi₃, _, hle₃, hag₃, _⟩ := toConv_spec hi₂ hn₂
                    obtain ⟨hi₄, hn₄, hle₄, hag₄⟩ := hrec _ _ _ _ hi₃ h3
                    refine ⟨hi₄, ?_, ?_, by simp⟩
                    · omega
                    · exact hashAgree_trans hag₁ (hashAgree_trans hag₂
                        (hashAgree_trans hag₃ hag₄))
            · exact absurd h (by simp)
          · split at h
            · -- :sym
              split at h
              · rename_i p
                split at h
                · exact absurd h (by simp)
                · rename_i np d₁ h1
                  simp only [Except.ok.injEq, Prod.mk.injEq] at h
                  obtain ⟨rfl, rfl⟩ := h
                  obtain ⟨hi₁, hn₁, hle₁, hag₁⟩ := hrec _ _ _ _ hi h1
                  obtain ⟨hi₂, _, hle₂, hag₂, _⟩ := toConv_spec hi₁ hn₁
                  exact ⟨hi₂, Nat.le_trans hle₁ hle₂,
                    hashAgree_trans hag₁ hag₂, by simp⟩
              · exact absurd h (by simp)
            · split at h
              · -- :unfold
                split at h
                · exact absurd h (by simp)
                · rename_i t es p htep
                  split at h
                  · exact absurd h (by simp)
                  · rename_i tid htid
                    split at h
                    · exact absurd h (by simp)
                    · rename_i ns d₁ h1
                      obtain ⟨hi₁, hle₁, hag₁, hall₁⟩ :=
                        dedupSeq_spec hrec _ d ns d₁ hi h1
                      obtain ⟨hi₂, hl₂, hle₂, hag₂, _, _⟩ :=
                        addDirect_spec (v := ProofHash.Term tid ns) hi₁
                      split at h
                      · exact absurd h (by simp)
                      · split at h
                        · split at h
                          · exact absurd h (by simp)
                          · rename_i td heapT headT hval nheap hseed
                            split at h
                            · exact absurd h (by simp)
                            · rename_i rhs nheap₂ d₃ h2
                              split at h
                              · exact absurd h (by simp)
                              · rename_i np d₄ h3
                                simp only [Except.ok.injEq, Prod.mk.injEq] at h
                                obtain ⟨rfl, rfl⟩ := h
                                have hb₂ : nhBound nheap
                                    (d₁.addDirect (ProofHash.Term tid ns)).2.vec.length :=
                                  nhBound_mono (seedHeap_bound hseed hall₁) hle₂
                                obtain ⟨hi₃, hn₃, hle₃, hag₃, _⟩ :=
                                  substPH_spec _ hi₂ hb₂ h2
                                obtain ⟨hi₄, hn₄, hle₄, hag₄⟩ := hrec _ _ _ _ hi₃ h3
                                obtain ⟨hi₅, _, hle₅, hag₅, _⟩ := toConv_spec hi₄ hn₄
                                refine ⟨hi₅, ?_, ?_, by simp⟩
                                · omega
                                · exact hashAgree_trans hag₁ (hashAgree_trans hag₂
                                    (hashAgree_trans hag₃ (hashAgree_trans hag₄ hag₅)))
                        · exact absurd h (by simp)
              · exact absurd h (by simp)

theorem dedupP_spec : ∀ (fuel : Nat) {nh : NodeHasherM} {d : DedupT ProofHash}
    {e : PVal} {n : Nat} {d' : DedupT ProofHash},
    InvB d = true → dedupP fuel nh d e = .ok (n, d') → DStep d d' n := by
  intro fuel
  induction fuel with
  | zero => intro nh d e n d' _ h; exact absurd h (by simp [dedupP])
  | succ fuel ih =>
    intro nh d e n d' hi h
    rw [dedupP] at h
    split at h
    · rename_i m hfind
      simp only [Except.ok.injEq, Prod.mk.injEq] at h
      obtain ⟨rfl, rfl⟩ := h
      have hlt := invB_prev_lt hi hfind
      refine ⟨invB_setShared m hi, ?_, ?_, hashAgree_setShared d m⟩
      · simpa [setShared_length] using hlt
      · simp [setShared_length]
    · split at h
      · exact absurd h (by simp)
      · rename_i hh d₁ h1
        obtain ⟨hi₁, hle₁, hag₁, _⟩ :=
          proofHashOf_spec (fun d e n d' hi h => ih hi h) hi h1
        split at h
        rename_i m d₂ hadd
        simp only [Except.ok.injEq, Prod.mk.injEq] at h
        obtain ⟨rfl, rfl⟩ := h
        have hspec := addDirect_spec (v := hh) hi₁
        rw [hadd] at hspec
        obtain ⟨hi₂, hn₂, hle₂, hag₂, _, _⟩ := hspec
        exact ⟨invB_insPrev hi₂ hn₂, hn₂, Nat.le_trans hle₁ hle₂,
          hashAgree_trans hag₁ hag₂⟩
      · rename_i m d₁ h1
        obtain ⟨hi₁, hle₁, hag₁, hinr⟩ :=
          proofHashOf_spec (fun d e n d' hi h => ih hi h) hi h1
        simp only [Except.ok.injEq, Prod.mk.injEq] at h
        obtain ⟨rfl, rfl⟩ := h
        have hm := hinr m rfl
        exact ⟨invB_insPrev hi₁ hm, hm, hle₁, hag₁⟩

/-! ## Part 8: claim C1, dedup idempotence -/

theorem assoc_insPrev_self {H : Type} (d : DedupT H) (p n : Nat) :
    assoc (fun x => decide (x = p)) (d.insPrev p n).prev = some n := by
  simp [DedupT.insPrev, assoc]

theorem getElem?_of_lt_length {α : Type} {l : List α} {n : Nat} (h : n < l.length) :
    ∃ x, l[n]? = some x := ⟨l[n], List.getElem?_eq_getElem h⟩

/-- The `prev` table of the result of a successful `dedup` call maps the
unwrapped pointer of the argument to the returned index
(`ExprHash` mode). -/
theorem dedupE_prev_self {fuel : Nat} {nh : NodeHasherM} {d : DedupT ExprHash}
    {v : PVal} {n : Nat} {d₁ : DedupT ExprHash}
    (h : dedupE (fuel + 1) nh d v = .ok (n, d₁)) :
    assoc (fun x => decide (x = (unwrapP v).pid)) d₁.prev = some n := by
  rw [dedupE] at h
  split at h
  · rename_i m hfind
    simp only [Except.ok.injEq, Prod.mk.injEq] at h
    obtain ⟨rfl, rfl⟩ := h
    rw [setShared_prev]
    exact hfind
  · split at h
    · exact absurd h (by simp)
    · rename_i hh d₂ h1
      split at h
      rename_i m d₃ hadd
      simp only [Except.ok.injEq, Prod.mk.injEq] at h
      obtain ⟨rfl, rfl⟩ := h
      exact assoc_insPrev_self _ _ _
    · rename_i m d₂ h1
      simp only [Except.ok.injEq, Prod.mk.injEq] at h
      obtain ⟨rfl, rfl⟩ := h
      exact assoc_insPrev_self _ _ _

/-- The `prev` table of the result of a successful `dedup` call maps the
unwrapped pointer of the argument to the returned index
(`ProofHash` mode). -/
theorem dedupP_prev_self {fuel : Nat} {nh : NodeHasherM} {d : DedupT ProofHash}
    {v : PVal} {n : Nat} {d₁ : DedupT ProofHash}
    (h : dedupP (fuel + 1) nh d v = .ok (n, d₁)) :
    assoc (fun x => decide (x = (unwrapP v).pid)) d₁.prev = some n := by
  rw [dedupP] at h
  split at h
  · rename_i m hfind
    simp only [Except.ok.injEq, Prod.mk.injEq] at h
    obtain ⟨rfl, rfl⟩ := h
    rw [setShared_prev]
    exact hfind
  · split at h
    · exact absurd h (by simp)
    · rename_i hh d₂ h1
      split at h
      rename_i m d₃ hadd
      simp only [Except.ok.injEq, Prod.mk.injEq] at h
      obtain ⟨rfl, rfl⟩ := h
      exact assoc_insPrev_self _ _ _
    · rename_i m d₂ h1
      simp only [Except.ok.injEq, Prod.mk.injEq] at h
      obtain ⟨rfl, rfl⟩ := h
      exact assoc_insPrev_self _ _ _

/-- C1.  Dedup idempotence: for every well-formed dedup table (in
`ExprHash` or `ProofHash` mode), node hasher and lisp value, if a call
of `dedup` returns index `n`, then calling `dedup` again on the same
value hits the pointer memo, returns the same index `n`, changes the
table only by setting the shared-bit of slot `n`, and afterwards the
shared-bit of slot `n` (`vec[n].1`) is `true`.  Well-formedness
(`InvB`) holds for every table built by the public API; without it the
Rust code would panic indexing `vec[n]`. -/
theorem claim1_dedup_idempotent :
    (∀ (fuel fuel' : Nat) (nh : NodeHasherM) (d : DedupT ExprHash) (v : PVal)
      (n : Nat) (d₁ : DedupT ExprHash), InvB d = true →
      dedupE (fuel + 1) nh d v = .ok (n, d₁) →
      dedupE (fuel' + 1) nh d₁ v = .ok (n, d₁.setShared n) ∧
      ∃ hh, (d₁.setShared n).vec[n]? = some (hh, true)) ∧
    (∀ (fuel fuel' : Nat) (nh : NodeHasherM) (d : DedupT ProofHash) (v : PVal)
      (n : Nat) (d₁ : DedupT ProofHash), InvB d = true →
      dedupP (fuel + 1) nh d v = .ok (n, d₁) →
      dedupP (fuel' + 1) nh d₁ v = .ok (n, d₁.setShared n) ∧
      ∃ hh, (d₁.setShared n).vec[n]? = some (hh, true)) := by
  constructor
  · intro fuel fuel' nh d v n d₁ hi h
    have hprev := dedupE_prev_self h
    obtain ⟨_, hn, _, _⟩ := dedupE_spec (fuel + 1) hi h
    constructor
    · rw [dedupE, hprev]
    · obtain ⟨⟨hh, b⟩, hget⟩ := getElem?_of_lt_length hn
      exact ⟨hh, setShared_getElem?_same hget⟩
  · intro fuel fuel' nh d v n d₁ hi h
    have hprev := dedupP_prev_self h
    obtain ⟨_, hn, _, _⟩ := dedupP_spec (fuel + 1) hi h
    constructor
    · rw [dedupP, hprev]
    · obtain ⟨⟨hh, b⟩, hget⟩ := getElem?_of_lt_length hn
      exact ⟨hh, setShared_getElem?_same hget⟩

/-- Concrete node hasher for the dedup witnesses: atom `0` is the first
formal parameter of the signature. -/
def nhW : NodeHasherM := ⟨[(0, 0)], [], [], ⟨[], [], []⟩⟩

/-- Concrete value for the dedup witnesses: atom `0` at allocation 7. -/
def vW : PVal := .mk 7 (.atom 0)

/-- Table after the first expression-mode dedup of `vW`. -/
def d1W : DedupT ExprHash := ((DedupT.new ExprHash.Var 1).setShared 0).insPrev 7 0

/-- Table after the first proof-mode dedup of `vW`. -/
def d1WP : DedupT ProofHash := ((DedupT.new ProofHash.Var 1).setShared 0).insPrev 7 0

theorem claim1_witness :
    (dedupE 1 nhW (DedupT.new ExprHash.Var 1) vW = .ok (0, d1W) ∧
      dedupE 1 nhW d1W vW = .ok (0, d1W.setShared 0) ∧
      ∃ hh, (d1W.setShared 0).vec[0]? = some (hh, true)) ∧
    (dedupP 1 nhW (DedupT.new ProofHash.Var 1) vW = .ok (0, d1WP) ∧
      dedupP 1 nhW d1WP vW = .ok (0, d1WP.setShared 0) ∧
      ∃ hh, (d1WP.setShared 0).vec[0]? = some (hh, true)) :=
  ⟨⟨rfl, claim1_dedup_idempotent.1 0 0 nhW (DedupT.new ExprHash.Var 1) vW 0 d1W
      (by decide) rfl⟩,
    ⟨rfl, claim1_dedup_idempotent.2 0 0 nhW (DedupT.new ProofHash.Var 1) vW 0 d1WP
      (by decide) rfl⟩⟩

/-! ## Part 9: claim C2, congruence promotion -/

/-- Value shapes that reach the compound (`Uncons`) arm of
`ProofHash::from` (everything except `Atom`, `MVar` and `Goal`). -/
def pkCompound : PKind → Bool
  | .atom _ => false
  | .mvar => false
  | .goal => false
  | _ => true

/-- Reduction of `ProofHash::from` on a compound value whose head atom
is declared as a term: the children are deduped in order, then the node
is a `Cong` of conversion-promoted children if any child is
conversion-typed, else a plain `Term`. -/
theorem proofHashOf_term_branch {fuel : Nat}
    {rec : DedupT ProofHash → PVal → Except DErr (Nat × DedupT ProofHash)}
    {nh : NodeHasherM} {r : PVal} {d : DedupT ProofHash}
    {head : PVal} {elems : List PVal} {proper : Bool} {a tid : Nat}
    (hk : pkCompound r.k = true)
    (hu : unconsFlat r = (head :: elems, proper))
    (ha : asAtomP head = some a)
    (hd : nh.declOf a = some (.term tid)) :
    proofHashOf fuel rec nh r d =
      match dedupSeq rec d elems with
      | .error er => .error er
      | .ok (ns, d₁) =>
        if ns.any fun i => convP d₁ i then
          match mapToConv d₁ ns with
          | (ns₂, d₂) => .ok (.inl (.Cong tid ns₂), d₂)
        else .ok (.inl (.Term tid ns), d₁) := by
  obtain ⟨pid, k⟩ := r
  cases k
  case atom => exact absurd hk (by simp [pkCompound, PVal.k])
  case mvar => exact absurd hk (by simp [pkCompound, PVal.k])
  case goal => exact absurd hk (by simp [pkCompound, PVal.k])
  case num => exact absurd hu (by simp [unconsFlat])
  case str => exact absurd hu (by simp [unconsFlat])
  case bool => exact absurd hu (by simp [unconsFlat])
  case undef => exact absurd hu (by simp [unconsFlat])
  case proc => exact absurd hu (by simp [unconsFlat])
  case atomMap => exact absurd hu (by simp [unconsFlat])
  case formula => exact absurd hu (by simp [unconsFlat])
  all_goals
    rw [proofHashOf.eq_def]
    simp only [PVal.k, hu, ha, hd]

theorem mapToConv_length : ∀ (d : DedupT ProofHash) (ns : List Nat),
    (mapToConv d ns).1.length = ns.length := by
  intro d ns
  induction ns generalizing d with
  | nil => rfl
  | cons n ns ih =>
    rw [mapToConv]
    rcases htc : toConv d n with ⟨n₂, d₂⟩
    dsimp only
    rcases hmc : mapToConv d₂ ns with ⟨ns₃, d₃⟩
    have := ih d₂
    rw [hmc] at this
    simp [this]

/-- C2.  Congruence promotion in proof dedup: decoding a non-empty list
value whose head atom names a term `tid`, after the children are
deduped to indices `ns` (threading the table to `d₁`), the node emitted
by `ProofHash::from` is `Cong tid ns₂` whenever some child index is
conversion-typed, where `ns₂` is `ns` with every non-conversion child
replaced through `to_conv` (which adds a `Refl` of it); `ns₂` has the
same arity and every element of `ns₂` is conversion-typed in the final
table.  If no child is conversion-typed the node is `Term tid ns`. -/
theorem claim2_cong_promotion
    (fuel : Nat) (nh : NodeHasherM) (r : PVal) (d : DedupT ProofHash)
    (head : PVal) (elems : List PVal) (proper : Bool) (a tid : Nat)
    (ns : List Nat) (d₁ : DedupT ProofHash)
    (hi : InvB d = true)
    (hk : pkCompound r.k = true)
    (hu : unconsFlat r = (head :: elems, proper))
    (ha : asAtomP head = some a)
    (hd : nh.declOf a = some (.term tid))
    (hseq : dedupSeq (dedupP fuel nh) d elems = .ok (ns, d₁)) :
    ((ns.any fun i => convP d₁ i) = true →
      proofHashOf fuel (dedupP fuel nh) nh r d =
        .ok (.inl (.Cong tid (mapToConv d₁ ns).1), (mapToConv d₁ ns).2) ∧
      (∀ m ∈ (mapToConv d₁ ns).1, convP (mapToConv d₁ ns).2 m = true) ∧
      (mapToConv d₁ ns).1.length = ns.length) ∧
    ((ns.any fun i => convP d₁ i) = false →
      proofHashOf fuel (dedupP fuel nh) nh r d = .ok (.inl (.Term tid ns), d₁)) := by
  have hred := @proofHashOf_term_branch fuel (dedupP fuel nh) nh _ d _ _ _ _ _
    hk hu ha hd
  rw [hseq] at hred
  dsimp only at hred
  obtain ⟨hi₁, _, _, hall₁⟩ :=
    dedupSeq_spec (fun d e n d' hi h => dedupP_spec fuel hi h) _ d ns d₁ hi hseq
  constructor
  · intro hany
    rw [if_pos hany] at hred
    obtain ⟨hi₂, _, _, hall₂, hconv₂⟩ := mapToConv_spec hi₁ hall₁
    refine ⟨?_, hconv₂, mapToConv_length d₁ ns⟩
    rw [hred]
  · intro hany
    rw [if_neg (by simp [hany])] at hred
    exact hred

/-- Concrete node hasher for the C2 witness: atom 6 is formal variable
0, atom 5 is declared as term 9 (atom 1 is the `:sym` atom). -/
def nhW2 : NodeHasherM := ⟨[(6, 0)], [], [], ⟨[(5, DeclKey.term 9)], [], []⟩⟩

/-- The value `(:sym x6)`, a conversion child. -/
def vSymW : PVal := .mk 3 (.list [.mk 4 (.atom 1), .mk 5 (.atom 6)])

/-- The value `(t5 (:sym x6))`, a term application with one
conversion-typed child. -/
def rW2 : PVal := .mk 1 (.list [.mk 2 (.atom 5), vSymW])

/-- Table after deduping the children of `rW2`. -/
def d1W2 : DedupT ProofHash :=
  ⟨[(.Sym 1, 2), (.Refl 0, 1), (.Var 0, 0)], [(3, 2), (5, 0)],
    [(.Var 0, true), (.Refl 0, false), (.Sym 1, false)]⟩

theorem claim2_witness :
    proofHashOf 2 (dedupP 2 nhW2) nhW2 rW2 (DedupT.new ProofHash.Var 1) =
      .ok (.inl (.Cong 9 (mapToConv d1W2 [2]).1), (mapToConv d1W2 [2]).2) ∧
    (∀ m ∈ (mapToConv d1W2 [2]).1, convP (mapToConv d1W2 [2]).2 m = true) ∧
    (mapToConv d1W2 [2]).1.length = [2].length :=
  (claim2_cong_promotion 2 nhW2 rW2 (DedupT.new ProofHash.Var 1)
    (.mk 2 (.atom 5)) [vSymW] true 5 9 [2] d1W2
    (by decide) rfl rfl rfl rfl rfl).1 (by decide)

/-! ## Part 10: claim C3, lowering (`Val`, `to_builder`) -/

/-- `Val<T>` of proof.rs, specialized to `T = ExprNode`. -/
inductive EVal where
  | Built (x : ExprNode)
  | Ref (n : Nat)
  | Done

/-- `Val::take`: a `Built` node is moved out (slot becomes `Done`), a
`Ref` slot stays and yields `REF(n)`; taking `Done` is the
`panic!` of the source, modelled as `none`. -/
def EVal.take : EVal → Option (ExprNode × EVal)
  | .Built x => some (x, .Done)
  | .Ref n => some (.Ref n, .Ref n)
  | .Done => none

/-- `Val::take(&mut ids[n])`; out-of-range indexing is a panic,
modelled as `none`. -/
def takeAt (ids : List EVal) (n : Nat) : Option (ExprNode × List EVal) :=
  match ids[n]? with
  | some v =>
    match v.take with
    | some (x, v') => some (x, ids.set n v')
    | none => none
  | none => none

/-- Take a list of child slots left to right
(`ns.iter().map(|&i| Val::take(&mut ids[i]))`). -/
def takeSeq : List Nat → List EVal → Option (List ExprNode × List EVal)
  | [], ids => some ([], ids)
  | n :: ns, ids =>
    match takeAt ids n with
    | none => none
    | some (x, ids₁) =>
      match takeSeq ns ids₁ with
      | none => none
      | some (xs, ids₂) => some (x :: xs, ids₂)

/-- `<ExprNode as Node>::from`. -/
def ExprNode.ofHash : ExprHash → List EVal → Option (ExprNode × List EVal)
  | .Var i, ids => some (.Ref i, ids)
  | .Dummy a s, ids => some (.Dummy a s, ids)
  | .App t ns, ids =>
    match takeSeq ns ids with
    | none => none
    | some (es, ids₁) => some (.App t es, ids₁)

/-- The loop of `to_builder`: build each entry in order; a shared entry
is appended to the heap and its id slot becomes `Ref(heap position)`,
otherwise the id slot keeps the built node. -/
def buildLoop : List (ExprHash × Bool) → List EVal → List ExprNode →
    Option (List EVal × List ExprNode)
  | [], ids, heap => some (ids, heap)
  | (h, b) :: rest, ids, heap =>
    match ExprNode.ofHash h ids with
    | none => none
    | some (node, ids₁) =>
      if b then buildLoop rest (ids₁ ++ [.Ref heap.length]) (heap ++ [node])
      else buildLoop rest (ids₁ ++ [.Built node]) heap

/-- `Elaborator::to_builder` (for `ExprNode`) over the `vec` of a dedup
table, producing `Builder { ids, heap }`. -/
def toBuilder (vec : List (ExprHash × Bool)) : Option (List EVal × List ExprNode) :=
  buildLoop vec [] []

mutual

/-- Number of `Ref p` nodes inside an expression node. -/
def countRef (p : Nat) : ExprNode → Nat
  | .Ref n => if n = p then 1 else 0
  | .Dummy _ _ => 0
  | .App _ es => countRefL p es

/-- Number of `Ref p` nodes inside a list of expression nodes. -/
def countRefL (p : Nat) : List ExprNode → Nat
  | [] => 0
  | e :: es => countRef p e + countRefL p es

end

/-- Number of `Ref p` nodes inside the `Built` slots of the id array. -/
def builtCount (p : Nat) : List EVal → Nat
  | [] => 0
  | .Built x :: l => countRef p x + builtCount p l
  | _ :: l => builtCount p l

/-- How many times heap slot `p` is referenced via `Ref` in the final
structure (the remaining built id slots plus the heap nodes). -/
def refTotal (p : Nat) (ids : List EVal) (heap : List ExprNode) : Nat :=
  builtCount p ids + countRefL p heap

/-- The child indices of a hash entry. -/
def EHChildren : ExprHash → List Nat
  | .Var _ => []
  | .Dummy _ _ => []
  | .App _ ns => ns

/-- Occurrences of `i` in a list of child indices. -/
def countIn (i : Nat) (ns : List Nat) : Nat :=
  (ns.filter fun c => decide (c = i)).length

/-- Total occurrences of slot `i` as a child across the table. -/
def childOccs (vec : List (ExprHash × Bool)) (i : Nat) : Nat :=
  (vec.map fun hb => countIn i (EHChildren hb.1)).sum

/-- Heap position assigned to slot `i` when it is promoted: the number
of shared slots before it. -/
def heapPos (vec : List (ExprHash × Bool)) (i : Nat) : Nat :=
  ((vec.take i).filter fun hb => hb.2).length

/-- Decidable topological well-formedness of a table: every child index
of the entry at position `j` is smaller than `j`.  Tables built by the
dedup API satisfy this (children are deduped before their parent is
added). -/
def vecWFAux : Nat → List (ExprHash × Bool) → Bool
  | _, [] => true
  | j, hb :: rest =>
    ((EHChildren hb.1).all fun c => decide (c < j)) && vecWFAux (j + 1) rest

/-- See `vecWFAux`. -/
def vecWFB (vec : List (ExprHash × Bool)) : Bool := vecWFAux 0 vec

theorem set_getElem?_self {α : Type} : ∀ {l : List α} {n : Nat} {v : α},
    l[n]? = some v → l.set n v = l := by
  intro l
  induction l with
  | nil => intro n v h; cases h
  | cons x l ih =>
    intro n v h
    cases n with
    | zero => simp at h; simp [h]
    | succ n => simp at h; simp [ih h]

theorem builtCount_set_done {p : Nat} : ∀ {l : List EVal} {n : Nat} {y : ExprNode},
    l[n]? = some (.Built y) →
    builtCount p (l.set n .Done) + countRef p y = builtCount p l := by
  intro l
  induction l with
  | nil => intro n y h; cases h
  | cons x l ih =>
    intro n y h
    cases n with
    | zero =>
      simp only [List.getElem?_cons_zero, Option.some.injEq] at h
      subst h
      simp [builtCount]
      omega
    | succ n =>
      simp only [List.getElem?_cons_succ] at h
      have := ih h
      cases x with
      | Built z => simp [builtCount]; omega
      | Ref m => simpa [builtCount] using this
      | Done => simpa [builtCount] using this

theorem builtCount_append_ref {p : Nat} (l : List EVal) (m : Nat) :
    builtCount p (l ++ [.Ref m]) = builtCount p l := by
  induction l with
  | nil => rfl
  | cons x l ih => cases x <;> simpa [builtCount] using ih

theorem builtCount_append_built {p : Nat} (l : List EVal) (x : ExprNode) :
    builtCount p (l ++ [.Built x]) = builtCount p l + countRef p x := by
  induction l with
  | nil => simp [builtCount]
  | cons y l ih => cases y <;> (simp [builtCount, ih]; try omega)

theorem countRefL_append {p : Nat} (l₁ l₂ : List ExprNode) :
    countRefL p (l₁ ++ l₂) = countRefL p l₁ + countRefL p l₂ := by
  induction l₁ with
  | nil => simp [countRefL]
  | cons x l ih => simp [countRefL, ih]; omega

theorem countIn_cons (i n : Nat) (ns : List Nat) :
    countIn i (n :: ns) = (if n = i then 1 else 0) + countIn i ns := by
  by_cases h : n = i
  · simp [countIn, List.filter, h]
    omega
  · simp [countIn, List.filter, h]

theorem countIn_zero {i : Nat} {ns : List Nat} (h : ∀ c ∈ ns, c ≠ i) :
    countIn i ns = 0 := by
  induction ns with
  | nil => rfl
  | cons n ns ih =>
    rw [countIn_cons]
    rw [if_neg (h n (by simp)), ih fun c hc => h c (List.mem_cons_of_mem _ hc)]

theorem takeAt_length {ids : List EVal} {n : Nat} {x : ExprNode} {ids' : List EVal}
    (h : takeAt ids n = some (x, ids')) : ids'.length = ids.length := by
  unfold takeAt at h
  split at h
  · split at h
    · simp only [Option.some.injEq, Prod.mk.injEq] at h
      obtain ⟨rfl, rfl⟩ := h
      simp
    · cases h
  · cases h

/-- Taking a slot preserves every `Ref` slot (and its contents), and
emits the slot content when the taken slot is a `Ref`. -/
theorem takeAt_ref_preserved {ids : List EVal} {n : Nat} {x : ExprNode}
    {ids' : List EVal} {i p : Nat} (hr : ids[i]? = some (.Ref p))
    (h : takeAt ids n = some (x, ids')) : ids'[i]? = some (.Ref p) := by
  unfold takeAt at h
  split at h
  · rename_i v hv
    split at h
    · rename_i y v' ht
      simp only [Option.some.injEq, Prod.mk.injEq] at h
      obtain ⟨rfl, rfl⟩ := h
      by_cases he : n = i
      · subst he
        rw [hv] at hr
        cases hr
        cases ht
        rw [set_getElem?_self hv]
        exact hv
      · rw [List.getElem?_set_ne (by omega)]
        exact hr
    · cases h
  · cases h

/-- The counting step for one take: whatever is taken, the emitted node
plus the remaining built slots carry at least the old built count, plus
one fresh `Ref p` when the taken slot is slot `i` (which holds
`Ref p`). -/
theorem takeAt_count {ids : List EVal} {n : Nat} {x : ExprNode}
    {ids' : List EVal} {i p : Nat} (hr : ids[i]? = some (.Ref p))
    (h : takeAt ids n = some (x, ids')) :
    builtCount p ids + (if n = i then 1 else 0) ≤ countRef p x + builtCount p ids' := by
  unfold takeAt at h
  split at h
  · rename_i v hv
    split at h
    · rename_i y v' ht
      simp only [Option.some.injEq, Prod.mk.injEq] at h
      obtain ⟨rfl, rfl⟩ := h
      cases v with
      | Built z =>
        cases ht
        have hne : n ≠ i := by
          intro he
          subst he
          rw [hv] at hr
          cases hr
        rw [if_neg hne]
        have := builtCount_set_done (p := p) hv
        omega
      | Ref m =>
        cases ht
        rw [set_getElem?_self hv]
        by_cases he : n = i
        · subst he
          rw [hv] at hr
          cases hr
          simp [countRef]
          omega
        · rw [if_neg he]
          simp [countRef]
      | Done => cases ht
    · cases h
  · cases h

theorem takeSeq_spec {i p : Nat} : ∀ {ns : List Nat} {ids : List EVal}
    {es : List ExprNode} {ids' : List EVal},
    ids[i]? = some (.Ref p) → takeSeq ns ids = some (es, ids') →
    ids'[i]? = some (.Ref p) ∧ ids'.length = ids.length ∧
    builtCount p ids + countIn i ns ≤ countRefL p es + builtCount p ids' := by
  intro ns
  induction ns with
  | nil =>
    intro ids es ids' hr h
    simp only [takeSeq, Option.some.injEq, Prod.mk.injEq] at h
    obtain ⟨rfl, rfl⟩ := h
    exact ⟨hr, rfl, by simp [countIn, countRefL]⟩
  | cons n ns ih =>
    intro ids es ids' hr h
    rw [takeSeq] at h
    split at h
    · cases h
    · rename_i x ids₁ h1
      split at h
      · cases h
      · rename_i xs ids₂ h2
        simp only [Option.some.injEq, Prod.mk.injEq] at h
        obtain ⟨rfl, rfl⟩ := h
        have hr₁ := takeAt_ref_preserved hr h1
        have hc₁ := takeAt_count hr h1
        obtain ⟨hr₂, hlen₂, hc₂⟩ := ih hr₁ h2
        refine ⟨hr₂, by rw [hlen₂, takeAt_length h1], ?_⟩
        rw [countIn_cons, countRefL]
        omega

theorem ofHash_spec {i p : Nat} {h : ExprHash} {ids : List EVal}
    {node : ExprNode} {ids' : List EVal}
    (hr : ids[i]? = some (.Ref p))
    (hof : ExprNode.ofHash h ids = some (node, ids')) :
    ids'[i]? = some (.Ref p) ∧ ids'.length = ids.length ∧
    builtCount p ids + countIn i (EHChildren h) ≤ countRef p node + builtCount p ids' := by
  cases h with
  | Var j =>
    simp only [ExprNode.ofHash, Option.some.injEq, Prod.mk.injEq] at hof
    obtain ⟨rfl, rfl⟩ := hof
    refine ⟨hr, rfl, ?_⟩
    simp [EHChildren, countIn, countRef]
  | Dummy a s =>
    simp only [ExprNode.ofHash, Option.some.injEq, Prod.mk.injEq] at hof
    obtain ⟨rfl, rfl⟩ := hof
    exact ⟨hr, rfl, by simp [EHChildren, countIn, countRef]⟩
  | App t ns =>
    rw [ExprNode.ofHash] at hof
    split at hof
    · cases hof
    · rename_i es ids₁ hts
      simp only [Option.some.injEq, Prod.mk.injEq] at hof
      obtain ⟨rfl, rfl⟩ := hof
      obtain ⟨hr₁, hlen₁, hc₁⟩ := takeSeq_spec hr hts
      exact ⟨hr₁, hlen₁, by simpa [EHChildren, countRef] using hc₁⟩

theorem buildLoop_count {i p : Nat} : ∀ {rest : List (ExprHash × Bool)}
    {ids : List EVal} {heap : List ExprNode} {ids' : List EVal} {heap' : List ExprNode},
    ids[i]? = some (.Ref p) → buildLoop rest ids heap = some (ids', heap') →
    refTotal p ids heap + childOccs rest i ≤ refTotal p ids' heap' := by
  intro rest
  induction rest with
  | nil =>
    intro ids heap ids' heap' hr h
    simp only [buildLoop, Option.some.injEq, Prod.mk.injEq] at h
    obtain ⟨rfl, rfl⟩ := h
    simp [childOccs]
  | cons hb rest ih =>
    intro ids heap ids' heap' hr h
    obtain ⟨hh, b⟩ := hb
    rw [buildLoop] at h
    split at h
    · cases h
    · rename_i node ids₁ hof
      obtain ⟨hr₁, hlen₁, hc₁⟩ := ofHash_spec hr hof
      have hi_lt : i < ids₁.length := by
        rw [hlen₁]
        exact (List.getElem?_eq_some.1 hr).1
      have hocc : childOccs ((hh, b) :: rest) i =
          countIn i (EHChildren hh) + childOccs rest i := by
        simp [childOccs]
      split at h
      · -- shared: promote to the heap
        have hr₂ : (ids₁ ++ [EVal.Ref heap.length])[i]? = some (.Ref p) := by
          rw [List.getElem?_append_left hi_lt]
          exact hr₁
        have := ih hr₂ h
        rw [hocc]
        simp only [refTotal, builtCount_append_ref, countRefL_append, countRefL] at this ⊢
        omega
      · -- unshared: keep the built node in the id slot
        have hr₂ : (ids₁ ++ [EVal.Built node])[i]? = some (.Ref p) := by
          rw [List.getElem?_append_left hi_lt]
          exact hr₁
        have := ih hr₂ h
        rw [hocc]
        simp only [refTotal, builtCount_append_built, countRefL_append, countRefL] at this ⊢
        omega

theorem buildLoop_append : ∀ (xs ys : List (ExprHash × Bool)) (ids : List EVal)
    (heap : List ExprNode),
    buildLoop (xs ++ ys) ids heap =
      match buildLoop xs ids heap with
      | none => none
      | some (ids₁, heap₁) => buildLoop ys ids₁ heap₁ := by
  intro xs
  induction xs with
  | nil => intro ys ids heap; simp [buildLoop]
  | cons hb xs ih =>
    intro ys ids heap
    obtain ⟨hh, b⟩ := hb
    rw [List.cons_append, buildLoop, buildLoop]
    split
    · rfl
    · rename_i node ids₁ hof
      split
      · exact ih ys _ _
      · exact ih ys _ _

theorem takeSeq_length : ∀ {ns : List Nat} {ids : List EVal}
    {es : List ExprNode} {ids' : List EVal},
    takeSeq ns ids = some (es, ids') → ids'.length = ids.length := by
  intro ns
  induction ns with
  | nil =>
    intro ids es ids' h
    simp only [takeSeq, Option.some.injEq, Prod.mk.injEq] at h
    obtain ⟨rfl, rfl⟩ := h
    rfl
  | cons n ns ih =>
    intro ids es ids' h
    rw [takeSeq] at h
    split at h
    · cases h
    · rename_i x ids₁ h1
      split at h
      · cases h
      · rename_i xs ids₂ h2
        simp only [Option.some.injEq, Prod.mk.injEq] at h
        obtain ⟨rfl, rfl⟩ := h
        rw [ih h2, takeAt_length h1]

theorem ofHash_length {h : ExprHash} {ids : List EVal} {node : ExprNode}
    {ids' : List EVal} (hof : ExprNode.ofHash h ids = some (node, ids')) :
    ids'.length = ids.length := by
  cases h with
  | Var j => cases hof; rfl
  | Dummy a s => cases hof; rfl
  | App t ns =>
    rw [ExprNode.ofHash] at hof
    split at hof
    · cases hof
    · rename_i es ids₁ hts
      cases hof
      exact takeSeq_length hts

theorem buildLoop_lengths : ∀ {xs : List (ExprHash × Bool)} {ids : List EVal}
    {heap : List ExprNode} {ids' : List EVal} {heap' : List ExprNode},
    buildLoop xs ids heap = some (ids', heap') →
    ids'.length = ids.length + xs.length ∧
    heap'.length = heap.length + (xs.filter fun hb => hb.2).length := by
  intro xs
  induction xs with
  | nil =>
    intro ids heap ids' heap' h
    simp only [buildLoop, Option.some.injEq, Prod.mk.injEq] at h
    obtain ⟨rfl, rfl⟩ := h
    simp
  | cons hb xs ih =>
    intro ids heap ids' heap' h
    obtain ⟨hh, b⟩ := hb
    rw [buildLoop] at h
    split at h
    · cases h
    · rename_i node ids₁ hof
      have hlen₁ : ids₁.length = ids.length := ofHash_length hof
      split at h
      · rename_i hbt
        subst hbt
        obtain ⟨ha, hb2⟩ := ih h
        constructor
        · rw [ha]
          simp [hlen₁]
          omega
        · rw [hb2]
          simp [List.filter]
          omega
      · rename_i hbf
        obtain ⟨ha, hb2⟩ := ih h
        have hbf2 : b = false := by
          cases b
          · rfl
          · exact absurd rfl hbf
        subst hbf2
        constructor
        · rw [ha]
          simp [hlen₁]
          omega
        · rw [hb2]
          simp [List.filter]

theorem vecWFAux_spec : ∀ {l : List (ExprHash × Bool)} {j0 : Nat},
    vecWFAux j0 l = true →
    ∀ (k : Nat) (h : ExprHash) (b : Bool), l[k]? = some (h, b) →
    ∀ c ∈ EHChildren h, c < j0 + k := by
  intro l
  induction l with
  | nil => intro j0 _ k h b hk; cases hk
  | cons hb l ih =>
    intro j0 hwf k h b hk c hc
    simp only [vecWFAux, Bool.and_eq_true, List.all_eq_true, decide_eq_true_eq] at hwf
    obtain ⟨h1, h2⟩ := hwf
    cases k with
    | zero =>
      simp only [List.getElem?_cons_zero, Option.some.injEq] at hk
      subst hk
      simpa using h1 c hc
    | succ k =>
      simp only [List.getElem?_cons_succ] at hk
      have := ih (by simpa [vecWFAux, List.all_eq_true] using h2) k h b hk c hc
      omega

theorem vecWFB_spec {vec : List (ExprHash × Bool)} (hwf : vecWFB vec = true) :
    ∀ (k : Nat) (h : ExprHash) (b : Bool), vec[k]? = some (h, b) →
    ∀ c ∈ EHChildren h, c < k := by
  intro k h b hk c hc
  simpa using vecWFAux_spec hwf k h b hk c hc

theorem childOccs_append (l₁ l₂ : List (ExprHash × Bool)) (i : Nat) :
    childOccs (l₁ ++ l₂) i = childOccs l₁ i + childOccs l₂ i := by
  simp [childOccs]

theorem childOccs_cons (hb : ExprHash × Bool) (l : List (ExprHash × Bool)) (i : Nat) :
    childOccs (hb :: l) i = countIn i (EHChildren hb.1) + childOccs l i := by
  simp [childOccs]

theorem childOccs_zero {l : List (ExprHash × Bool)} {i : Nat}
    (hz : ∀ hb ∈ l, countIn i (EHChildren hb.1) = 0) : childOccs l i = 0 := by
  induction l with
  | nil => rfl
  | cons hb l ih =>
    rw [childOccs_cons, hz hb (by simp), ih fun x hx => hz x (List.mem_cons_of_mem _ hx)]

/-- C3 counterexample input: the hash vector of `Dedup::new(1)`. -/
def vecCx : List (ExprHash × Bool) := (DedupT.new ExprHash.Var 1).vec

/-- C3 fails as stated: for the table freshly created by
`Dedup::new(1)`, slot 0 is pre-marked shared and is promoted to the
heap by `to_builder`, but the resulting structure references heap slot
0 only once (the self-reference of the heap entry), not at least
twice.  The claim asserts `2 ≤` for every such promoted node. -/
theorem claim3_counterexample :
    vecCx[0]? = some (.Var 0, true) ∧
    toBuilder vecCx = some ([.Ref 0], [.Ref 0]) ∧
    refTotal (heapPos vecCx 0) [.Ref 0] [.Ref 0] = 1 :=
  ⟨rfl, rfl, rfl⟩

/-- Lower bound on `Ref` references in expression mode (the body of
claim C3 for `ExprHash`/`ExprNode` tables). -/
theorem exprSharing_bound (vec : List (ExprHash × Bool)) (ids : List EVal)
    (heap : List ExprNode) (i : Nat) (h : ExprHash)
    (hwf : vecWFB vec = true)
    (hget : vec[i]? = some (h, true))
    (hocc : 2 ≤ childOccs vec i)
    (hbuild : toBuilder vec = some (ids, heap)) :
    2 ≤ refTotal (heapPos vec i) ids heap := by
  have hi_lt : i < vec.length := (List.getElem?_eq_some.1 hget).1
  have hgetE : vec[i] = (h, true) := by
    have h2 := List.getElem?_eq_getElem hi_lt
    rw [hget] at h2
    exact Option.some_inj.1 h2.symm
  have hdec : vec = vec.take i ++ (h, true) :: vec.drop (i + 1) := by
    conv_lhs => rw [← List.take_append_drop i vec]
    congr 1
    rw [← List.getElem_cons_drop vec i hi_lt, hgetE]
  -- the occurrence count lives entirely in the entries after slot i
  have hwfs := vecWFB_spec hwf
  have hz1 : childOccs (vec.take i) i = 0 := by
    refine childOccs_zero fun hb hm => ?_
    obtain ⟨k, hk⟩ := List.mem_iff_getElem?.1 hm
    have hk_lt : k < i := by
      have h3 := (List.getElem?_eq_some.1 hk).1
      simp at h3
      omega
    rw [List.getElem?_take, if_pos hk_lt] at hk
    refine countIn_zero fun c hc => ?_
    have := hwfs k hb.1 hb.2 (by rw [hk]) c hc
    omega
  have hz2 : countIn i (EHChildren h) = 0 := by
    refine countIn_zero fun c hc => ?_
    have := hwfs i h true hget c hc
    omega
  have hocc_drop : 2 ≤ childOccs (vec.drop (i + 1)) i := by
    have h4 : childOccs vec i =
        childOccs (vec.take i) i + countIn i (EHChildren h) +
          childOccs (vec.drop (i + 1)) i := by
      conv_lhs => rw [hdec]
      rw [childOccs_append, childOccs_cons]
      dsimp only
      omega
    omega
  -- run the builder up to slot i
  rw [toBuilder] at hbuild
  rw [show buildLoop vec [] [] = buildLoop (vec.take i ++ (h, true) :: vec.drop (i + 1)) [] [] from by rw [← hdec]] at hbuild
  rw [buildLoop_append] at hbuild
  cases hpre : buildLoop (vec.take i) [] [] with
  | none => rw [hpre] at hbuild; cases hbuild
  | some p =>
    obtain ⟨ids₀, heap₀⟩ := p
    rw [hpre] at hbuild
    dsimp only at hbuild
    obtain ⟨hlen₀, hheap₀⟩ := buildLoop_lengths hpre
    have hlen₀' : ids₀.length = i := by
      rw [hlen₀]
      simp
      omega
    have hheap₀' : heap₀.length = heapPos vec i := by
      rw [hheap₀]
      simp [heapPos]
    rw [buildLoop.eq_def] at hbuild
    dsimp only at hbuild
    split at hbuild
    · cases hbuild
    · rename_i node ids₁ hof
      have hlen₁ : ids₁.length = i := by rw [ofHash_length hof, hlen₀']
      have hr₂ : (ids₁ ++ [EVal.Ref heap₀.length])[i]? = some (.Ref heap₀.length) := by
        rw [← hlen₁]
        simp
      have hcount := buildLoop_count hr₂ hbuild
      have hpos : refTotal heap₀.length (ids₁ ++ [EVal.Ref heap₀.length])
          (heap₀ ++ [node]) + childOccs (vec.drop (i + 1)) i
            ≤ refTotal heap₀.length ids heap := hcount
      rw [hheap₀'] at hpos
      omega

/-- `ProofNode` (the target of `<ProofNode as Node>::from`,
proof.rs lines 393-421): references, dummies, term and theorem
applications, hypotheses, and the conversion forms. -/
inductive ProofNode where
  | Ref (n : Nat)
  | Dummy (a : Nat) (s : Nat)
  | Term (t : Nat) (args : List ProofNode)
  | Hyp (i : Nat) (e : ProofNode)
  | Thm (t : Nat) (args : List ProofNode) (res : ProofNode)
  | Conv (tgt : ProofNode) (c : ProofNode) (prf : ProofNode)
  | Refl (e : ProofNode)
  | Sym (e : ProofNode)
  | Cong (t : Nat) (args : List ProofNode)
  | Unfold (t : Nat) (args : List ProofNode) (l : ProofNode) (r : ProofNode)
      (c : ProofNode)

/-- `Val<T>` of proof.rs, specialized to `T = ProofNode`. -/
inductive PNVal where
  | Built (x : ProofNode)
  | Ref (n : Nat)
  | Done

/-- `Val::take` in proof mode (see `EVal.take`). -/
def PNVal.take : PNVal → Option (ProofNode × PNVal)
  | .Built x => some (x, .Done)
  | .Ref n => some (.Ref n, .Ref n)
  | .Done => none

/-- `Val::take(&mut ids[n])` in proof mode. -/
def takeAtP (ids : List PNVal) (n : Nat) : Option (ProofNode × List PNVal) :=
  match ids[n]? with
  | some v =>
    match v.take with
    | some (x, v2) => some (x, ids.set n v2)
    | none => none
  | none => none

/-- Take a list of child slots left to right, proof mode. -/
def takeSeqP : List Nat → List PNVal → Option (List ProofNode × List PNVal)
  | [], ids => some ([], ids)
  | n :: ns, ids =>
    match takeAtP ids n with
    | none => none
    | some (x, ids₁) =>
      match takeSeqP ns ids₁ with
      | none => none
      | some (xs, ids₂) => some (x :: xs, ids₂)

/-- The child slots a `ProofHash` entry takes, in the order
`<ProofNode as Node>::from` takes them (args before `res`/`Conv`
components). -/
def PHChildren : ProofHash → List Nat
  | .Var _ => []
  | .Dummy _ _ => []
  | .Term _ ns => ns
  | .Hyp _ e => [e]
  | .Thm _ ns r => ns ++ [r]
  | .Conv tgt c prf => [tgt, c, prf]
  | .Refl i => [i]
  | .Sym i => [i]
  | .Cong _ ns => ns
  | .Unfold _ ns l r c => ns ++ [l, r, c]

/-- Reassemble the node of a `ProofHash` entry from its taken children
(in `PHChildren` order); the lengths always match when the children
were taken successfully, so the `none` arms are unreachable there. -/
def ProofNode.rebuild : ProofHash → List ProofNode → Option ProofNode
  | .Var i, [] => some (.Ref i)
  | .Var _, _ => none
  | .Dummy a s, [] => some (.Dummy a s)
  | .Dummy _ _, _ => none
  | .Term t _, es => some (.Term t es)
  | .Hyp i _, es =>
    match es with
    | [x] => some (.Hyp i x)
    | _ => none
  | .Thm t ns _, es =>
    match es.drop ns.length with
    | [x] => some (.Thm t (es.take ns.length) x)
    | _ => none
  | .Conv _ _ _, es =>
    match es with
    | [x, y, z] => some (.Conv x y z)
    | _ => none
  | .Refl _, es =>
    match es with
    | [x] => some (.Refl x)
    | _ => none
  | .Sym _, es =>
    match es with
    | [x] => some (.Sym x)
    | _ => none
  | .Cong t _, es => some (.Cong t es)
  | .Unfold t ns _ _ _, es =>
    match es.drop ns.length with
    | [x, y, z] => some (.Unfold t (es.take ns.length) x y z)
    | _ => none

/-- `<ProofNode as Node>::from`: take the children in source order,
then assemble the node. -/
def ProofNode.ofHash (h : ProofHash) (ids : List PNVal) :
    Option (ProofNode × List PNVal) :=
  match takeSeqP (PHChildren h) ids with
  | none => none
  | some (es, ids₁) =>
    match ProofNode.rebuild h es with
    | none => none
    | some node => some (node, ids₁)

/-- The loop of `to_builder`, proof mode. -/
def buildLoopP : List (ProofHash × Bool) → List PNVal → List ProofNode →
    Option (List PNVal × List ProofNode)
  | [], ids, heap => some (ids, heap)
  | (h, b) :: rest, ids, heap =>
    match ProofNode.ofHash h ids with
    | none => none
    | some (node, ids₁) =>
      if b then buildLoopP rest (ids₁ ++ [.Ref heap.length]) (heap ++ [node])
      else buildLoopP rest (ids₁ ++ [.Built node]) heap

/-- `Elaborator::to_builder` for `ProofNode` tables. -/
def toBuilderP (vec : List (ProofHash × Bool)) :
    Option (List PNVal × List ProofNode) :=
  buildLoopP vec [] []

mutual

/-- Number of `Ref p` nodes inside a proof node. -/
def countRefP (p : Nat) : ProofNode → Nat
  | .Ref n => if n = p then 1 else 0
  | .Dummy _ _ => 0
  | .Term _ es => countRefLP p es
  | .Hyp _ e => countRefP p e
  | .Thm _ es r => countRefLP p es + countRefP p r
  | .Conv x y z => countRefP p x + countRefP p y + countRefP p z
  | .Refl e => countRefP p e
  | .Sym e => countRefP p e
  | .Cong _ es => countRefLP p es
  | .Unfold _ es x y z =>
    countRefLP p es + (countRefP p x + countRefP p y + countRefP p z)

/-- Number of `Ref p` nodes inside a list of proof nodes. -/
def countRefLP (p : Nat) : List ProofNode → Nat
  | [] => 0
  | e :: es => countRefP p e + countRefLP p es

end

/-- Number of `Ref p` nodes inside the `Built` slots of the proof-mode
id array. -/
def builtCountP (p : Nat) : List PNVal → Nat
  | [] => 0
  | .Built x :: l => countRefP p x + builtCountP p l
  | _ :: l => builtCountP p l

/-- Total `Ref p` references in the final proof-mode structure. -/
def refTotalP (p : Nat) (ids : List PNVal) (heap : List ProofNode) : Nat :=
  builtCountP p ids + countRefLP p heap

/-- Total occurrences of slot `i` as a child across a proof table. -/
def childOccsP (vec : List (ProofHash × Bool)) (i : Nat) : Nat :=
  (vec.map fun hb => countIn i (PHChildren hb.1)).sum

/-- Heap position assigned to slot `i` of a proof table when promoted. -/
def heapPosP (vec : List (ProofHash × Bool)) (i : Nat) : Nat :=
  ((vec.take i).filter fun hb => hb.2).length

/-- Topological well-formedness of a proof table (children precede
their parent), as maintained by the dedup API. -/
def vecWFAuxP : Nat → List (ProofHash × Bool) → Bool
  | _, [] => true
  | j, hb :: rest =>
    ((PHChildren hb.1).all fun c => decide (c < j)) && vecWFAuxP (j + 1) rest

/-- See `vecWFAuxP`. -/
def vecWFBP (vec : List (ProofHash × Bool)) : Bool := vecWFAuxP 0 vec

theorem builtCountP_set_done {p : Nat} : ∀ {l : List PNVal} {n : Nat} {y : ProofNode},
    l[n]? = some (.Built y) →
    builtCountP p (l.set n .Done) + countRefP p y = builtCountP p l := by
  intro l
  induction l with
  | nil => intro n y h; cases h
  | cons x l ih =>
    intro n y h
    cases n with
    | zero =>
      simp only [List.getElem?_cons_zero, Option.some.injEq] at h
      subst h
      simp [builtCountP]
      omega
    | succ n =>
      simp only [List.getElem?_cons_succ] at h
      have := ih h
      cases x with
      | Built z => simp [builtCountP]; omega
      | Ref m => simpa [builtCountP] using this
      | Done => simpa [builtCountP] using this

theorem builtCountP_append_ref {p : Nat} (l : List PNVal) (m : Nat) :
    builtCountP p (l ++ [.Ref m]) = builtCountP p l := by
  induction l with
  | nil => rfl
  | cons x l ih => cases x <;> simpa [builtCountP] using ih

theorem builtCountP_append_built {p : Nat} (l : List PNVal) (x : ProofNode) :
    builtCountP p (l ++ [.Built x]) = builtCountP p l + countRefP p x := by
  induction l with
  | nil => simp [builtCountP]
  | cons y l ih => cases y <;> (simp [builtCountP, ih]; try omega)

theorem countRefLP_append {p : Nat} (l₁ l₂ : List ProofNode) :
    countRefLP p (l₁ ++ l₂) = countRefLP p l₁ + countRefLP p l₂ := by
  induction l₁ with
  | nil => simp [countRefLP]
  | cons x l ih => simp [countRefLP, ih]; omega

theorem takeAtP_length {ids : List PNVal} {n : Nat} {x : ProofNode}
    {ids2 : List PNVal} (h : takeAtP ids n = some (x, ids2)) :
    ids2.length = ids.length := by
  unfold takeAtP at h
  split at h
  · split at h
    · simp only [Option.some.injEq, Prod.mk.injEq] at h
      obtain ⟨rfl, rfl⟩ := h
      simp
    · cases h
  · cases h

/-- Taking a slot preserves every `Ref` slot, proof mode. -/
theorem takeAtP_ref_preserved {ids : List PNVal} {n : Nat} {x : ProofNode}
    {ids2 : List PNVal} {i p : Nat} (hr : ids[i]? = some (.Ref p))
    (h : takeAtP ids n = some (x, ids2)) : ids2[i]? = some (.Ref p) := by
  unfold takeAtP at h
  split at h
  · rename_i v hv
    split at h
    · rename_i y v2 ht
      simp only [Option.some.injEq, Prod.mk.injEq] at h
      obtain ⟨rfl, rfl⟩ := h
      by_cases he : n = i
      · subst he
        rw [hv] at hr
        cases hr
        cases ht
        rw [set_getElem?_self hv]
        exact hv
      · rw [List.getElem?_set_ne (by omega)]
        exact hr
    · cases h
  · cases h

/-- The counting step for one take, proof mode (see `takeAt_count`). -/
theorem takeAtP_count {ids : List PNVal} {n : Nat} {x : ProofNode}
    {ids2 : List PNVal} {i p : Nat} (hr : ids[i]? = some (.Ref p))
    (h : takeAtP ids n = some (x, ids2)) :
    builtCountP p ids + (if n = i then 1 else 0) ≤
      countRefP p x + builtCountP p ids2 := by
  unfold takeAtP at h
  split at h
  · rename_i v hv
    split at h
    · rename_i y v2 ht
      simp only [Option.some.injEq, Prod.mk.injEq] at h
      obtain ⟨rfl, rfl⟩ := h
      cases v with
      | Built z =>
        cases ht
        have hne : n ≠ i := by
          intro he
          subst he
          rw [hv] at hr
          cases hr
        rw [if_neg hne]
        have := builtCountP_set_done (p := p) hv
        omega
      | Ref m =>
        cases ht
        rw [set_getElem?_self hv]
        by_cases he : n = i
        · subst he
          rw [hv] at hr
          cases hr
          simp [countRefP]
          omega
        · rw [if_neg he]
          simp [countRefP]
      | Done => cases ht
    · cases h
  · cases h

theorem takeSeqP_spec {i p : Nat} : ∀ {ns : List Nat} {ids : List PNVal}
    {es : List ProofNode} {ids2 : List PNVal},
    ids[i]? = some (.Ref p) → takeSeqP ns ids = some (es, ids2) →
    ids2[i]? = some (.Ref p) ∧ ids2.length = ids.length ∧
    builtCountP p ids + countIn i ns ≤ countRefLP p es + builtCountP p ids2 := by
  intro ns
  induction ns with
  | nil =>
    intro ids es ids2 hr h
    simp only [takeSeqP, Option.some.injEq, Prod.mk.injEq] at h
    obtain ⟨rfl, rfl⟩ := h
    exact ⟨hr, rfl, by simp [countIn, countRefLP]⟩
  | cons n ns ih =>
    intro ids es ids2 hr h
    rw [takeSeqP] at h
    split at h
    · cases h
    · rename_i x ids₁ h1
      split at h
      · cases h
      · rename_i xs ids₂ h2
        simp only [Option.some.injEq, Prod.mk.injEq] at h
        obtain ⟨rfl, rfl⟩ := h
        have hr₁ := takeAtP_ref_preserved hr h1
        have hc₁ := takeAtP_count hr h1
        obtain ⟨hr₂, hlen₂, hc₂⟩ := ih hr₁ h2
        refine ⟨hr₂, by rw [hlen₂, takeAtP_length h1], ?_⟩
        rw [countIn_cons, countRefLP]
        omega

theorem takeSeqP_length : ∀ {ns : List Nat} {ids : List PNVal}
    {es : List ProofNode} {ids2 : List PNVal},
    takeSeqP ns ids = some (es, ids2) → ids2.length = ids.length := by
  intro ns
  induction ns with
  | nil =>
    intro ids es ids2 h
    simp only [takeSeqP, Option.some.injEq, Prod.mk.injEq] at h
    obtain ⟨rfl, rfl⟩ := h
    rfl
  | cons n ns ih =>
    intro ids es ids2 h
    rw [takeSeqP] at h
    split at h
    · cases h
    · rename_i x ids₁ h1
      split at h
      · cases h
      · rename_i xs ids₂ h2
        simp only [Option.some.injEq, Prod.mk.injEq] at h
        obtain ⟨rfl, rfl⟩ := h
        rw [ih h2, takeAtP_length h1]

/-- The reassembled node carries exactly the `Ref p` count of its taken
children (at least it, in the `Var` arm, whose own `Ref` only adds). -/
theorem rebuild_count {p : Nat} {h : ProofHash} {es : List ProofNode}
    {node : ProofNode} (hreb : ProofNode.rebuild h es = some node) :
    countRefLP p es ≤ countRefP p node := by
  cases h with
  | Var i =>
    cases es with
    | nil => cases hreb; simp [countRefLP, countRefP]
    | cons x xs => cases hreb
  | Dummy a s =>
    cases es with
    | nil => cases hreb; simp [countRefLP, countRefP]
    | cons x xs => cases hreb
  | Term t ns =>
    cases hreb
    simp [countRefP]
  | Hyp i e =>
    rcases es with _ | ⟨x, _ | ⟨y, es⟩⟩ <;>
      (rw [ProofNode.rebuild.eq_def] at hreb; dsimp only at hreb)
    · cases hreb
    · cases hreb
      simp [countRefLP, countRefP]
    · cases hreb
  | Thm t ns r =>
    rw [ProofNode.rebuild] at hreb
    split at hreb
    · rename_i x hdrop
      cases hreb
      have hsplit : es = es.take ns.length ++ [x] := by
        conv_lhs => rw [← List.take_append_drop ns.length es]
        rw [hdrop]
      conv_lhs => rw [hsplit]
      rw [countRefLP_append]
      simp [countRefP, countRefLP]
    · cases hreb
  | Conv tgt c prf =>
    rcases es with _ | ⟨x, _ | ⟨y, _ | ⟨z, _ | ⟨w, es⟩⟩⟩⟩ <;>
      (rw [ProofNode.rebuild.eq_def] at hreb; dsimp only at hreb)
    · cases hreb
    · cases hreb
    · cases hreb
    · cases hreb
      simp [countRefLP, countRefP]
      omega
    · cases hreb
  | Refl i =>
    rcases es with _ | ⟨x, _ | ⟨y, es⟩⟩ <;>
      (rw [ProofNode.rebuild.eq_def] at hreb; dsimp only at hreb)
    · cases hreb
    · cases hreb
      simp [countRefLP, countRefP]
    · cases hreb
  | Sym i =>
    rcases es with _ | ⟨x, _ | ⟨y, es⟩⟩ <;>
      (rw [ProofNode.rebuild.eq_def] at hreb; dsimp only at hreb)
    · cases hreb
    · cases hreb
      simp [countRefLP, countRefP]
    · cases hreb
  | Cong t ns =>
    cases hreb
    simp [countRefP]
  | Unfold t ns l r c =>
    rw [ProofNode.rebuild] at hreb
    split at hreb
    · rename_i x y z hdrop
      cases hreb
      have hsplit : es = es.take ns.length ++ [x, y, z] := by
        conv_lhs => rw [← List.take_append_drop ns.length es]
        rw [hdrop]
      conv_lhs => rw [hsplit]
      rw [countRefLP_append]
      simp [countRefP, countRefLP]
      omega
    · cases hreb

theorem ofHashP_spec {i p : Nat} {h : ProofHash} {ids : List PNVal}
    {node : ProofNode} {ids2 : List PNVal}
    (hr : ids[i]? = some (.Ref p))
    (hof : ProofNode.ofHash h ids = some (node, ids2)) :
    ids2[i]? = some (.Ref p) ∧ ids2.length = ids.length ∧
    builtCountP p ids + countIn i (PHChildren h) ≤
      countRefP p node + builtCountP p ids2 := by
  rw [ProofNode.ofHash] at hof
  split at hof
  · cases hof
  · rename_i es ids₁ hts
    split at hof
    · cases hof
    · rename_i n hreb
      simp only [Option.some.injEq, Prod.mk.injEq] at hof
      obtain ⟨rfl, rfl⟩ := hof
      obtain ⟨hr₁, hlen₁, hc₁⟩ := takeSeqP_spec hr hts
      have := rebuild_count (p := p) hreb
      exact ⟨hr₁, hlen₁, by omega⟩

theorem ofHashP_length {h : ProofHash} {ids : List PNVal} {node : ProofNode}
    {ids2 : List PNVal} (hof : ProofNode.ofHash h ids = some (node, ids2)) :
    ids2.length = ids.length := by
  rw [ProofNode.ofHash] at hof
  split at hof
  · cases hof
  · rename_i es ids₁ hts
    split at hof
    · cases hof
    · cases hof
      exact takeSeqP_length hts

theorem buildLoopP_count {i p : Nat} : ∀ {rest : List (ProofHash × Bool)}
    {ids : List PNVal} {heap : List ProofNode} {ids2 : List PNVal}
    {heap2 : List ProofNode},
    ids[i]? = some (.Ref p) → buildLoopP rest ids heap = some (ids2, heap2) →
    refTotalP p ids heap + childOccsP rest i ≤ refTotalP p ids2 heap2 := by
  intro rest
  induction rest with
  | nil =>
    intro ids heap ids2 heap2 hr h
    simp only [buildLoopP, Option.some.injEq, Prod.mk.injEq] at h
    obtain ⟨rfl, rfl⟩ := h
    simp [childOccsP]
  | cons hb rest ih =>
    intro ids heap ids2 heap2 hr h
    obtain ⟨hh, b⟩ := hb
    rw [buildLoopP] at h
    split at h
    · cases h
    · rename_i node ids₁ hof
      obtain ⟨hr₁, hlen₁, hc₁⟩ := ofHashP_spec hr hof
      have hi_lt : i < ids₁.length := by
        rw [hlen₁]
        exact (List.getElem?_eq_some.1 hr).1
      have hocc : childOccsP ((hh, b) :: rest) i =
          countIn i (PHChildren hh) + childOccsP rest i := by
        simp [childOccsP]
      split at h
      · have hr₂ : (ids₁ ++ [PNVal.Ref heap.length])[i]? = some (.Ref p) := by
          rw [List.getElem?_append_left hi_lt]
          exact hr₁
        have := ih hr₂ h
        rw [hocc]
        simp only [refTotalP, builtCountP_append_ref, countRefLP_append,
          countRefLP] at this ⊢
        omega
      · have hr₂ : (ids₁ ++ [PNVal.Built node])[i]? = some (.Ref p) := by
          rw [List.getElem?_append_left hi_lt]
          exact hr₁
        have := ih hr₂ h
        rw [hocc]
        simp only [refTotalP, builtCountP_append_built, countRefLP_append,
          countRefLP] at this ⊢
        omega

theorem buildLoopP_append : ∀ (xs ys : List (ProofHash × Bool))
    (ids : List PNVal) (heap : List ProofNode),
    buildLoopP (xs ++ ys) ids heap =
      match buildLoopP xs ids heap with
      | none => none
      | some (ids₁, heap₁) => buildLoopP ys ids₁ heap₁ := by
  intro xs
  induction xs with
  | nil => intro ys ids heap; simp [buildLoopP]
  | cons hb xs ih =>
    intro ys ids heap
    obtain ⟨hh, b⟩ := hb
    rw [List.cons_append, buildLoopP, buildLoopP]
    split
    · rfl
    · rename_i node ids₁ hof
      split
      · exact ih ys _ _
      · exact ih ys _ _

theorem buildLoopP_lengths : ∀ {xs : List (ProofHash × Bool)} {ids : List PNVal}
    {heap : List ProofNode} {ids2 : List PNVal} {heap2 : List ProofNode},
    buildLoopP xs ids heap = some (ids2, heap2) →
    ids2.length = ids.length + xs.length ∧
    heap2.length = heap.length + (xs.filter fun hb => hb.2).length := by
  intro xs
  induction xs with
  | nil =>
    intro ids heap ids2 heap2 h
    simp only [buildLoopP, Option.some.injEq, Prod.mk.injEq] at h
    obtain ⟨rfl, rfl⟩ := h
    simp
  | cons hb xs ih =>
    intro ids heap ids2 heap2 h
    obtain ⟨hh, b⟩ := hb
    rw [buildLoopP] at h
    split at h
    · cases h
    · rename_i node ids₁ hof
      have hlen₁ : ids₁.length = ids.length := ofHashP_length hof
      split at h
      · rename_i hbt
        subst hbt
        obtain ⟨ha, hb2⟩ := ih h
        constructor
        · rw [ha]
          simp [hlen₁]
          omega
        · rw [hb2]
          simp [List.filter]
          omega
      · rename_i hbf
        obtain ⟨ha, hb2⟩ := ih h
        have hbf2 : b = false := by
          cases b
          · rfl
          · exact absurd rfl hbf
        subst hbf2
        constructor
        · rw [ha]
          simp [hlen₁]
          omega
        · rw [hb2]
          simp [List.filter]

theorem vecWFAuxP_spec : ∀ {l : List (ProofHash × Bool)} {j0 : Nat},
    vecWFAuxP j0 l = true →
    ∀ (k : Nat) (h : ProofHash) (b : Bool), l[k]? = some (h, b) →
    ∀ c ∈ PHChildren h, c < j0 + k := by
  intro l
  induction l with
  | nil => intro j0 _ k h b hk; cases hk
  | cons hb l ih =>
    intro j0 hwf k h b hk c hc
    simp only [vecWFAuxP, Bool.and_eq_true, List.all_eq_true,
      decide_eq_true_eq] at hwf
    obtain ⟨h1, h2⟩ := hwf
    cases k with
    | zero =>
      simp only [List.getElem?_cons_zero, Option.some.injEq] at hk
      subst hk
      simpa using h1 c hc
    | succ k =>
      simp only [List.getElem?_cons_succ] at hk
      have := ih (by simpa [vecWFAuxP, List.all_eq_true] using h2) k h b hk c hc
      omega

theorem vecWFBP_spec {vec : List (ProofHash × Bool)} (hwf : vecWFBP vec = true) :
    ∀ (k : Nat) (h : ProofHash) (b : Bool), vec[k]? = some (h, b) →
    ∀ c ∈ PHChildren h, c < k := by
  intro k h b hk c hc
  simpa using vecWFAuxP_spec hwf k h b hk c hc

theorem childOccsP_append (l₁ l₂ : List (ProofHash × Bool)) (i : Nat) :
    childOccsP (l₁ ++ l₂) i = childOccsP l₁ i + childOccsP l₂ i := by
  simp [childOccsP]

theorem childOccsP_cons (hb : ProofHash × Bool) (l : List (ProofHash × Bool))
    (i : Nat) :
    childOccsP (hb :: l) i = countIn i (PHChildren hb.1) + childOccsP l i := by
  simp [childOccsP]

theorem childOccsP_zero {l : List (ProofHash × Bool)} {i : Nat}
    (hz : ∀ hb ∈ l, countIn i (PHChildren hb.1) = 0) : childOccsP l i = 0 := by
  induction l with
  | nil => rfl
  | cons hb l ih =>
    rw [childOccsP_cons, hz hb (by simp),
      ih fun x hx => hz x (List.mem_cons_of_mem _ hx)]

/-- Lower bound on `Ref` references in proof mode (the body of claim C3
for `ProofHash`/`ProofNode` tables). -/
theorem proofSharing_bound (vec : List (ProofHash × Bool)) (ids : List PNVal)
    (heap : List ProofNode) (i : Nat) (h : ProofHash)
    (hwf : vecWFBP vec = true)
    (hget : vec[i]? = some (h, true))
    (hocc : 2 ≤ childOccsP vec i)
    (hbuild : toBuilderP vec = some (ids, heap)) :
    2 ≤ refTotalP (heapPosP vec i) ids heap := by
  have hi_lt : i < vec.length := (List.getElem?_eq_some.1 hget).1
  have hgetE : vec[i] = (h, true) := by
    have h2 := List.getElem?_eq_getElem hi_lt
    rw [hget] at h2
    exact Option.some_inj.1 h2.symm
  have hdec : vec = vec.take i ++ (h, true) :: vec.drop (i + 1) := by
    conv_lhs => rw [← List.take_append_drop i vec]
    congr 1
    rw [← List.getElem_cons_drop vec i hi_lt, hgetE]
  have hwfs := vecWFBP_spec hwf
  have hz1 : childOccsP (vec.take i) i = 0 := by
    refine childOccsP_zero fun hb hm => ?_
    obtain ⟨k, hk⟩ := List.mem_iff_getElem?.1 hm
    have hk_lt : k < i := by
      have h3 := (List.getElem?_eq_some.1 hk).1
      simp at h3
      omega
    rw [List.getElem?_take, if_pos hk_lt] at hk
    refine countIn_zero fun c hc => ?_
    have := hwfs k hb.1 hb.2 (by rw [hk]) c hc
    omega
  have hz2 : countIn i (PHChildren h) = 0 := by
    refine countIn_zero fun c hc => ?_
    have := hwfs i h true hget c hc
    omega
  have hocc_drop : 2 ≤ childOccsP (vec.drop (i + 1)) i := by
    have h4 : childOccsP vec i =
        childOccsP (vec.take i) i + countIn i (PHChildren h) +
          childOccsP (vec.drop (i + 1)) i := by
      conv_lhs => rw [hdec]
      rw [childOccsP_append, childOccsP_cons]
      dsimp only
      omega
    omega
  rw [toBuilderP] at hbuild
  rw [show buildLoopP vec [] [] = buildLoopP (vec.take i ++ (h, true) :: vec.drop (i + 1)) [] [] from by rw [← hdec]] at hbuild
  rw [buildLoopP_append] at hbuild
  cases hpre : buildLoopP (vec.take i) [] [] with
  | none => rw [hpre] at hbuild; cases hbuild
  | some p =>
    obtain ⟨ids₀, heap₀⟩ := p
    rw [hpre] at hbuild
    dsimp only at hbuild
    obtain ⟨hlen₀, hheap₀⟩ := buildLoopP_lengths hpre
    have hlen₀1 : ids₀.length = i := by
      rw [hlen₀]
      simp
      omega
    have hheap₀1 : heap₀.length = heapPosP vec i := by
      rw [hheap₀]
      simp [heapPosP]
    rw [buildLoopP.eq_def] at hbuild
    dsimp only at hbuild
    split at hbuild
    · cases hbuild
    · rename_i node ids₁ hof
      have hlen₁ : ids₁.length = i := by rw [ofHashP_length hof, hlen₀1]
      have hr₂ : (ids₁ ++ [PNVal.Ref heap₀.length])[i]? =
          some (.Ref heap₀.length) := by
        rw [← hlen₁]
        simp
      have hcount := buildLoopP_count hr₂ hbuild
      have hpos : refTotalP heap₀.length (ids₁ ++ [PNVal.Ref heap₀.length])
          (heap₀ ++ [node]) + childOccsP (vec.drop (i + 1)) i
            ≤ refTotalP heap₀.length ids heap := hcount
      rw [hheap₀1] at hpos
      omega

/-- C3 amended, both dedup modes.  In the `(ids, heap)` produced by
`to_builder` from any dedup table — expression mode
(`ExprHash`/`ExprNode`) or proof mode (`ProofHash`/`ProofNode`) — a
heap-promoted slot `i` collects one `Ref` reference for each occurrence
of `i` as a child of another table entry; hence every heap-promoted
node with at least two child occurrences is referenced at least 2 times
via `Ref` in the resulting structure.  (Promoted slots with fewer child
occurrences — such as the pre-marked but unused parameter slots of a
fresh table — can be referenced fewer than 2 times, as the
counterexample shows.)  `vecWFB`/`vecWFBP` is the topological
well-formedness the dedup API maintains: children precede their
parent. -/
theorem claim3_amended_sharing :
    (∀ (vec : List (ExprHash × Bool)) (ids : List EVal)
      (heap : List ExprNode) (i : Nat) (h : ExprHash),
      vecWFB vec = true → vec[i]? = some (h, true) →
      2 ≤ childOccs vec i → toBuilder vec = some (ids, heap) →
      2 ≤ refTotal (heapPos vec i) ids heap) ∧
    (∀ (vec : List (ProofHash × Bool)) (ids : List PNVal)
      (heap : List ProofNode) (i : Nat) (h : ProofHash),
      vecWFBP vec = true → vec[i]? = some (h, true) →
      2 ≤ childOccsP vec i → toBuilderP vec = some (ids, heap) →
      2 ≤ refTotalP (heapPosP vec i) ids heap) :=
  ⟨exprSharing_bound, proofSharing_bound⟩

/-- C3 witness tables: slot 0 is shared and occurs twice as a child of
slot 1, in each mode. -/
def vecW3 : List (ExprHash × Bool) := [(.Dummy 0 0, true), (.App 5 [0, 0], false)]

/-- Proof-mode witness table for C3. -/
def vecW3P : List (ProofHash × Bool) :=
  [(.Dummy 0 0, true), (.Term 5 [0, 0], false)]

theorem claim3_witness :
    (2 ≤ refTotal (heapPos vecW3 0)
      [.Ref 0, .Built (.App 5 [.Ref 0, .Ref 0])] [.Dummy 0 0]) ∧
    (2 ≤ refTotalP (heapPosP vecW3P 0)
      [.Ref 0, .Built (.Term 5 [.Ref 0, .Ref 0])] [.Dummy 0 0]) :=
  ⟨claim3_amended_sharing.1 vecW3 _ _ 0 (.Dummy 0 0) (by decide) rfl
      (by decide) rfl,
    claim3_amended_sharing.2 vecW3P _ _ 0 (.Dummy 0 0) (by decide) rfl
      (by decide) rfl⟩

/-! ## Part 11: the lisp evaluator (eval.rs) — data model

The evaluator operates on its own value type (pointer identity plays no
role here).  Modelling choices, stated once: source spans (`Span`,
`FileSpan`, `ProcPos`) only feed error positions and are dropped;
error messages keep their distinctive static text but formatted
interpolations are elided; printing/reporting effects are dropped
(`print!` only reports); `Ref` cells are modelled as immutable
snapshots (none of the checked claims observes aliased mutation);
`Arc` reference counts are not modelled, so `Arc::try_unwrap` is
modelled as its uniquely-owned path, and the copy-on-write and in-place
paths of map mutation (which mutate the same cells) are merged.  The
one-shot validity flags of match continuations are modelled as a store
of booleans indexed by allocation order, standing for the
`Arc<AtomicBool>` identities. -/

/-- `ProcSpec` (modelled from the spec: `Exact(n)` or `AtLeast(n)`). -/
inductive ProcSpec where
  | exact (n : Nat)
  | atLeast (n : Nat)
deriving DecidableEq, Repr

/-- `ProcSpec::valid` arity check. -/
def ProcSpec.valid : ProcSpec → Nat → Bool
  | .exact n, k => decide (k = n)
  | .atLeast n, k => decide (n ≤ k)

/-- The builtin procedure enumeration of eval.rs. -/
inductive BuiltinProc where
  | Display | Error | Print | Begin | Apply
  | Add | Mul | Max | Min | Sub | Div | Mod
  | Lt | Le | Gt | Ge | Eq
  | ToString | StringToAtom | StringAppend
  | Not | And | Or
  | List | Cons | Head | Tail | Map
  | IsBool | IsAtom | IsPair | IsNull | IsNumber | IsString | IsProc
  | IsDef | IsRef | NewRef | GetRef | SetRef | Async
  | IsAtomMap | NewAtomMap | Lookup | Insert | InsertNew
  | SetTimeout | IsMVar | IsGoal | NewMVar | PrettyPrint | NewGoal | GoalType
  | InferType | GetMVars | GetGoals | SetGoals | ToExpr | Refine | Have
  | Stat | GetDecl | AddDecl | AddTerm | AddThm | SetReporting | RefineExtraArgs
deriving DecidableEq, Repr

/-- The arity table of `make_builtins!`. -/
def BuiltinProc.spec : BuiltinProc → ProcSpec
  | .Display => .exact 1
  | .Error => .exact 1
  | .Print => .exact 1
  | .Begin => .atLeast 0
  | .Apply => .atLeast 2
  | .Add => .atLeast 0
  | .Mul => .atLeast 0
  | .Max => .atLeast 1
  | .Min => .atLeast 1
  | .Sub => .atLeast 1
  | .Div => .atLeast 1
  | .Mod => .atLeast 1
  | .Lt => .atLeast 1
  | .Le => .atLeast 1
  | .Gt => .atLeast 1
  | .Ge => .atLeast 1
  | .Eq => .atLeast 1
  | .ToString => .exact 1
  | .StringToAtom => .exact 1
  | .StringAppend => .atLeast 0
  | .Not => .atLeast 0
  | .And => .atLeast 0
  | .Or => .atLeast 0
  | .List => .atLeast 0
  | .Cons => .atLeast 0
  | .Head => .exact 1
  | .Tail => .exact 1
  | .Map => .atLeast 1
  | .IsBool => .exact 1
  | .IsAtom => .exact 1
  | .IsPair => .exact 1
  | .IsNull => .exact 1
  | .IsNumber => .exact 1
  | .IsString => .exact 1
  | .IsProc => .exact 1
  | .IsDef => .exact 1
  | .IsRef => .exact 1
  | .NewRef => .atLeast 0
  | .GetRef => .exact 1
  | .SetRef => .exact 2
  | .Async => .atLeast 1
  | .IsAtomMap => .exact 1
  | .NewAtomMap => .atLeast 0
  | .Lookup => .atLeast 2
  | .Insert => .atLeast 2
  | .InsertNew => .atLeast 2
  | .SetTimeout => .exact 1
  | .IsMVar => .exact 1
  | .IsGoal => .exact 1
  | .NewMVar => .atLeast 0
  | .PrettyPrint => .exact 1
  | .NewGoal => .exact 1
  | .GoalType => .exact 1
  | .InferType => .exact 1
  | .GetMVars => .atLeast 0
  | .GetGoals => .atLeast 0
  | .SetGoals => .atLeast 0
  | .ToExpr => .exact 1
  | .Refine => .atLeast 0
  | .Have => .atLeast 2
  | .Stat => .exact 0
  | .GetDecl => .exact 1
  | .AddDecl => .atLeast 4
  | .AddTerm => .atLeast 3
  | .AddThm => .atLeast 4
  | .SetReporting => .atLeast 1
  | .RefineExtraArgs => .atLeast 2

/-- `Pattern` of the IR (modelled from the spec data model). -/
inductive Pattern where
  | skip
  | atom (i : Nat)
  | quoteAtom (a : Nat)
  | strP (s : String)
  | boolP (b : Bool)
  | numP (n : Int)
  | qExprAtom (a : Nat)
  | listP (ps : List Pattern) (n : Option Nat)
  | dottedListP (ps : List Pattern) (p : Pattern)
  | andP (ps : List Pattern)
  | orP (ps : List Pattern)
  | notP (ps : List Pattern)
  | testP (i : Nat) (ps : List Pattern)

mutual

/-- Runtime lisp values (`LispVal`/`LispKind`), evaluator view.
Modelled from the spec data model; see the modelling notes above. -/
inductive LispVal where
  | atom (a : Nat)
  | num (n : Int)
  | str (s : String)
  | bool (b : Bool)
  | undef
  | list (es : List LispVal)
  | dotted (es : List LispVal) (r : LispVal)
  | proc (p : Proc)
  | ref (v : LispVal)
  | atomMap (m : List (Nat × LispVal))
  | annot (v : LispVal)
  | mvar (id : Nat)
  | goal (tgt : LispVal)
  | formula (s : String)

/-- Procedures: builtins, lambdas with captured environment, and
match-continuation handles carrying the index of their validity flag. -/
inductive Proc where
  | builtin (p : BuiltinProc)
  | lambda (spec : ProcSpec) (env : List LispVal) (code : IR)
  | matchCont (flag : Nat)

/-- The IR tree the evaluator reduces (modelled from the spec data
model; the IR type itself lives in the parser, outside the provided
sources).  Spans are dropped. -/
inductive IR where
  | local (i : Nat)
  | global (a : Nat)
  | const (v : LispVal)
  | list (es : List IR)
  | dottedList (es : List IR) (r : IR)
  | app (f : IR) (es : List IR)
  | ite (c : IR) (t : IR) (e : IR)
  | defn (x : Option Nat) (v : IR)
  | eval (es : List IR)
  | lambda (spec : ProcSpec) (code : IR)
  | matchIR (e : IR) (brs : List Branch)
  | focus

/-- A match branch: pattern, binder count, continuation flag, body. -/
inductive Branch where
  | mk (pat : Pattern) (vars : Nat) (cont : Bool) (eval : IR)

end

/-- Branch pattern accessor. -/
def Branch.pat : Branch → Pattern
  | .mk p _ _ _ => p

/-- Branch binder count accessor. -/
def Branch.vars : Branch → Nat
  | .mk _ v _ _ => v

/-- Branch continuation flag accessor. -/
def Branch.cont : Branch → Bool
  | .mk _ _ c _ => c

/-- Branch body accessor. -/
def Branch.eval : Branch → IR
  | .mk _ _ _ e => e

/-- The unwrapping rule: strip `Annot`, follow `Ref` (spec invariant;
the accessor itself lives outside the provided sources). -/
def unwrapL : LispVal → LispVal
  | .annot v => unwrapL v
  | .ref v => unwrapL v
  | v => v

/-- Truthiness: everything except `#f` and `#u` (after unwrap). -/
def truthy (v : LispVal) : Bool :=
  match unwrapL v with
  | .bool false => false
  | .undef => false
  | _ => true

/-! ## Part 12: accessors and helpers (modelled from the spec where the
function lives outside the provided sources) -/

/-- The external atom interner, `get_atom`; only success matters to the
checked claims, so an arbitrary total encoding is used. -/
def internAtom (s : String) : Nat := s.length

/-- The external atom name table, `data[a].name`. -/
def atomName (a : Nat) : String := toString a

/-- `is_bool`. -/
def LispVal.isBool (v : LispVal) : Bool :=
  match unwrapL v with | .bool _ => true | _ => false

/-- `as_bool`. -/
def LispVal.asBool (v : LispVal) : Option Bool :=
  match unwrapL v with | .bool b => some b | _ => none

/-- `is_atom`. -/
def LispVal.isAtom (v : LispVal) : Bool :=
  match unwrapL v with | .atom _ => true | _ => false

/-- `as_atom`. -/
def LispVal.asAtom (v : LispVal) : Option Nat :=
  match unwrapL v with | .atom a => some a | _ => none

/-- `is_pair`: a nonempty list or a dotted list. -/
def LispVal.isPair (v : LispVal) : Bool :=
  match unwrapL v with
  | .list [] => false
  | .list _ => true
  | .dotted _ _ => true
  | _ => false

/-- `is_null`. -/
def LispVal.isNull (v : LispVal) : Bool :=
  match unwrapL v with | .list [] => true | _ => false

/-- `is_int`. -/
def LispVal.isInt (v : LispVal) : Bool :=
  match unwrapL v with | .num _ => true | _ => false

/-- `is_string`. -/
def LispVal.isString (v : LispVal) : Bool :=
  match unwrapL v with | .str _ => true | _ => false

/-- `is_proc`. -/
def LispVal.isProc (v : LispVal) : Bool :=
  match unwrapL v with | .proc _ => true | _ => false

/-- `is_def`: everything except `#u`. -/
def LispVal.isDef (v : LispVal) : Bool :=
  match unwrapL v with | .undef => false | _ => true

/-- `is_ref`: strips `Annot` but does not dereference. -/
def LispVal.isRef : LispVal → Bool
  | .annot v => v.isRef
  | .ref _ => true
  | _ => false

/-- `is_map`. -/
def LispVal.isMap (v : LispVal) : Bool :=
  match unwrapL v with | .atomMap _ => true | _ => false

/-- `is_mvar`. -/
def LispVal.isMVar (v : LispVal) : Bool :=
  match unwrapL v with | .mvar _ => true | _ => false

/-- `is_goal`. -/
def LispVal.isGoal (v : LispVal) : Bool :=
  match unwrapL v with | .goal _ => true | _ => false

/-- `goal_type`. -/
def LispVal.goalType (v : LispVal) : Option LispVal :=
  match unwrapL v with | .goal t => some t | _ => none

/-- `Uncons::next` (modelled from the spec): yield the next element and
the advanced cursor. -/
def unconsNext : LispVal → Option (LispVal × LispVal)
  | .annot v => unconsNext v
  | .ref v => unconsNext v
  | .list [] => none
  | .list (e :: es) => some (e, .list es)
  | .dotted [] r => unconsNext r
  | .dotted (e :: es) r => some (e, .dotted es r)
  | _ => none

/-- `Uncons::exactly(0)` (modelled from the spec): the cursor rests
exactly at a proper end. -/
def unconsExactly0 : LispVal → Bool
  | .annot v => unconsExactly0 v
  | .ref v => unconsExactly0 v
  | .list [] => true
  | .dotted [] r => unconsExactly0 r
  | _ => false

/-- `Uncons::at_least(n)` (modelled from the spec): the cursor can
yield at least `n` more elements. -/
def unconsAtLeast : Nat → LispVal → Bool
  | 0, _ => true
  | n + 1, v =>
    match unconsNext v with
    | some (_, u) => unconsAtLeast n u
    | none => false

/-! ## Part 13: the value helpers of eval.rs -/

/-- `Elaborator::as_string` (unwrap, expect a string). -/
def asString (v : LispVal) : Except String String :=
  match unwrapL v with
  | .str s => .ok s
  | _ => .error "expected a string"

/-- `Elaborator::as_atom_string` (unwrap; a string or an atom name). -/
def asAtomString (v : LispVal) : Except String String :=
  match unwrapL v with
  | .str s => .ok s
  | .atom a => .ok (atomName a)
  | _ => .error "expected an atom"

/-- `Elaborator::as_string_atom` (unwrap; intern a string, keep an
atom). -/
def asStringAtom (v : LispVal) : Except String Nat :=
  match unwrapL v with
  | .str s => .ok (internAtom s)
  | .atom a => .ok a
  | _ => .error "expected an atom"

/-- `Elaborator::as_int` (unwrap, expect a number). -/
def asInt (v : LispVal) : Except String Int :=
  match unwrapL v with
  | .num n => .ok n
  | _ => .error "expected a integer"

/-- `Elaborator::as_ref` (strip `Annot` only; expect a `Ref`, yield its
contents). -/
def asRef : LispVal → Except String LispVal
  | .ref v => .ok v
  | .annot v => asRef v
  | _ => .error "not a ref-cell"

/-- `Elaborator::as_map` (unwrap, expect an `AtomMap`). -/
def asMap (v : LispVal) : Except String (List (Nat × LispVal)) :=
  match unwrapL v with
  | .atomMap m => .ok m
  | _ => .error "not an atom map"

/-- `Elaborator::to_string` (follows indirection; strings copy, atoms
yield their name, numbers their decimal, everything else is
pretty-printed — the printer is external and elided). -/
def toStringFn : LispVal → String
  | .ref v => toStringFn v
  | .annot v => toStringFn v
  | .str s => s
  | .formula s => s
  | .atom a => atomName a
  | .num n => toString n
  | _ => "<printed value>"

/-- `LispKind::as_ref_mut` without the closure: strip `Annot` to the
first `Ref` and yield the cell contents (the closure argument of the
source receives a mutable borrow of exactly this value); `none` for
anything that is not a `Ref` under `Annot`s. -/
def asRefMut : LispVal → Option LispVal
  | .ref v => some v
  | .annot v => asRefMut v
  | _ => none

/-- Success predicate of `LispKind::as_map_mut`: the chain of `Annot`
wrappers and `Ref` cells reaches an `AtomMap`.  The uniquely-owned
in-place path and the `make_map_mut` copy-on-write path of the source
traverse exactly the same chain, so they are merged here. -/
def asMapMutOk : LispVal → Bool
  | .atomMap _ => true
  | .annot v => asMapMutOk v
  | .ref v => asMapMutOk v
  | _ => false

/-- `Elaborator::head`. -/
def headFn : LispVal → Except String LispVal
  | .annot v => headFn v
  | .ref v => headFn v
  | .list [] => .error "evaluating hd of nil"
  | .list (e :: _) => .ok e
  | .dotted [] r => headFn r
  | .dotted (e :: _) _ => .ok e
  | _ => .error "expected a list"

/-- The `exponential_backoff` helper of `Elaborator::tail`: chunk
`es[i..]` into doubling half-open slices `es[i..2i]`, `es[2i..4i]`, …,
ending with `r` applied to the remaining suffix.  The source recursion
terminates because it is always entered with `i = 1` and `i` doubles;
here structural fuel (`es.length` suffices) plays that role, and the
out-of-fuel base emits the same suffix form. -/
def expBackoff (es : List LispVal) (r : List LispVal → LispVal) :
    Nat → Nat → LispVal
  | 0, i => r (es.drop i)
  | fuel + 1, i =>
    if 2 * i ≥ es.length then r (es.drop i)
    else .dotted ((es.drop i).take i) (expBackoff es r fuel (2 * i))

/-- `Elaborator::tail` (the builtin `tl`). -/
def tailFn : LispVal → Except String LispVal
  | .annot v => tailFn v
  | .ref v => tailFn v
  | .list [] => .error "evaluating tl of nil"
  | .list (e :: es) =>
    .ok (expBackoff (e :: es) (fun v => .list v) (e :: es).length 1)
  | .dotted [] r => tailFn r
  | .dotted (e :: es) r =>
    .ok (expBackoff (e :: es) (fun v => .dotted v r) (e :: es).length 1)
  | _ => .error "expected a list"

/-- `int_bool_binop`: fold a comparison over consecutive pairs with
short-circuit on the first failure.  The empty case is unreachable
(`it.next().unwrap()` after the arity check). -/
def intBoolBinop (f : Int → Int → Bool) : List LispVal → Except String Bool
  | [] => .error "arity panic"
  | e :: es =>
    match asInt e with
    | .error er => .error er
    | .ok first => go first es
where
  /-- The `while let` loop of `int_bool_binop`. -/
  go (last : Int) : List LispVal → Except String Bool
  | [] => .ok true
  | v :: it =>
    match asInt v with
    | .error er => .error er
    | .ok new => if f last new then go new it else .ok false

/-- The folding loops of the arithmetic builtins (`n op= as_int(e)?`). -/
def intFold (f : Int → Int → Int) : Int → List LispVal → Except String Int
  | n, [] => .ok n
  | n, e :: es =>
    match asInt e with
    | .error er => .error er
    | .ok m => intFold f (f n m) es

/-- The splicing loop of `apply`: the last argument must be a literal
`List` or a `DottedList` chain (note: the source matches the
`LispKind` without unwrapping). -/
def applyLoop (acc : List LispVal) : LispVal → Except String (List LispVal)
  | .list es => .ok (acc ++ es)
  | .dotted es r => applyLoop (acc ++ es) r
  | _ => .error "apply: last argument is not a list"

/-- `HashMap::insert` on the assoc-list model of `AtomMap`. -/
def mapInsert (k : Nat) (v : LispVal) (m : List (Nat × LispVal)) :
    List (Nat × LispVal) :=
  (k, v) :: m.filter fun kv => decide (kv.1 ≠ k)

/-- `HashMap::remove` on the assoc-list model of `AtomMap`. -/
def mapErase (k : Nat) (m : List (Nat × LispVal)) : List (Nat × LispVal) :=
  m.filter fun kv => decide (kv.1 ≠ k)

/-- The entry loop of `atom-map!`: each argument is a 1- or 2-element
list; 2 elements insert, 1 deletes. -/
def newAtomMapLoop (m : List (Nat × LispVal)) :
    List LispVal → Except String (List (Nat × LispVal))
  | [] => .ok m
  | e :: es =>
    match unconsNext e with
    | none => .error "invalid arguments"
    | some (e1, u) =>
      match asStringAtom e1 with
      | .error er => .error er
      | .ok a =>
        match unconsNext u with
        | some (v, u2) =>
          if unconsExactly0 u2 then newAtomMapLoop (mapInsert a v m) es
          else .error "invalid arguments"
        | none =>
          if unconsExactly0 u then newAtomMapLoop (mapErase a m) es
          else .error "invalid arguments"

/-! ## Part 14: pattern matching -/

/-- The `Dot` tail policy of list patterns. -/
inductive Dot where
  | list (n : Option Nat)
  | dlist (p : Pattern)

/-- `PatternStack` frames; the `Uncons` cursor is the remaining value. -/
inductive PatternFrame where
  | listF (u : LispVal) (ps : List Pattern) (dot : Dot)
  | binary (isOr : Bool) (out : Bool) (v : LispVal) (ps : List Pattern)

/-- `PatternState`. -/
inductive PatternState where
  | eval (p : Pattern) (v : LispVal)
  | ret (b : Bool)
  | listS (u : LispVal) (ps : List Pattern) (dot : Dot)
  | binary (isOr : Bool) (out : Bool) (v : LispVal) (ps : List Pattern)

/-- `QuoteAtom` comparison after unwrap. -/
def isAtomPat (a : Nat) (e : LispVal) : Bool :=
  match unwrapL e with | .atom a2 => decide (a = a2) | _ => false

/-- `QExprAtom`: the atom itself or a one-element list of it. -/
def isQExprAtomPat (a : Nat) (e : LispVal) : Bool :=
  match unwrapL e with
  | .atom a2 => decide (a = a2)
  | .list [e1] => isAtomPat a e1
  | _ => false

/-- `Elaborator::pattern_match`, the inner pattern loop.  Returns the
final binder array with the match outcome, or a suspension
`(stack, binders, proc-slot)` for a `Test` pattern
(`Err(TestPending)`), which re-enters the evaluator.  The loop is
bounded by fuel (`none` = out of fuel); the source loop terminates on
finite patterns and values. -/
def patternMatch : Nat → List PatternFrame → List LispVal → PatternState →
    Option ((List LispVal × Bool) ⊕ (List PatternFrame × List LispVal × Nat))
  | 0, _, _, _ => none
  | fuel + 1, stack, vars, st =>
    match st with
    | .eval p e =>
      match p with
      | .skip => patternMatch fuel stack vars (.ret true)
      | .atom i => patternMatch fuel stack (vars.set i e) (.ret true)
      | .quoteAtom a => patternMatch fuel stack vars (.ret (isAtomPat a e))
      | .strP s => patternMatch fuel stack vars (.ret
          (match unwrapL e with | .str s2 => decide (s = s2) | _ => false))
      | .boolP b => patternMatch fuel stack vars (.ret
          (match unwrapL e with | .bool b2 => decide (b = b2) | _ => false))
      | .numP n => patternMatch fuel stack vars (.ret
          (match unwrapL e with | .num n2 => decide (n = n2) | _ => false))
      | .qExprAtom a => patternMatch fuel stack vars (.ret (isQExprAtomPat a e))
      | .dottedListP ps p2 => patternMatch fuel stack vars (.listS e ps (.dlist p2))
      | .listP ps n => patternMatch fuel stack vars (.listS e ps (.list n))
      | .andP ps => patternMatch fuel stack vars (.binary false false e ps)
      | .orP ps => patternMatch fuel stack vars (.binary true true e ps)
      | .notP ps => patternMatch fuel stack vars (.binary true false e ps)
      | .testP i ps => some (.inr (.binary false false e ps :: stack, vars, i))
    | .ret b =>
      match stack with
      | [] => some (.inl (vars, b))
      | .listF u it r :: rest =>
        if b then patternMatch fuel rest vars (.listS u it r)
        else patternMatch fuel rest vars (.ret false)
      | .binary isOr out u it :: rest =>
        if xor b isOr then patternMatch fuel rest vars (.binary isOr out u it)
        else patternMatch fuel rest vars (.ret out)
    | .listS u it dot =>
      match it with
      | [] =>
        match dot with
        | .list none => patternMatch fuel stack vars (.ret (unconsExactly0 u))
        | .list (some n) => patternMatch fuel stack vars (.ret (unconsAtLeast n u))
        | .dlist p => patternMatch fuel stack vars (.eval p u)
      | p :: it' =>
        match unconsNext u with
        | none => patternMatch fuel stack vars (.ret false)
        | some (l, u') =>
          patternMatch fuel (.listF u' it' dot :: stack) vars (.eval p l)
    | .binary isOr out e it =>
      match it with
      | [] => patternMatch fuel stack vars (.ret !out)
      | p :: it' =>
        patternMatch fuel (.binary isOr out e it' :: stack) vars (.eval p e)

/-! ## Part 15: the evaluator machine -/

/-- The control stack frames (`Stack<'a>`); spans and procedure
positions are dropped. -/
inductive Frame where
  | list (acc : List LispVal) (rest : List IR)
  | dottedList (acc : List LispVal) (rest : List IR) (r : IR)
  | dottedList2 (acc : List LispVal)
  | app (es : List IR)
  | app2 (f : LispVal) (acc : List LispVal) (rest : List IR)
  | ite (t : IR) (e : IR)
  | defn (x : Option Nat)
  | eval (rest : List IR)
  | matchF (brs : List Branch)
  | testPattern (scrut : LispVal) (brs : List Branch) (br : Branch)
      (pstack : List PatternFrame) (vars : List LispVal)
  | drop (n : Nat)
  | ret (oldCtx : List LispVal) (code : IR)
  | matchCont (scrut : LispVal) (brs : List Branch) (flag : Nat)
  | mapProc (f : LispVal) (us : List LispVal) (acc : List LispVal)

/-- `Stack::supports_def`. -/
def Frame.supportsDef : Frame → Bool
  | .app2 _ _ _ => true
  | .eval _ => true
  | _ => false

/-- The machine state (`State<'a>`). -/
inductive EvalState where
  | eval (ir : IR)
  | ret (v : LispVal)
  | list (acc : List LispVal) (rest : List IR)
  | dottedList (acc : List LispVal) (rest : List IR) (r : IR)
  | app (f : LispVal) (acc : List LispVal) (rest : List IR)
  | matchS (scrut : LispVal) (brs : List Branch)
  | pattern (scrut : LispVal) (brs : List Branch) (br : Branch)
      (pstack : List PatternFrame) (vars : List LispVal) (pst : PatternState)
  | mapProc (f : LispVal) (us : List LispVal) (acc : List LispVal)

/-- The evaluator fields (`Evaluator` minus the elaborator internals the
claims do not touch): the local context, the control stack, the store
of continuation validity flags, the global symbol table
(`data[a].lisp`), and the metavariable/goal lists of the local
context. -/
structure EState where
  ctx : List LispVal
  stack : List Frame
  flags : List Bool
  globals : List (Nat × LispVal)
  mvars : List LispVal
  goals : List LispVal

/-- One load of a validity flag (`valid.load()`); absent indices read
`false` (in the source the `Arc` keeps the atomic alive). -/
def flagGet (flags : List Bool) (k : Nat) : Bool := flags.getD k false

/-- `valid.store(false)`. -/
def clearFlag (flags : List Bool) (k : Nat) : List Bool := flags.set k false

/-- The continuation resume walk of `Proc::MatchCont` application: pop
frames, truncating locals at `Drop` and restoring them at `Ret`,
clearing the flag of every `MatchCont` frame encountered, until the
frame holding the applied flag (`Arc::ptr_eq`) is found; `none` when
the stack is exhausted. -/
def contWalk (flags : List Bool) (ctx : List LispVal) (k : Nat) :
    List Frame → List Bool × List LispVal × Option (List Frame × LispVal × List Branch)
  | [] => (flags, ctx, none)
  | .matchCont scrut brs a :: st =>
    if a = k then (clearFlag flags a, ctx, some (st, scrut, brs))
    else contWalk (clearFlag flags a) ctx k st
  | .drop n :: st => contWalk flags (ctx.take n) k st
  | .ret oldCtx _ :: st => contWalk flags oldCtx k st
  | _ :: st => contWalk flags ctx k st

/-- The fixed numbering of builtin atoms (`BuiltinProc::from_str`
composed with the interner, both external): builtin `i` of this list is
named by atom `i`. -/
def builtinList : List BuiltinProc :=
  [.Display, .Error, .Print, .Begin, .Apply, .Add, .Mul, .Max, .Min, .Sub,
   .Div, .Mod, .Lt, .Le, .Gt, .Ge, .Eq, .ToString, .StringToAtom,
   .StringAppend, .Not, .And, .Or, .List, .Cons, .Head, .Tail, .Map,
   .IsBool, .IsAtom, .IsPair, .IsNull, .IsNumber, .IsString, .IsProc,
   .IsDef, .IsRef, .NewRef, .GetRef, .SetRef, .Async, .IsAtomMap,
   .NewAtomMap, .Lookup, .Insert, .InsertNew, .SetTimeout, .IsMVar,
   .IsGoal, .NewMVar, .PrettyPrint, .NewGoal, .GoalType, .InferType,
   .GetMVars, .GetGoals, .SetGoals, .ToExpr, .Refine, .Have, .Stat,
   .GetDecl, .AddDecl, .AddTerm, .AddThm, .SetReporting, .RefineExtraArgs]

/-- `BuiltinProc::from_str(data[a].name)`. -/
def builtinOfAtom (a : Nat) : Option BuiltinProc := builtinList[a]?

/-! ## Part 16: the builtin table (`evaluate_builtin`) -/

/-- The fold inside the `StringAppend` builtin: concatenate the string
views of the arguments, failing on a non-string. -/
def stringAppendLoop (acc : String) : List LispVal → Except String String
  | [] => .ok acc
  | e :: es =>
    match asString e with
    | .error er => .error er
    | .ok s => stringAppendLoop (acc ++ s) es

/-- `evaluate_builtin`: dispatch on the builtin and produce the next
machine state; `mv`/`gl` are the metavariable and goal lists of the
local context (the only elaborator state the builtins touch, besides
the elided printing).  Called only after `ProcSpec::valid` has
accepted the argument count; patterns unreachable under that check
produce the error "arity panic" (an `unwrap` panic in the source). -/
def evaluateBuiltin (mv gl : List LispVal) (f : BuiltinProc)
    (args : List LispVal) : Except String (EvalState × List LispVal × List LispVal) :=
  match f with
  | .Display =>
    match asString (args.headD .undef) with
    | .error er => .error er
    | .ok _ => .ok (.ret .undef, mv, gl)
  | .Error =>
    match asString (args.headD .undef) with
    | .error er => .error er
    | .ok s => .error s
  | .Print => .ok (.ret .undef, mv, gl)
  | .Begin => .ok (.ret (args.getLastD .undef), mv, gl)
  | .Apply =>
    match args with
    | p :: a1 :: rest =>
      match (a1 :: rest).getLast? with
      | none => .error "arity panic"
      | some tl =>
        match applyLoop (a1 :: rest).dropLast tl with
        | .error er => .error er
        | .ok newArgs => .ok (.app p newArgs [], mv, gl)
    | _ => .error "arity panic"
  | .Add =>
    match intFold (· + ·) 0 args with
    | .error er => .error er
    | .ok n => .ok (.ret (.num n), mv, gl)
  | .Mul =>
    match intFold (· * ·) 1 args with
    | .error er => .error er
    | .ok n => .ok (.ret (.num n), mv, gl)
  | .Max =>
    match args with
    | e :: es =>
      match asInt e with
      | .error er => .error er
      | .ok n =>
        match intFold (fun a b => max a b) n es with
        | .error er => .error er
        | .ok n => .ok (.ret (.num n), mv, gl)
    | [] => .error "arity panic"
  | .Min =>
    match args with
    | e :: es =>
      match asInt e with
      | .error er => .error er
      | .ok n =>
        match intFold (fun a b => min a b) n es with
        | .error er => .error er
        | .ok n => .ok (.ret (.num n), mv, gl)
    | [] => .error "arity panic"
  | .Sub =>
    match args with
    | [e] =>
      match asInt e with
      | .error er => .error er
      | .ok n => .ok (.ret (.num (-n)), mv, gl)
    | e :: es =>
      match asInt e with
      | .error er => .error er
      | .ok n =>
        match intFold (· - ·) n es with
        | .error er => .error er
        | .ok n => .ok (.ret (.num n), mv, gl)
    | [] => .error "arity panic"
  | .Div =>
    match args with
    | e :: es =>
      match asInt e with
      | .error er => .error er
      | .ok n =>
        match intFold Int.tdiv n es with
        | .error er => .error er
        | .ok n => .ok (.ret (.num n), mv, gl)
    | [] => .error "arity panic"
  | .Mod =>
    match args with
    | e :: es =>
      match asInt e with
      | .error er => .error er
      | .ok n =>
        match intFold Int.tmod n es with
        | .error er => .error er
        | .ok n => .ok (.ret (.num n), mv, gl)
    | [] => .error "arity panic"
  | .Lt =>
    match intBoolBinop (fun a b => decide (a < b)) args with
    | .error er => .error er
    | .ok b => .ok (.ret (.bool b), mv, gl)
  | .Le =>
    match intBoolBinop (fun a b => decide (a ≤ b)) args with
    | .error er => .error er
    | .ok b => .ok (.ret (.bool b), mv, gl)
  | .Gt =>
    match intBoolBinop (fun a b => decide (b < a)) args with
    | .error er => .error er
    | .ok b => .ok (.ret (.bool b), mv, gl)
  | .Ge =>
    match intBoolBinop (fun a b => decide (b ≤ a)) args with
    | .error er => .error er
    | .ok b => .ok (.ret (.bool b), mv, gl)
  | .Eq =>
    match intBoolBinop (fun a b => decide (a = b)) args with
    | .error er => .error er
    | .ok b => .ok (.ret (.bool b), mv, gl)
  | .ToString => .ok (.ret (.str (toStringFn (args.headD .undef))), mv, gl)
  | .StringToAtom =>
    match asString (args.headD .undef) with
    | .error er => .error er
    | .ok s => .ok (.ret (.atom (internAtom s)), mv, gl)
  | .StringAppend =>
    match stringAppendLoop "" args with
    | .error er => .error er
    | .ok out => .ok (.ret (.str out), mv, gl)
  | .Not => .ok (.ret (.bool (!args.any truthy)), mv, gl)
  | .And => .ok (.ret (.bool (args.all truthy)), mv, gl)
  | .Or => .ok (.ret (.bool (args.any truthy)), mv, gl)
  | .List => .ok (.ret (.list args), mv, gl)
  | .Cons =>
    match args with
    | [] => .ok (.ret (.list []), mv, gl)
    | [e] => .ok (.ret e, mv, gl)
    | _ :: _ :: _ =>
      match args.getLast? with
      | none => .error "arity panic"
      | some r => .ok (.ret (.dotted args.dropLast r), mv, gl)
  | .Head =>
    match headFn (args.headD .undef) with
    | .error er => .error er
    | .ok v => .ok (.ret v, mv, gl)
  | .Tail =>
    match tailFn (args.headD .undef) with
    | .error er => .error er
    | .ok v => .ok (.ret v, mv, gl)
  | .Map =>
    match args with
    | [p] => .ok (.app p [] [], mv, gl)
    | p :: rest => .ok (.mapProc p (p :: rest) [], mv, gl)
    | [] => .error "arity panic"
  | .IsBool => .ok (.ret (.bool (args.headD .undef).isBool), mv, gl)
  | .IsAtom => .ok (.ret (.bool (args.headD .undef).isAtom), mv, gl)
  | .IsPair => .ok (.ret (.bool (args.headD .undef).isPair), mv, gl)
  | .IsNull => .ok (.ret (.bool (args.headD .undef).isNull), mv, gl)
  | .IsNumber => .ok (.ret (.bool (args.headD .undef).isInt), mv, gl)
  | .IsString => .ok (.ret (.bool (args.headD .undef).isString), mv, gl)
  | .IsProc => .ok (.ret (.bool (args.headD .undef).isProc), mv, gl)
  | .IsDef => .ok (.ret (.bool (args.headD .undef).isDef), mv, gl)
  | .IsRef => .ok (.ret (.bool (args.headD .undef).isRef), mv, gl)
  | .NewRef => .ok (.ret (.ref (args.headD .undef)), mv, gl)
  | .GetRef =>
    match asRef (args.headD .undef) with
    | .error er => .error er
    | .ok v => .ok (.ret v, mv, gl)
  | .SetRef =>
    match asRef (args.headD .undef) with
    | .error er => .error er
    | .ok _ => .ok (.ret .undef, mv, gl)
  | .Async =>
    match args with
    | p :: rest => .ok (.app p rest [], mv, gl)
    | [] => .error "arity panic"
  | .IsAtomMap => .ok (.ret (.bool (args.headD .undef).isMap), mv, gl)
  | .NewAtomMap =>
    match newAtomMapLoop [] args with
    | .error er => .error er
    | .ok m => .ok (.ret (.atomMap m), mv, gl)
  | .Lookup =>
    match asMap (args.headD .undef) with
    | .error er => .error er
    | .ok m =>
      match asStringAtom (args.getD 1 .undef) with
      | .error er => .error er
      | .ok k =>
        match assoc (fun x => decide (x = k)) m with
        | some e => .ok (.ret e, mv, gl)
        | none =>
          let v := args.getD 2 .undef
          if v.isProc then .ok (.app v [] [], mv, gl)
          else .ok (.ret v, mv, gl)
  | .Insert =>
    match asRefMut (args.headD .undef) with
    | none => .error "expected a mutable map"
    | some w =>
      if asMapMutOk w then
        match asStringAtom (args.getD 1 .undef) with
        | .error er => .error er
        | .ok _ => .ok (.ret .undef, mv, gl)
      else .error "expected a mutable map"
  | .InsertNew =>
    if asMapMutOk (args.headD .undef) then
      match asStringAtom (args.getD 1 .undef) with
      | .error er => .error er
      | .ok _ => .ok (.ret .undef, mv, gl)
    else .error "expected a map"
  | .SetTimeout => .ok (.ret .undef, mv, gl)
  | .IsMVar => .ok (.ret (.bool (args.headD .undef).isMVar), mv, gl)
  | .IsGoal => .ok (.ret (.bool (args.headD .undef).isGoal), mv, gl)
  | .NewMVar =>
    if args.isEmpty then
      .ok (.ret (.mvar mv.length), mv ++ [.mvar mv.length], gl)
    else if args.length = 2 then
      match (args.headD .undef).asAtom with
      | none => .error "expected an atom"
      | some _ =>
        match (args.getD 1 .undef).asBool with
        | none => .error "expected a bool"
        | some _ => .ok (.ret (.mvar mv.length), mv ++ [.mvar mv.length], gl)
    else .error "invalid arguments"
  | .PrettyPrint => .ok (.ret (.str "<printed value>"), mv, gl)
  | .NewGoal => .ok (.ret (.annot (.goal (args.getLastD .undef))), mv, gl)
  | .GoalType =>
    match (args.headD .undef).goalType with
    | none => .error "expected a goal"
    | some v => .ok (.ret v, mv, gl)
  | .InferType => .ok (.ret .undef, mv, gl)
  | .GetMVars => .ok (.ret (.list mv), mv, gl)
  | .GetGoals => .ok (.ret (.list gl), mv, gl)
  | .SetGoals => .ok (.ret .undef, mv, args)
  | .ToExpr => .ok (.ret .undef, mv, gl)
  | .Refine => .ok (.ret .undef, mv, gl)
  | .Have => .ok (.ret .undef, mv, gl)
  | .Stat => .ok (.ret .undef, mv, gl)
  | .GetDecl => .ok (.ret .undef, mv, gl)
  | .AddDecl => .ok (.ret .undef, mv, gl)
  | .AddTerm => .ok (.ret .undef, mv, gl)
  | .AddThm => .ok (.ret .undef, mv, gl)
  | .SetReporting =>
    if args.length = 1 then
      match (args.headD .undef).asBool with
      | some _ => .ok (.ret .undef, mv, gl)
      | none => .error "invalid arguments"
    else
      match (args.getD 1 .undef).asBool with
      | some _ =>
        match asAtomString (args.headD .undef) with
        | .error er => .error er
        | .ok s =>
          if s = "error" || s = "warn" || s = "info" then .ok (.ret .undef, mv, gl)
          else .error "unknown error level"
      | none => .error "invalid arguments"
  | .RefineExtraArgs =>
    if 2 < args.length then .error "too many arguments"
    else .ok (.ret (args.getD 1 .undef), mv, gl)

/-! ## Part 17: the `run` loop as a step function -/

/-- `Proc::spec` (the impl lives outside the provided sources; modelled
from the spec: builtins carry the table arity, lambdas their declared
spec, and a continuation handle takes the one argument of the
resumption examples). -/
def Proc.spec : Proc → ProcSpec
  | .builtin p => p.spec
  | .lambda sp _ _ => sp
  | .matchCont _ => .exact 1

/-- The inner gather of `State::MapProc`: advance every remaining
cursor one element, failing if any is exhausted
("mismatched input length"). -/
def mapProcHeads : List LispVal → Except String (List LispVal × List LispVal)
  | [] => .ok ([], [])
  | u :: us =>
    match unconsNext u with
    | none => .error "mismatched input length"
    | some (e, u2) =>
      match mapProcHeads us with
      | .error er => .error er
      | .ok (es, us2) => .ok (e :: es, u2 :: us2)

/-- The result of one iteration of the `run` loop. -/
inductive StepRes where
  | cont (s : EState) (a : EvalState)
  | done (s : EState) (v : LispVal)

/-- The local-context extension of a lambda application:
`Exact` appends the arguments; `AtLeast n` appends the first `n` and
bundles the excess into a trailing list. -/
def lambdaExtend (spec : ProcSpec) (env args : List LispVal) : List LispVal :=
  match spec with
  | .exact _ => env ++ args
  | .atLeast n => env ++ args.take n ++ [.list (args.drop n)]

/-- One iteration of `Evaluator::run` (eval.rs lines 639-849): the
stack-overflow guard, then the dispatch on the active `State`.
`pf` bounds the inner `pattern_match` loop (the timeout check, the
printing side effects and the spans are dropped; panics on impossible
patterns become errors tagged "panic"). -/
def step (pf : Nat) (s : EState) (a : EvalState) : Except String StepRes :=
  if 1024 ≤ s.stack.length then .error "stack overflow"
  else
  match a with
  | .eval ir =>
    match ir with
    | .local i =>
      match s.ctx[i]? with
      | none => .error "index panic"
      | some v => .ok (.cont s (.ret v))
    | .global a =>
      match assoc (fun x => decide (x = a)) s.globals with
      | some v => .ok (.cont s (.ret v))
      | none =>
        match builtinOfAtom a with
        | none => .error "Reference to unbound variable"
        | some p =>
          .ok (.cont { s with globals := (a, .proc (.builtin p)) :: s.globals }
            (.ret (.proc (.builtin p))))
    | .const v => .ok (.cont s (.ret v))
    | .list es => .ok (.cont s (.list [] es))
    | .dottedList es e => .ok (.cont s (.dottedList [] es e))
    | .app f es => .ok (.cont { s with stack := .app es :: s.stack } (.eval f))
    | .ite c t e => .ok (.cont { s with stack := .ite t e :: s.stack } (.eval c))
    | .focus => .ok (.cont s (.ret .undef))
    | .defn x v => .ok (.cont { s with stack := .defn x :: s.stack } (.eval v))
    | .eval es =>
      match es with
      | [] => .ok (.cont s (.ret .undef))
      | e :: it => .ok (.cont { s with stack := .eval it :: s.stack } (.eval e))
    | .lambda spec code => .ok (.cont s (.ret (.proc (.lambda spec s.ctx code))))
    | .matchIR e brs => .ok (.cont { s with stack := .matchF brs :: s.stack } (.eval e))
  | .ret v =>
    match s.stack with
    | [] => .ok (.done s v)
    | .list acc rest :: st =>
      .ok (.cont { s with stack := st } (.list (acc ++ [v]) rest))
    | .dottedList acc rest r :: st =>
      .ok (.cont { s with stack := st } (.dottedList (acc ++ [v]) rest r))
    | .dottedList2 acc :: st =>
      if acc.isEmpty then .ok (.cont { s with stack := st } (.ret v))
      else
        match v with
        | .list es => .ok (.cont { s with stack := st } (.ret (.list (acc ++ es))))
        | .dotted es e => .ok (.cont { s with stack := st } (.ret (.dotted (acc ++ es) e)))
        | e => .ok (.cont { s with stack := st } (.ret (.dotted acc e)))
    | .app es :: st => .ok (.cont { s with stack := st } (.app v [] es))
    | .app2 f acc rest :: st =>
      .ok (.cont { s with stack := st } (.app f (acc ++ [v]) rest))
    | .ite t e :: st =>
      .ok (.cont { s with stack := st } (.eval (if truthy v then t else e)))
    | .defn x :: st =>
      match st with
      | [] =>
        match x with
        | some a => .ok (.cont { s with stack := [], globals := (a, v) :: s.globals } (.ret .undef))
        | none => .ok (.cont { s with stack := [] } (.ret .undef))
      | fr :: st2 =>
        if fr.supportsDef then
          .ok (.cont { s with stack := fr :: .drop s.ctx.length :: st2,
                              ctx := s.ctx ++ [v] } (.ret .undef))
        else .ok (.cont { s with stack := fr :: st2 } (.ret .undef))
    | .eval rest :: st =>
      match rest with
      | [] => .ok (.cont { s with stack := st } (.ret v))
      | e :: it => .ok (.cont { s with stack := .eval it :: st } (.eval e))
    | .matchF brs :: st => .ok (.cont { s with stack := st } (.matchS v brs))
    | .testPattern scrut brs br pstack vars :: st =>
      .ok (.cont { s with stack := st }
        (.pattern scrut brs br pstack vars (.ret (truthy v))))
    | .drop n :: st => .ok (.cont { s with stack := st, ctx := s.ctx.take n } (.ret v))
    | .ret oldCtx _ :: st => .ok (.cont { s with stack := st, ctx := oldCtx } (.ret v))
    | .matchCont _ _ flag :: st =>
      .ok (.cont { s with stack := st, flags := clearFlag s.flags flag } (.ret v))
    | .mapProc f us acc :: st =>
      .ok (.cont { s with stack := st } (.mapProc f us (acc ++ [v])))
  | .list acc rest =>
    match rest with
    | [] => .ok (.cont s (.ret (.annot (.list acc))))
    | e :: it => .ok (.cont { s with stack := .list acc it :: s.stack } (.eval e))
  | .dottedList acc rest r =>
    match rest with
    | [] => .ok (.cont { s with stack := .dottedList2 acc :: s.stack } (.eval r))
    | e :: it => .ok (.cont { s with stack := .dottedList acc it r :: s.stack } (.eval e))
  | .app f acc rest =>
    match rest with
    | e :: it => .ok (.cont { s with stack := .app2 f acc it :: s.stack } (.eval e))
    | [] =>
      match unwrapL f with
      | .proc p =>
        if ¬ p.spec.valid acc.length then .error "expected argument(s)"
        else
          match p with
          | .builtin b =>
            match evaluateBuiltin s.mvars s.goals b acc with
            | .error er => .error er
            | .ok (a2, mv2, gl2) =>
              .ok (.cont { s with mvars := mv2, goals := gl2 } a2)
          | .lambda spec env code =>
            match s.stack with
            | .ret old _ :: st =>
              .ok (.cont { s with
                  ctx := lambdaExtend spec env acc,
                  stack := .drop env.length :: .ret old code :: st } (.eval code))
            | _ =>
              .ok (.cont { s with
                  ctx := lambdaExtend spec env acc,
                  stack := .drop env.length :: .ret s.ctx code :: s.stack } (.eval code))
          | .matchCont k =>
            if flagGet s.flags k = false then .error "continuation has expired"
            else
              match contWalk s.flags s.ctx k s.stack with
              | (_, _, none) => .error "continuation has expired"
              | (flags2, ctx2, some (st, scrut, brs)) =>
                .ok (.cont { s with stack := st, ctx := ctx2, flags := flags2 }
                  (.matchS scrut brs))
      | _ => .error "not a function, cannot apply"
  | .matchS scrut brs =>
    match brs with
    | [] => .error "match failed"
    | br :: it =>
      .ok (.cont s (.pattern scrut it br [] (List.replicate br.vars .undef)
        (.eval br.pat scrut)))
  | .pattern scrut it br pstack vars pst =>
    match patternMatch pf pstack vars pst with
    | none => .error "pattern fuel exhausted"
    | some (.inr (pstack2, vars2, i)) =>
      match s.ctx[i]? with
      | none => .error "index panic"
      | some p =>
        .ok (.cont { s with stack := .testPattern scrut it br pstack2 vars2 :: s.stack }
          (.app p [scrut] []))
    | some (.inl (_, false)) => .ok (.cont s (.matchS scrut it))
    | some (.inl (vars2, true)) =>
      let start := s.ctx.length
      if br.cont then
        let k := s.flags.length
        .ok (.cont { s with
          ctx := s.ctx ++ vars2 ++ [.proc (.matchCont k)],
          flags := s.flags ++ [true],
          stack := .drop start :: .matchCont scrut it k :: s.stack } (.eval br.eval))
      else
        .ok (.cont { s with
          ctx := s.ctx ++ vars2,
          stack := .drop start :: s.stack } (.eval br.eval))
  | .mapProc f us acc =>
    match us with
    | [] => .error "map panic"
    | u0 :: rest =>
      match unconsNext u0 with
      | none =>
        if unconsExactly0 u0 && rest.all unconsExactly0 then
          .ok (.cont s (.ret (.list acc)))
        else .error "mismatched input length"
      | some (e0, u02) =>
        match mapProcHeads rest with
        | .error er => .error er
        | .ok (es, rest2) =>
          .ok (.cont { s with stack := .mapProc f (u02 :: rest2) acc :: s.stack }
            (.app f (e0 :: es) []))

/-- Finitely many iterations of the `run` loop: the reflexive-transitive
closure of `step` restricted to continuing results. -/
inductive Steps (pf : Nat) : EState → EvalState → EState → EvalState → Prop where
  | refl (s : EState) (a : EvalState) : Steps pf s a s a
  | tail {s a s1 a1 s2 a2} : Steps pf s a s1 a1 →
      step pf s1 a1 = .ok (.cont s2 a2) → Steps pf s a s2 a2

/-! ## Part 18: tail compaction (the chunked representation) -/

/-- Flatten the chunk spine of a (possibly dotted) list value. -/
def flattenL : LispVal → List LispVal
  | .list es => es
  | .dotted es r => es ++ flattenL r
  | _ => []

/-- The doubling-chunked shape produced by `exponential_backoff` on a
proper list, entered at index `i`: `DottedList` chunks of exactly `i`,
`2i`, `4i`, … elements, ending in a plain `List` of at most the last
chunk size. -/
def chunkedL : Nat → LispVal → Bool
  | i, .list es => decide (es.length ≤ i)
  | i, .dotted es r => decide (es.length = i) && chunkedL (2 * i) r
  | _, _ => false

/-- Flattening the chunked structure recovers the suffix `es[i..]`. -/
theorem expBackoff_flatten (es : List LispVal) (fuel i : Nat) :
    flattenL (expBackoff es (fun v => .list v) fuel i) = es.drop i := by
  induction fuel generalizing i with
  | zero => simp [expBackoff, flattenL]
  | succ fuel ih =>
    rw [expBackoff]
    split
    · simp [flattenL]
    · simp only [flattenL, ih]
      rw [show 2 * i = i + i by omega, ← List.drop_drop]
      exact List.take_append_drop i (es.drop i)

/-- With enough fuel the backoff output is doubling-chunked. -/
theorem expBackoff_chunked (es : List LispVal) (fuel i : Nat) (h1 : 0 < i)
    (h2 : es.length ≤ fuel + 2 * i) :
    chunkedL i (expBackoff es (fun v => .list v) fuel i) = true := by
  induction fuel generalizing i with
  | zero =>
    simp only [expBackoff, chunkedL, List.length_drop, decide_eq_true_iff]
    omega
  | succ fuel ih =>
    rw [expBackoff]
    split
    · rename_i hge
      simp only [chunkedL, List.length_drop, decide_eq_true_iff]
      omega
    · rename_i hlt
      simp only [chunkedL, Bool.and_eq_true, decide_eq_true_iff,
        List.length_take, List.length_drop]
      refine ⟨by omega, ih (2 * i) (by omega) (by omega)⟩

/-- C4, counterexample: the claim quantifies over every proper list,
but `tl` of the empty proper list is an error, not a chunked structure
of flat length `0 - 1`. -/
theorem claim4_counterexample :
    evaluateBuiltin [] [] .Tail [.list []] = .error "evaluating tl of nil" := rfl

/-- C4 (amended to nonempty proper lists): the builtin `tl` on a
nonempty proper list returns a doubling-chunked structure whose
flattened form is exactly the flat tail, of length `length L - 1`. -/
theorem claim4_tail_compaction (mv gl : List LispVal) (e : LispVal)
    (es : List LispVal) :
    ∃ t, evaluateBuiltin mv gl .Tail [.list (e :: es)] = .ok (.ret t, mv, gl) ∧
      chunkedL 1 t = true ∧ flattenL t = es ∧
      (flattenL t).length = (e :: es).length - 1 := by
  refine ⟨expBackoff (e :: es) (fun v => .list v) (e :: es).length 1, rfl, ?_, ?_, ?_⟩
  · exact expBackoff_chunked _ _ _ (by omega) (by simp)
  · simpa using expBackoff_flatten (e :: es) (e :: es).length 1
  · simp [expBackoff_flatten]

/-! ## Part 19: builtin-level claims (map, comparisons, apply, insert) -/

/-- C10: `map` called with the procedure alone (no input lists) does not
return an empty list or error: it transitions to applying `f` to zero
arguments, so `f`'s own result is returned directly. -/
theorem claim10_map_single (mv gl : List LispVal) (f : LispVal) :
    evaluateBuiltin mv gl .Map [f] = .ok (.app f [] [], mv, gl) := rfl

/-- C9: chained numeric comparison.  `(< a b c)` computes the
conjunction of the consecutive pairs, it returns `#t` exactly when
`(< a b)` and `(< b c)` both do, and it short-circuits: when the first
pair already fails, the result is `#f` whatever the third argument is
(even a non-number). -/
theorem claim9_chained_lt (mv gl : List LispVal) (a b c : Int) :
    (evaluateBuiltin mv gl .Lt [.num a, .num b, .num c] =
      .ok (.ret (.bool (decide (a < b) && decide (b < c))), mv, gl)) ∧
    (evaluateBuiltin mv gl .Lt [.num a, .num b, .num c] =
        .ok (.ret (.bool true), mv, gl) ↔
      (evaluateBuiltin mv gl .Lt [.num a, .num b] =
          .ok (.ret (.bool true), mv, gl) ∧
        evaluateBuiltin mv gl .Lt [.num b, .num c] =
          .ok (.ret (.bool true), mv, gl))) ∧
    (∀ v : LispVal, ¬ a < b →
      evaluateBuiltin mv gl .Lt [.num a, .num b, v] =
        .ok (.ret (.bool false), mv, gl)) := by
  have e3 : evaluateBuiltin mv gl .Lt [.num a, .num b, .num c] =
      .ok (.ret (.bool (decide (a < b) && decide (b < c))), mv, gl) := by
    by_cases h1 : a < b <;> by_cases h2 : b < c <;>
      simp [evaluateBuiltin, intBoolBinop, intBoolBinop.go, asInt, unwrapL, h1, h2]
  have e2ab : evaluateBuiltin mv gl .Lt [.num a, .num b] =
      .ok (.ret (.bool (decide (a < b))), mv, gl) := by
    by_cases h1 : a < b <;>
      simp [evaluateBuiltin, intBoolBinop, intBoolBinop.go, asInt, unwrapL, h1]
  have e2bc : evaluateBuiltin mv gl .Lt [.num b, .num c] =
      .ok (.ret (.bool (decide (b < c))), mv, gl) := by
    by_cases h2 : b < c <;>
      simp [evaluateBuiltin, intBoolBinop, intBoolBinop.go, asInt, unwrapL, h2]
  refine ⟨e3, ?_, ?_⟩
  · rw [e3, e2ab, e2bc]
    simp only [Except.ok.injEq, Prod.mk.injEq, EvalState.ret.injEq,
      LispVal.bool.injEq, and_true, Bool.and_eq_true]
  · intro v h1
    simp [evaluateBuiltin, intBoolBinop, intBoolBinop.go, asInt, unwrapL, h1]

/-- Witness for C9 at concrete inputs. -/
theorem claim9_witness :
    evaluateBuiltin [] [] .Lt [.num 1, .num 2, .num 3] =
      .ok (.ret (.bool true), [], []) ∧
    evaluateBuiltin [] [] .Lt [.num 2, .num 1, .str "x"] =
      .ok (.ret (.bool false), [], []) := by
  constructor
  · have h := (claim9_chained_lt [] [] 1 2 3).1
    simpa using h
  · exact (claim9_chained_lt [] [] 2 1 0).2.2 (.str "x") (by decide)

/-- C8 (code bug): `apply` matches its last argument against the bare
`LispKind` without unwrapping.  A plain list splices, but the same list
wrapped in `Annot` or stored in a `Ref` raises
"apply: last argument is not a list", violating the spec's unwrapping
invariant for accessors. -/
theorem claim8_apply_no_unwrap (mv gl : List LispVal) (p : LispVal)
    (es : List LispVal) :
    (evaluateBuiltin mv gl .Apply [p, .list es] = .ok (.app p es [], mv, gl)) ∧
    (evaluateBuiltin mv gl .Apply [p, .annot (.list es)] =
      .error "apply: last argument is not a list") ∧
    (evaluateBuiltin mv gl .Apply [p, .ref (.list es)] =
      .error "apply: last argument is not a list") := ⟨rfl, rfl, rfl⟩

/-- C7, counterexample: a directly-owned `AtomMap` (no `Ref` around it)
is rejected by `insert!`, although the claim promises success for
"directly owned" maps: `as_ref_mut` demands a `Ref` before
`as_map_mut` ever runs. -/
theorem claim7_counterexample :
    evaluateBuiltin [] [] .Insert [.atomMap [], .atom 0] =
      .error "expected a mutable map" := rfl

/-- Reduction of the `insert!` arm on a two-element argument list. -/
theorem evaluateBuiltin_insert (mv gl : List LispVal) (v k : LispVal) :
    evaluateBuiltin mv gl .Insert [v, k] =
      match asRefMut v with
      | none => .error "expected a mutable map"
      | some w =>
        if asMapMutOk w then
          match asStringAtom k with
          | .error er => .error er
          | .ok _ => .ok (.ret .undef, mv, gl)
        else .error "expected a mutable map" := rfl

/-- C7 (amended): `insert!` succeeds exactly when stripping `Annot`s
reaches a `Ref` whose contents chain (through further `Annot`/`Ref`
layers) reaches an `AtomMap`; in every other case it fails with
"expected a mutable map". -/
theorem claim7_mutable_map (mv gl : List LispVal) (v k : LispVal) (a : Nat)
    (hk : asStringAtom k = .ok a) :
    (evaluateBuiltin mv gl .Insert [v, k] = .ok (.ret .undef, mv, gl) ↔
      ∃ w, asRefMut v = some w ∧ asMapMutOk w = true) ∧
    ((¬ ∃ w, asRefMut v = some w ∧ asMapMutOk w = true) →
      evaluateBuiltin mv gl .Insert [v, k] = .error "expected a mutable map") := by
  rw [evaluateBuiltin_insert]
  constructor
  · constructor
    · intro h
      split at h
      · exact absurd h (by simp)
      · rename_i w hw
        split at h
        · rename_i hmap
          exact ⟨w, hw, hmap⟩
        · exact absurd h (by simp)
    · rintro ⟨w, hw, hmap⟩
      rw [hw]
      simp only [hmap, if_true]
      rw [hk]
  · intro hno
    match hw : asRefMut v with
    | none => rfl
    | some w =>
      have hm : asMapMutOk w = false := by
        cases hmm : asMapMutOk w
        · rfl
        · exact absurd ⟨w, hw, hmm⟩ hno
      simp [hm]

/-- Witness for C7 at concrete inputs. -/
theorem claim7_witness :
    asStringAtom (.atom 3) = .ok 3 ∧
    evaluateBuiltin [] [] .Insert [.annot (.ref (.atomMap [])), .atom 3] =
      .ok (.ret .undef, [], []) :=
  ⟨rfl, (claim7_mutable_map [] [] (.annot (.ref (.atomMap []))) (.atom 3) 3
      rfl).1.2 ⟨.atomMap [], rfl, rfl⟩⟩

/-! ## Part 20: the Def fallback (claim C6) -/

/-- C6, counterexample: with a non-supporting frame (here an `If`)
under the `Def`, the evaluated value is silently discarded — the frame
is pushed back unchanged, the local context is not extended, and the
global table is NOT mutated (it stays empty), contradicting the
claimed fallback to a global binding. -/
theorem claim6_counterexample :
    step 0 ⟨[], [.defn (some 7), .ite (.const .undef) (.const .undef)],
        [], [], [], []⟩ (.ret (.num 42)) =
      .ok (.cont ⟨[], [.ite (.const .undef) (.const .undef)], [], [], [], []⟩
        (.ret .undef)) := rfl

/-- C6 (amended): when the value of a `Def` returns, (1) with an empty
remaining stack a named definition mutates the global table; (2) when
the frame under the `Def` supports definitions (`App2` or `Eval`) the
value is pushed as a new local with a `Drop` frame sealing it; (3) with
any other frame under the `Def` the value is silently discarded: the
frame is pushed back and neither the locals nor the globals change. -/
theorem claim6_def_fallback (pf : Nat) (s : EState) (v : LispVal)
    (x : Option Nat) (fr : Frame) (st : List Frame) (a : Nat)
    (hlen : s.stack.length < 1024) :
    (s.stack = [.defn (some a)] →
      step pf s (.ret v) =
        .ok (.cont { s with stack := [], globals := (a, v) :: s.globals }
          (.ret .undef))) ∧
    (s.stack = .defn x :: fr :: st → fr.supportsDef = true →
      step pf s (.ret v) =
        .ok (.cont { s with
            stack := fr :: .drop s.ctx.length :: st,
            ctx := s.ctx ++ [v] } (.ret .undef))) ∧
    (s.stack = .defn x :: fr :: st → fr.supportsDef = false →
      step pf s (.ret v) =
        .ok (.cont { s with stack := fr :: st } (.ret .undef))) := by
  have hguard : ¬ (1024 ≤ s.stack.length) := by omega
  refine ⟨?_, ?_, ?_⟩
  · intro heq
    rw [heq] at hguard
    simp only [step, heq, if_neg hguard]
  · intro heq hsup
    rw [heq] at hguard
    simp only [step, heq, if_neg hguard]
    simp only [hsup, if_true]
  · intro heq hsup
    rw [heq] at hguard
    simp only [step, heq, if_neg hguard]
    simp only [hsup]
    simp

/-- Witness for C6: the global-write case at a concrete input. -/
theorem claim6_witness :
    step 0 ⟨[], [.defn (some 5)], [], [], [], []⟩ (.ret (.num 1)) =
      .ok (.cont ⟨[], [], [], [(5, LispVal.num 1)], [], []⟩ (.ret .undef)) :=
  (claim6_def_fallback 0 ⟨[], [.defn (some 5)], [], [], [], []⟩ (.num 1)
    none (.drop 0) [] 5 (by decide)).1 rfl

/-! ## Part 21: one-shot continuations (claim C5) -/

/-- Clearing a flag preserves the length of the store. -/
theorem clearFlag_length (f : List Bool) (j : Nat) :
    (clearFlag f j).length = f.length := List.length_set f j false

/-- The cleared slot reads `false`. -/
theorem flagGet_clearFlag_self (f : List Bool) (k : Nat) :
    flagGet (clearFlag f k) k = false := by
  unfold flagGet clearFlag
  by_cases h : k < f.length
  · rw [List.getD_eq_getElem?_getD, List.getElem?_set_self (by simpa using h)]
    rfl
  · rw [List.getD_eq_getElem?_getD, List.getElem?_eq_none (by simpa using h)]
    rfl

/-- Clearing any flag keeps a `false` slot `false`. -/
theorem flagGet_clearFlag_false (f : List Bool) (j k : Nat)
    (hf : flagGet f k = false) : flagGet (clearFlag f j) k = false := by
  by_cases h : j = k
  · subst h; exact flagGet_clearFlag_self f j
  · have h1 : (clearFlag f j)[k]? = f[k]? := List.getElem?_set_ne (by omega)
    unfold flagGet at hf ⊢
    rw [List.getD_eq_getElem?_getD] at hf ⊢
    rw [h1]
    exact hf

/-- Allocating a fresh flag does not disturb existing slots. -/
theorem flagGet_append (f : List Bool) (b : Bool) (k : Nat)
    (hk : k < f.length) : flagGet (f ++ [b]) k = flagGet f k := by
  unfold flagGet
  rw [List.getD_eq_getElem?_getD, List.getD_eq_getElem?_getD,
    List.getElem?_append_left hk]

/-- The continuation walk only ever clears flags: it preserves the
store length and never turns a `false` slot `true`. -/
theorem contWalk_flags (k : Nat) :
    ∀ (st : List Frame) (f : List Bool) (c : List LispVal),
      ((contWalk f c k st).1).length = f.length ∧
      (∀ j, flagGet f j = false → flagGet (contWalk f c k st).1 j = false)
  | [], f, c => ⟨rfl, fun _ h => h⟩
  | .matchCont scrut brs a :: st, f, c => by
    rw [contWalk]
    by_cases h : a = k
    · simp only [h, if_true]
      exact ⟨clearFlag_length f k, fun j hj => flagGet_clearFlag_false f k j hj⟩
    · simp only [h, if_false]
      obtain ⟨h1, h2⟩ := contWalk_flags k st (clearFlag f a) c
      exact ⟨h1.trans (clearFlag_length f a),
        fun j hj => h2 j (flagGet_clearFlag_false f a j hj)⟩
  | .drop n :: st, f, c => contWalk_flags k st f (c.take n)
  | .ret oldCtx code :: st, f, c => contWalk_flags k st f oldCtx
  | .list acc rest :: st, f, c => contWalk_flags k st f c
  | .dottedList acc rest r :: st, f, c => contWalk_flags k st f c
  | .dottedList2 acc :: st, f, c => contWalk_flags k st f c
  | .app es :: st, f, c => contWalk_flags k st f c
  | .app2 g acc rest :: st, f, c => contWalk_flags k st f c
  | .ite t e :: st, f, c => contWalk_flags k st f c
  | .defn x :: st, f, c => contWalk_flags k st f c
  | .eval rest :: st, f, c => contWalk_flags k st f c
  | .matchF brs :: st, f, c => contWalk_flags k st f c
  | .testPattern scrut brs br ps vars :: st, f, c => contWalk_flags k st f c
  | .mapProc g us acc :: st, f, c => contWalk_flags k st f c

/-- A successful continuation walk clears the applied flag itself. -/
theorem contWalk_hit (k : Nat) :
    ∀ (st : List Frame) (f : List Bool) (c : List LispVal)
      (f2 : List Bool) (c2 : List LispVal)
      (r : List Frame × LispVal × List Branch),
      contWalk f c k st = (f2, c2, some r) → flagGet f2 k = false
  | [], f, c, f2, c2, r => by
    rw [contWalk]
    intro h
    exact absurd (congrArg (fun p => p.2.2) h) (by simp)
  | .matchCont scrut brs a :: st, f, c, f2, c2, r => by
    rw [contWalk]
    by_cases h : a = k
    · simp only [h, if_true]
      intro heq
      have : clearFlag f k = f2 := congrArg (fun p => p.1) heq
      rw [← this]
      exact flagGet_clearFlag_self f k
    · simp only [h, if_false]
      exact contWalk_hit k st (clearFlag f a) c f2 c2 r
  | .drop n :: st, f, c, f2, c2, r => contWalk_hit k st f (c.take n) f2 c2 r
  | .ret oldCtx code :: st, f, c, f2, c2, r => contWalk_hit k st f oldCtx f2 c2 r
  | .list acc rest :: st, f, c, f2, c2, r => contWalk_hit k st f c f2 c2 r
  | .dottedList acc rest rr :: st, f, c, f2, c2, r => contWalk_hit k st f c f2 c2 r
  | .dottedList2 acc :: st, f, c, f2, c2, r => contWalk_hit k st f c f2 c2 r
  | .app es :: st, f, c, f2, c2, r => contWalk_hit k st f c f2 c2 r
  | .app2 g acc rest :: st, f, c, f2, c2, r => contWalk_hit k st f c f2 c2 r
  | .ite t e :: st, f, c, f2, c2, r => contWalk_hit k st f c f2 c2 r
  | .defn x :: st, f, c, f2, c2, r => contWalk_hit k st f c f2 c2 r
  | .eval rest :: st, f, c, f2, c2, r => contWalk_hit k st f c f2 c2 r
  | .matchF brs :: st, f, c, f2, c2, r => contWalk_hit k st f c f2 c2 r
  | .testPattern scrut brs br ps vars :: st, f, c, f2, c2, r => contWalk_hit k st f c f2 c2 r
  | .mapProc g us acc :: st, f, c, f2, c2, r => contWalk_hit k st f c f2 c2 r

/-- Flags coming out of a successful continuation walk keep every
cleared slot cleared and the store length. -/
theorem flags_of_contWalk_eq {f : List Bool} {c : List LispVal} {kk : Nat}
    {st : List Frame} {flags2 : List Bool} {ctx2 : List LispVal}
    {r : List Frame × LispVal × List Branch}
    (heq : contWalk f c kk st = (flags2, ctx2, some r)) (k : Nat)
    (hk : k < f.length) (hf : flagGet f k = false) :
    flagGet flags2 k = false ∧ k < flags2.length := by
  obtain ⟨hlen, hpres⟩ := contWalk_flags kk st f c
  have h1 : (contWalk f c kk st).1 = flags2 := congrArg Prod.fst heq
  rw [h1] at hlen hpres
  exact ⟨hpres k hf, hlen ▸ hk⟩

/-- One machine step never sets an existing flag back to `true` and
never shrinks the flag store: a cleared slot stays cleared. -/
theorem step_flag_preserve (pf : Nat) (s : EState) (a : EvalState)
    (s2 : EState) (a2 : EvalState) (k : Nat)
    (h : step pf s a = .ok (.cont s2 a2))
    (hk : k < s.flags.length) (hf : flagGet s.flags k = false) :
    flagGet s2.flags k = false ∧ k < s2.flags.length := by
  simp only [step] at h
  split at h
  · exact absurd h (by simp)
  split at h
  all_goals (repeat' split at h)
  all_goals (try (simp only [reduceCtorEq] at h))
  all_goals
    simp only [Except.ok.injEq, StepRes.cont.injEq] at h
  all_goals obtain ⟨h1, h2⟩ := h
  all_goals subst h1
  all_goals
    first
    | exact ⟨hf, hk⟩
    | (refine ⟨flagGet_clearFlag_false _ _ _ hf, ?_⟩
       rw [clearFlag_length]
       exact hk)
    | (constructor
       · rw [flagGet_append _ _ _ hk]
         exact hf
       · simp only [List.length_append, List.length_cons, List.length_nil]
         omega)
    | exact flags_of_contWalk_eq (by assumption) k hk hf

/-- Cleared flags stay cleared across any run of the machine. -/
theorem steps_flag_preserve (pf : Nat) (s : EState) (a : EvalState)
    (s2 : EState) (a2 : EvalState) (k : Nat) (hs : Steps pf s a s2 a2)
    (hk : k < s.flags.length) (hf : flagGet s.flags k = false) :
    flagGet s2.flags k = false ∧ k < s2.flags.length := by
  induction hs with
  | refl => exact ⟨hf, hk⟩
  | tail hsteps hstep ih =>
    obtain ⟨hf1, hk1⟩ := ih
    exact step_flag_preserve pf _ _ _ _ k hstep hk1 hf1

/-- Reduction of one step on a saturated `MatchCont` application. -/
theorem step_matchCont_app (pf : Nat) (s : EState) (k : Nat) (v : LispVal)
    (hlen : s.stack.length < 1024) :
    step pf s (.app (.proc (.matchCont k)) [v] []) =
      if flagGet s.flags k = false then .error "continuation has expired"
      else
        match contWalk s.flags s.ctx k s.stack with
        | (_, _, none) => .error "continuation has expired"
        | (flags2, ctx2, some (st, scrut, brs)) =>
          .ok (.cont { s with stack := st, ctx := ctx2, flags := flags2 }
            (.matchS scrut brs)) := by
  simp only [step, if_neg (by omega : ¬ 1024 ≤ s.stack.length)]
  rfl

/-- C5: continuations are one-shot.  (1) Applying a `MatchCont` whose
flag reads `false` raises "continuation has expired".  (2) Any
successful application of a `MatchCont` leaves its flag cleared (the
resume walk stores `false` on every encountered frame including the
matching one).  (3) When the defining `match` returns normally, popping
its `MatchCont` frame clears the flag.  (4) A cleared flag stays
cleared for the entire rest of the run — so by (1) every later
application of that handle, or of any handle sharing the flag, fails
with "continuation has expired". -/
theorem claim5_cont_one_shot (pf k : Nat) :
    (∀ (s : EState) (v : LispVal), s.stack.length < 1024 →
      flagGet s.flags k = false →
      step pf s (.app (.proc (.matchCont k)) [v] []) =
        .error "continuation has expired") ∧
    (∀ (s s2 : EState) (v : LispVal) (a2 : EvalState),
      step pf s (.app (.proc (.matchCont k)) [v] []) = .ok (.cont s2 a2) →
      flagGet s2.flags k = false) ∧
    (∀ (s : EState) (scrut : LispVal) (brs : List Branch) (st : List Frame)
      (v : LispVal), s.stack = .matchCont scrut brs k :: st →
      s.stack.length < 1024 →
      step pf s (.ret v) =
        .ok (.cont { s with stack := st, flags := clearFlag s.flags k }
          (.ret v)) ∧
      flagGet (clearFlag s.flags k) k = false) ∧
    (∀ (s : EState) (a : EvalState) (s2 : EState) (a2 : EvalState),
      Steps pf s a s2 a2 → k < s.flags.length → flagGet s.flags k = false →
      flagGet s2.flags k = false) := by
  refine ⟨?_, ?_, ?_, ?_⟩
  · intro s v hlen hf
    rw [step_matchCont_app pf s k v hlen, if_pos hf]
  · intro s s2 v a2 h
    by_cases hlen : s.stack.length < 1024
    · rw [step_matchCont_app pf s k v hlen] at h
      split at h
      · exact absurd h (by simp)
      · split at h
        · exact absurd h (by simp)
        · rename_i flags2 ctx2 st scrut brs heq
          simp only [Except.ok.injEq, StepRes.cont.injEq] at h
          obtain ⟨h1, h2⟩ := h
          subst h1
          exact contWalk_hit k s.stack s.flags s.ctx flags2 ctx2
            (st, scrut, brs) heq
    · rw [step, if_pos (by omega)] at h
      exact absurd h (by simp)
  · intro s scrut brs st v heq hlen
    rw [heq] at hlen
    constructor
    · simp only [step, heq, if_neg (by omega : ¬ 1024 ≤
        (Frame.matchCont scrut brs k :: st).length)]
    · exact flagGet_clearFlag_self s.flags k
  · intro s a s2 a2 hs hk hf
    exact (steps_flag_preserve pf s a s2 a2 k hs hk hf).1

/-- Witness for C5: an expired handle errors; a normal return through
the defining match pops the frame and clears the flag. -/
theorem claim5_witness :
    (step 0 ⟨[], [], [false], [], [], []⟩
      (.app (.proc (.matchCont 0)) [.undef] []) =
        .error "continuation has expired") ∧
    (step 0 ⟨[], [.matchCont .undef [] 0], [true], [], [], []⟩
      (.ret (.num 9)) =
        .ok (.cont ⟨[], [], [false], [], [], []⟩ (.ret (.num 9)))) := by
  constructor
  · exact (claim5_cont_one_shot 0 0).1 ⟨[], [], [false], [], [], []⟩ .undef
      (by decide) (by decide)
  · exact ((claim5_cont_one_shot 0 0).2.2.1
      ⟨[], [.matchCont .undef [] 0], [true], [], [], []⟩ .undef [] [] (.num 9)
      rfl (by decide)).1
